import Mathlib

/-!
# httprouter: the route trie of `tree.go`

A shallow embedding of `treeNode.Add`, `treeNode.Resolve` and `validCharacter`,
followed by theorems about registration and resolution.

Modelling conventions.

* A Go `string` is a `List Char`; `s[n:]` is `List.drop n s`, `s[0:n]` is `List.take n s`.
* `http.Handler` is an interface value: `Option H`, where `none` is the `nil` handler.
* `map[Method]http.Handler` is an association list; a `nil` map is `none`.
  Reading a `nil` map yields `nil`, writing to it panics.
* `Method`, `Route` and the four error values are declared outside `tree.go`;
  `Method` is a type parameter `M` with decidable equality.
* The pointer-linked, mutated trie is a value; `Add` returns the trie after the
  call together with what the call returned.
* Lengths and positions are counted in characters. The source compares a length only
  once, `len(route.Path) > 1` in `addWildcardChild`, on a path that begins with the
  one-byte character `*`; every other length is the length of a prefix that is cut off.
  Strings that are not valid UTF-8 are outside the model.
-/

set_option linter.unusedSectionVars false

namespace HttpRouter

/-! ## Collaborators declared outside `tree.go` -/

/-- The two predicates of Go's `unicode` package that `validCharacter` calls.
Their tables are not part of the repository, so they are a parameter. -/
structure RuneTables where
  /-- `unicode.IsLetter` -/
  IsLetter : Char → Bool
  /-- `unicode.IsDigit` -/
  IsDigit : Char → Bool

/-- The fact about the `unicode` tables that the route grammar relies on:
the path separator is neither a letter nor a digit. -/
def RuneTables.slashIsPunct (U : RuneTables) : Prop :=
  U.IsLetter '/' = false ∧ U.IsDigit '/' = false

/-- The ASCII part of the `unicode` tables: `A-Z a-z` are the letters, `0-9` the digits. -/
def asciiTables : RuneTables := ⟨Char.isAlpha, Char.isDigit⟩

/-- The error values `Add` returns (`ErrMethodAlreadyExists`, `ErrMalformedRoute`,
`ErrInvalidCharacter`, `ErrInvalidWildCard`). -/
inductive RouteError where
  | ErrMethodAlreadyExists
  | ErrMalformedRoute
  | ErrInvalidCharacter
  | ErrInvalidWildCard
  deriving DecidableEq, Repr

/-- What a call of `Add` does: return `nil`, return an error, or panic
(assignment to an entry of a `nil` map). -/
inductive Outcome where
  | ok
  | err (e : RouteError)
  | panic
  deriving DecidableEq, Repr

/-- The `Route` struct: `AllowedMethod`, `Path`, `Handler`. -/
structure Route (M H : Type) where
  AllowedMethod : M
  Path : List Char
  Handler : Option H

/-! ## The trie -/

/-- The `treeNode` struct. -/
inductive treeNode (M H : Type) where
  | mk (pathFragment : List Char)
       (staticChildren : List (treeNode M H))
       (variableChild : Option (treeNode M H))
       (wildcardChild : Option (treeNode M H))
       (handlers : Option (List (M × Option H)))

namespace treeNode
variable {M H : Type}

/-- Field `pathFragment`. -/
def pathFragment : treeNode M H → List Char
  | mk f _ _ _ _ => f

/-- Field `staticChildren`. -/
def staticChildren : treeNode M H → List (treeNode M H)
  | mk _ s _ _ _ => s

/-- Field `variableChild`. -/
def variableChild : treeNode M H → Option (treeNode M H)
  | mk _ _ v _ _ => v

/-- Field `wildcardChild`. -/
def wildcardChild : treeNode M H → Option (treeNode M H)
  | mk _ _ _ w _ => w

/-- Field `handlers`. -/
def handlers : treeNode M H → Option (List (M × Option H))
  | mk _ _ _ _ h => h

end treeNode

section Defs
variable {M H : Type} [DecidableEq M]

/-- The root of `main`: `&treeNode{}`, every field at its zero value (the map is `nil`). -/
def emptyRoot : treeNode M H := .mk [] [] none none none

/-- A child as the three `add…Child` functions create it:
`&treeNode{pathFragment: pathFragment, handlers: map[Method]http.Handler{}}`. -/
def newChild (pathFragment : List Char) : treeNode M H :=
  .mk pathFragment [] none none (some [])

/-- Map read `handlers[method]`: `nil` for a missing key and for a `nil` map. -/
def mapGet (hs : Option (List (M × Option H))) (method : M) : Option H :=
  match hs with
  | none => none
  | some l =>
    match l.find? (fun e => decide (e.1 = method)) with
    | some e => e.2
    | none => none

/-- Map write `handlers[method] = handler` on a non-nil map. -/
def mapSet (l : List (M × Option H)) (method : M) (handler : Option H) :
    List (M × Option H) :=
  (method, handler) :: l.filter (fun e => decide (e.1 ≠ method))

/-! ## Strings -/

/-- Go's `strings.Index(s, "/")`: position of the first slash, `-1` when there is none. -/
def IndexSlash : List Char → Int
  | [] => -1
  | c :: cs => if c = '/' then 0 else
      (if IndexSlash cs = -1 then -1 else IndexSlash cs + 1)

/-- Go's `strings.HasPrefix(s, p)`. -/
def HasPrefix (s p : List Char) : Bool := p.isPrefixOf s

/-- The segment both `Add` and `Resolve` cut off the front of a path:
the whole path when `slashIndex == -1`, else `path[0:slashIndex]`. -/
def firstFragment (path : List Char) : List Char :=
  if IndexSlash path = -1 then path else path.take (IndexSlash path).toNat

/-! ## Character validation -/

/-- The function `isSpecialCharacter`. -/
def isSpecialCharacter (r : Char) : Bool :=
  r == '.' || r == '-' || r == '_'

/-- The loop of `validCharacter`, started at position `index`. -/
def validFrom (U : RuneTables) : Nat → List Char → Bool
  | _, [] => true
  | index, r :: rest =>
    if U.IsLetter r then validFrom U (index + 1) rest
    else if U.IsDigit r then validFrom U (index + 1) rest
    else if isSpecialCharacter r then validFrom U (index + 1) rest
    else if index == 0 && (r == '*' || r == ':') then validFrom U (index + 1) rest
    else false

/-- The function `validCharacter`. -/
def validCharacter (U : RuneTables) (input : List Char) : Bool :=
  validFrom U 0 input

/-! ## Insertion -/

/-- The method `addWildcardChild`; `add` is the method `Add` it calls back. -/
def addWildcardChild (add : treeNode M H → Route M H → treeNode M H × Outcome)
    (this : treeNode M H) (route : Route M H) (pathFragment : List Char) :
    treeNode M H × Outcome :=
  match this with
  | .mk f s v w hs =>
    if route.Path.length > 1 then (.mk f s v w hs, .err .ErrInvalidWildCard)
    else
      let route : Route M H := ⟨route.AllowedMethod, [], route.Handler⟩
      match w with
      | some c =>
        let res := add c route
        (.mk f s v (some res.1) hs, res.2)
      | none =>
        let res := add (newChild pathFragment) route
        (.mk f s v (some res.1) hs, res.2)

/-- The method `addVariableChild`. -/
def addVariableChild (add : treeNode M H → Route M H → treeNode M H × Outcome)
    (this : treeNode M H) (route : Route M H) (pathFragment : List Char) :
    treeNode M H × Outcome :=
  match this with
  | .mk f s v w hs =>
    let route : Route M H :=
      ⟨route.AllowedMethod, route.Path.drop pathFragment.length, route.Handler⟩
    match v with
    | some c =>
      let res := add c route
      (.mk f s (some res.1) w hs, res.2)
    | none =>
      let res := add (newChild pathFragment) route
      (.mk f s (some res.1) w hs, res.2)

/-- The `for … range this.staticChildren` loop of `addStaticChild`: the first child
whose fragment equals `pathFragment` receives the route; `none` when the loop ends
without a match. -/
def addStaticLoop (add : treeNode M H → Route M H → treeNode M H × Outcome)
    (route : Route M H) (pathFragment : List Char) :
    List (treeNode M H) → Option (List (treeNode M H) × Outcome)
  | [] => none
  | staticChild :: rest =>
    if staticChild.pathFragment = pathFragment then
      let res := add staticChild route
      some (res.1 :: rest, res.2)
    else
      match addStaticLoop add route pathFragment rest with
      | some res => some (staticChild :: res.1, res.2)
      | none => none

/-- The method `addStaticChild`. A new child is appended only after `Add` on it
returned `nil`. -/
def addStaticChild (add : treeNode M H → Route M H → treeNode M H × Outcome)
    (this : treeNode M H) (route : Route M H) (pathFragment : List Char) :
    treeNode M H × Outcome :=
  match this with
  | .mk f s v w hs =>
    let route : Route M H :=
      ⟨route.AllowedMethod, route.Path.drop pathFragment.length, route.Handler⟩
    match addStaticLoop add route pathFragment s with
    | some res => (.mk f res.1 v w hs, res.2)
    | none =>
      let res := add (newChild pathFragment) route
      if res.2 ≠ .ok then (.mk f s v w hs, res.2)
      else (.mk f (s ++ [res.1]) v w hs, .ok)

/-- The body of the method `Add`; `add` stands for the calls of `Add` that the three
`add…Child` methods make on a child node. -/
def AddStep (U : RuneTables) (add : treeNode M H → Route M H → treeNode M H × Outcome)
    (this : treeNode M H) (route : Route M H) : treeNode M H × Outcome :=
  if route.Path.length = 0 then
    if (mapGet this.handlers route.AllowedMethod).isSome then
      (this, .err .ErrMethodAlreadyExists)
    else
      match this with
      | .mk f s v w none => (.mk f s v w none, .panic)
      | .mk f s v w (some l) =>
        (.mk f s v w (some (mapSet l route.AllowedMethod route.Handler)), .ok)
  else if route.Path.head? ≠ some '/' then (this, .err .ErrMalformedRoute)
  else
    let path := route.Path.drop 1
    if IndexSlash path = 0 then (this, .err .ErrMalformedRoute)
    else
      let pathFragmentForChildNode := firstFragment path
      if !validCharacter U pathFragmentForChildNode then (this, .err .ErrInvalidCharacter)
      else if HasPrefix pathFragmentForChildNode ['*'] then
        addWildcardChild add this
          ⟨route.AllowedMethod, path, route.Handler⟩ pathFragmentForChildNode
      else if HasPrefix pathFragmentForChildNode [':'] then
        addVariableChild add this
          ⟨route.AllowedMethod, path, route.Handler⟩ pathFragmentForChildNode
      else
        addStaticChild add this
          ⟨route.AllowedMethod, path, route.Handler⟩ pathFragmentForChildNode

/-- The method `Add`, with the recursion depth bounded by `fuel`. The value at depth `0`
is a placeholder that `Add` never reaches (`AddFuel_eq_Add`). -/
def AddFuel (U : RuneTables) : Nat → treeNode M H → Route M H → treeNode M H × Outcome
  | 0 => fun this _ => (this, .panic)
  | fuel + 1 => AddStep U (AddFuel U fuel)

/-- The method `Add`. Every call consumes at least one character of the path, so
`route.Path.length + 1` levels of recursion always suffice: with any larger bound the
result is the same (`AddFuel_eq_Add`), and `Add` satisfies the recursive equation of
the source (`Add_eq`). -/
def Add (U : RuneTables) (this : treeNode M H) (route : Route M H) :
    treeNode M H × Outcome :=
  AddFuel U (route.Path.length + 1) this route

/-! ## Resolution -/

mutual
/-- The method `Resolve`. The outer `resourceExists` is never assigned (both inner
`handler, resourceExists :=` declare new variables), so the last `return` yields `false`. -/
def Resolve (method : M) : treeNode M H → List Char → Option H × Bool
  | .mk _ staticChildren variableChild wildcardChild handlers, incomingPath =>
    if incomingPath.length = 0 then (mapGet handlers method, true)
    else
      let incomingPath :=
        if incomingPath.head? = some '/' then incomingPath.drop 1 else incomingPath
      let pathFragment := firstFragment incomingPath
      let resourceExists := false
      match resolveStatic method staticChildren incomingPath pathFragment with
      | some res => res
      | none =>
        match resolveVariable method variableChild incomingPath with
        | some res => res
        | none =>
          match resolveWildcard method wildcardChild incomingPath with
          | some res => res
          | none => (none, resourceExists)
/-- The loop over `this.staticChildren` in `Resolve`: `some` when the loop returns from
`Resolve`, `none` when it ends or is left by `break`. -/
def resolveStatic (method : M) :
    List (treeNode M H) → List Char → List Char → Option (Option H × Bool)
  | [], _, _ => none
  | staticChild :: rest, incomingPath, pathFragment =>
    if pathFragment ≠ staticChild.pathFragment then
      resolveStatic method rest incomingPath pathFragment
    else
      let res := Resolve method staticChild (incomingPath.drop staticChild.pathFragment.length)
      if res.1.isSome then some res else none
/-- The `if this.variableChild != nil` block of `Resolve`. -/
def resolveVariable (method : M) :
    Option (treeNode M H) → List Char → Option (Option H × Bool)
  | none, _ => none
  | some variableChild, incomingPath =>
    if HasPrefix incomingPath variableChild.pathFragment then
      let res :=
        Resolve method variableChild (incomingPath.drop variableChild.pathFragment.length)
      if res.1.isSome then some res else none
    else none
/-- The `if this.wildcardChild != nil` block of `Resolve`. -/
def resolveWildcard (method : M) :
    Option (treeNode M H) → List Char → Option (Option H × Bool)
  | none, _ => none
  | some wildcardChild, incomingPath =>
    if HasPrefix incomingPath wildcardChild.pathFragment then
      some (Resolve method wildcardChild [])
    else none
end

/-! ## The reference resolver of the specification -/

mutual
/-- The resolver the specification describes in words: as `Resolve`, except that once the
first static child whose fragment equals the extracted segment has been descended into
and has yielded a `nil` handler, the answer is `(nil, false)` at once; no later static
sibling, no variable child and no wildcard child of the node is consulted. -/
def ResolveRef (method : M) : treeNode M H → List Char → Option H × Bool
  | .mk _ staticChildren variableChild wildcardChild handlers, incomingPath =>
    if incomingPath.length = 0 then (mapGet handlers method, true)
    else
      let incomingPath :=
        if incomingPath.head? = some '/' then incomingPath.drop 1 else incomingPath
      let segment := firstFragment incomingPath
      match refStatic method staticChildren incomingPath segment with
      | some res => res
      | none =>
        match refVariable method variableChild incomingPath with
        | some res => res
        | none =>
          match refWildcard method wildcardChild incomingPath with
          | some res => res
          | none => (none, false)
/-- Static step of `ResolveRef`: `none` only when no static child has the segment as
its fragment. -/
def refStatic (method : M) :
    List (treeNode M H) → List Char → List Char → Option (Option H × Bool)
  | [], _, _ => none
  | staticChild :: rest, incomingPath, segment =>
    if segment = staticChild.pathFragment then
      let res :=
        ResolveRef method staticChild (incomingPath.drop staticChild.pathFragment.length)
      if res.1.isSome then some res else some (none, false)
    else refStatic method rest incomingPath segment
/-- Variable step of `ResolveRef`. -/
def refVariable (method : M) :
    Option (treeNode M H) → List Char → Option (Option H × Bool)
  | none, _ => none
  | some variableChild, incomingPath =>
    if HasPrefix incomingPath variableChild.pathFragment then
      let res :=
        ResolveRef method variableChild (incomingPath.drop variableChild.pathFragment.length)
      if res.1.isSome then some res else none
    else none
/-- Wildcard step of `ResolveRef`. -/
def refWildcard (method : M) :
    Option (treeNode M H) → List Char → Option (Option H × Bool)
  | none, _ => none
  | some wildcardChild, incomingPath =>
    if HasPrefix incomingPath wildcardChild.pathFragment then
      some (ResolveRef method wildcardChild [])
    else none
end

/-! ## Tries built by `Add` -/

/-- The tries obtained from the empty root by a finite sequence of `Add` calls
(successful or not). -/
inductive Reachable (U : RuneTables) : treeNode M H → Prop where
  | empty : Reachable U emptyRoot
  | add (t : treeNode M H) (route : Route M H) :
      Reachable U t → Reachable U (Add U t route).1

/-- Each child sits in the slot of its class: the fragment of a static child begins
neither with `*` nor with `:`, that of a variable child begins with `:`, that of a
wildcard child is `*` itself; and so below every child. -/
inductive Shaped : treeNode M H → Prop where
  | mk (f : List Char) (s : List (treeNode M H)) (v w : Option (treeNode M H))
      (hs : Option (List (M × Option H)))
      (hstatic : ∀ c ∈ s, HasPrefix c.pathFragment ['*'] = false ∧
        HasPrefix c.pathFragment [':'] = false)
      (hvar : ∀ c, v = some c → HasPrefix c.pathFragment [':'] = true)
      (hwild : ∀ c, w = some c → c.pathFragment = ['*'])
      (hstaticSub : ∀ c ∈ s, Shaped c)
      (hvarSub : ∀ c, v = some c → Shaped c)
      (hwildSub : ∀ c, w = some c → Shaped c) :
      Shaped (.mk f s v w hs)

mutual
/-- Along the descent `Add` makes for `path`, every variable segment that is routed into
an already existing variable child is textually equal to that child's fragment. -/
def varsAgree : treeNode M H → List Char → Bool
  | .mk _ staticChildren variableChild _ _, path =>
    if path.length = 0 then true
    else
      let path := path.drop 1
      let fragment := firstFragment path
      if HasPrefix fragment ['*'] then true
      else if HasPrefix fragment [':'] then varsAgreeVariable variableChild path fragment
      else varsAgreeStatic staticChildren path fragment
/-- The variable case of `varsAgree`. -/
def varsAgreeVariable : Option (treeNode M H) → List Char → List Char → Bool
  | none, _, _ => true
  | some c, path, fragment =>
    decide (c.pathFragment = fragment) && varsAgree c (path.drop fragment.length)
/-- The static case of `varsAgree`: the first child with the fragment, as in `addStaticChild`. -/
def varsAgreeStatic : List (treeNode M H) → List Char → List Char → Bool
  | [], _, _ => true
  | c :: rest, path, fragment =>
    if c.pathFragment = fragment then varsAgree c (path.drop fragment.length)
    else varsAgreeStatic rest path fragment
end

/-- The path made of the given segments, each preceded by a slash. -/
def slashed : List (List Char) → List Char
  | [] => []
  | f :: fs => '/' :: (f ++ slashed fs)

/-! ## The character rule of the specification -/

/-- The rule of the specification for one character of a fragment: `r`, at position `i`,
is a letter, a digit, one of `. - _`, or it is the first character and one of `:` `*`. -/
def allowedAt (U : RuneTables) (i : Nat) (r : Char) : Prop :=
  U.IsLetter r = true ∨ U.IsDigit r = true ∨ r = '.' ∨ r = '-' ∨ r = '_' ∨
    (i = 0 ∧ (r = ':' ∨ r = '*'))

/-! ## Nodes of a trie and what holds at each of them -/

/-- The node `c` is a child of `n`: a static child, the variable child or the wildcard
child. -/
inductive IsChild : treeNode M H → treeNode M H → Prop where
  | ofStatic (c n : treeNode M H) : c ∈ n.staticChildren → IsChild c n
  | ofVariable (c n : treeNode M H) : n.variableChild = some c → IsChild c n
  | ofWildcard (c n : treeNode M H) : n.wildcardChild = some c → IsChild c n

/-- The node `n` occurs in the trie with root `t`. -/
inductive IsNode : treeNode M H → treeNode M H → Prop where
  | root (t : treeNode M H) : IsNode t t
  | child (c n t : treeNode M H) : IsNode n t → IsChild c n → IsNode c t

/-- The property `P` holds of a node and of every node below it. -/
inductive Everywhere (P : treeNode M H → Prop) : treeNode M H → Prop where
  | mk (f : List Char) (s : List (treeNode M H)) (v w : Option (treeNode M H))
      (hs : Option (List (M × Option H)))
      (here : P (.mk f s v w hs))
      (hstatic : ∀ c ∈ s, Everywhere P c)
      (hvar : ∀ c, v = some c → Everywhere P c)
      (hwild : ∀ c, w = some c → Everywhere P c) :
      Everywhere P (.mk f s v w hs)

/-- A node without children. -/
def IsLeaf (n : treeNode M H) : Prop :=
  n.staticChildren = [] ∧ n.variableChild = none ∧ n.wildcardChild = none

/-- What holds at every node of a trie built by `Add`: the fragment of each child passes
`validCharacter`, the wildcard child is a leaf, and no two static children carry the
same fragment. -/
def Tidy (U : RuneTables) (n : treeNode M H) : Prop :=
  (∀ c ∈ n.staticChildren, validCharacter U c.pathFragment = true) ∧
  (∀ c, n.variableChild = some c → validCharacter U c.pathFragment = true) ∧
  (∀ c, n.wildcardChild = some c → validCharacter U c.pathFragment = true ∧ IsLeaf c) ∧
  (n.staticChildren.map treeNode.pathFragment).Nodup

/-! ## One trie extending another -/

mutual
/-- The trie `t2` holds everything the trie `t` holds, at the same place: the root
fragments are equal, the static children of `t` are, position by position, extended by
the first static children of `t2` (so their sequence is a prefix of that of `t2`), a
variable or wildcard child of `t` is extended by the variable or wildcard child of `t2`,
and every method that has a non-nil handler in `t` has the same handler in `t2`. -/
def Extends : treeNode M H → treeNode M H → Prop
  | .mk f s v w hs, t2 =>
    t2.pathFragment = f ∧ extendsList s t2.staticChildren ∧
    extendsOption v t2.variableChild ∧ extendsOption w t2.wildcardChild ∧
    ∀ m h, mapGet hs m = some h → mapGet t2.handlers m = some h
/-- `Extends`, position by position, from the first list into a prefix of the second. -/
def extendsList : List (treeNode M H) → List (treeNode M H) → Prop
  | [], _ => True
  | _ :: _, [] => False
  | c :: cs, c2 :: cs2 => Extends c c2 ∧ extendsList cs cs2
/-- `Extends` for an optional child: a child that is present stays present. -/
def extendsOption : Option (treeNode M H) → Option (treeNode M H) → Prop
  | none, _ => True
  | some _, none => False
  | some c, some c2 => Extends c c2
end

/-! ## Sequences of registrations -/

/-- No segment of the path begins with `:` or `*`: no slash is followed at once by one
of the two markers. -/
def staticPath : List Char → Bool
  | [] => true
  | a :: rest =>
    !(a == '/' && (HasPrefix rest [':'] || HasPrefix rest ['*'])) && staticPath rest

/-- The trie after the calls `Add(r)` for the routes `r` of the list, made in order on `t`. -/
def AddAll (U : RuneTables) : treeNode M H → List (Route M H) → treeNode M H
  | t, [] => t
  | t, r :: rs => AddAll U (Add U t r).1 rs

/-- Some call `Add(r)` of the sequence made in order on `t` had method `m`, path `p` and
handler `h`, and returned no error. -/
def Registered (U : RuneTables) :
    treeNode M H → List (Route M H) → M → List Char → H → Prop
  | _, [], _, _, _ => False
  | t, r :: rs, m, p, h =>
    (r.AllowedMethod = m ∧ r.Path = p ∧ r.Handler = some h ∧ (Add U t r).2 = .ok) ∨
      Registered U (Add U t r).1 rs m p h

end Defs


/-! ## Basic facts -/

section Basics
variable {M H : Type}

/-- Induction over the trie: a property that holds of a node whenever it holds of all
its children holds of every node. -/
theorem treeNode.induct {P : treeNode M H → Prop}
    (h : ∀ f s v w hs, (∀ c ∈ s, P c) → (∀ c, v = some c → P c) →
      (∀ c, w = some c → P c) → P (.mk f s v w hs)) : ∀ t, P t := by
  intro t
  generalize hn : sizeOf t = n
  induction n using Nat.strong_induction_on generalizing t with
  | _ n ih =>
    cases t with
    | mk f s v w hs =>
      subst hn
      apply h
      · intro c hc
        refine ih _ ?_ c rfl
        have := List.sizeOf_lt_of_mem hc
        simp only [treeNode.mk.sizeOf_spec]
        omega
      · intro c hc
        subst hc
        refine ih _ ?_ c rfl
        simp only [treeNode.mk.sizeOf_spec, Option.some.sizeOf_spec]
        omega
      · intro c hc
        subst hc
        refine ih _ ?_ c rfl
        simp only [treeNode.mk.sizeOf_spec, Option.some.sizeOf_spec]
        omega

theorem IndexSlash_ge (s : List Char) : -1 ≤ IndexSlash s := by
  induction s with
  | nil => simp [IndexSlash]
  | cons c cs ih =>
    simp only [IndexSlash]
    split
    · omega
    · split <;> omega

theorem IndexSlash_eq_neg_one_iff (s : List Char) : IndexSlash s = -1 ↔ '/' ∉ s := by
  induction s with
  | nil => simp [IndexSlash]
  | cons c cs ih =>
    have hge := IndexSlash_ge cs
    simp only [IndexSlash, List.mem_cons, not_or]
    by_cases hc : c = '/'
    · simp [hc]
    · simp only [hc, if_false]
      constructor
      · intro h
        refine ⟨fun e => hc e.symm, ih.mp ?_⟩
        by_contra hne
        simp only [hne, if_false] at h
        omega
      · intro h
        simp [ih.mpr h.2]

theorem IndexSlash_eq_zero_iff (s : List Char) : IndexSlash s = 0 ↔ s.head? = some '/' := by
  cases s with
  | nil => simp [IndexSlash]
  | cons c cs =>
    have hge := IndexSlash_ge cs
    simp only [IndexSlash, List.head?_cons, Option.some.injEq]
    by_cases hc : c = '/'
    · simp [hc]
    · simp only [hc, if_false, iff_false]
      split <;> omega

theorem firstFragment_eq_takeWhile (s : List Char) :
    firstFragment s = s.takeWhile (fun c => decide (c ≠ '/')) := by
  induction s with
  | nil => simp [firstFragment, IndexSlash]
  | cons c cs ih =>
    have hge := IndexSlash_ge cs
    unfold firstFragment at ih ⊢
    by_cases hc : c = '/'
    · simp [IndexSlash, hc]
    · simp only [IndexSlash, hc, if_false, List.takeWhile_cons, ne_eq, not_false_eq_true,
        decide_True, if_true]
      by_cases h1 : IndexSlash cs = -1
      · simp only [h1, if_true] at ih ⊢
        rw [← ih]
      · simp only [h1, if_false] at ih ⊢
        have h2 : ¬ (IndexSlash cs + 1 = -1) := by omega
        simp only [h2, if_false]
        have h3 : (IndexSlash cs + 1).toNat = (IndexSlash cs).toNat + 1 := by omega
        rw [h3, List.take_succ_cons, ih]

theorem firstFragment_append (f rest : List Char) (hf : '/' ∉ f)
    (hrest : rest = [] ∨ rest.head? = some '/') : firstFragment (f ++ rest) = f := by
  rw [firstFragment_eq_takeWhile]
  induction f with
  | nil =>
    rcases hrest with h | h
    · simp [h]
    · cases rest with
      | nil => simp
      | cons c cs =>
        simp only [List.head?_cons, Option.some.injEq] at h
        simp [h]
  | cons c cs ih =>
    simp only [List.mem_cons, not_or] at hf
    have hc : c ≠ '/' := fun e => hf.1 e.symm
    simp only [List.cons_append, List.takeWhile_cons, ne_eq, hc, not_false_eq_true,
      decide_True, if_true]
    rw [ih hf.2]

theorem firstFragment_isPrefix (s : List Char) : firstFragment s <+: s := by
  rw [firstFragment_eq_takeWhile]
  exact List.takeWhile_prefix _

theorem firstFragment_length_le (s : List Char) : (firstFragment s).length ≤ s.length :=
  (firstFragment_isPrefix s).length_le

theorem HasPrefix_iff (s p : List Char) : HasPrefix s p = true ↔ p <+: s := by
  unfold HasPrefix
  exact List.isPrefixOf_iff_prefix

theorem HasPrefix_self (s : List Char) : HasPrefix s s = true := by
  rw [HasPrefix_iff]

theorem HasPrefix_singleton (s : List Char) (c : Char) :
    HasPrefix s [c] = true ↔ s.head? = some c := by
  cases s with
  | nil => simp [HasPrefix]
  | cons a as =>
    simp only [HasPrefix, List.isPrefixOf, List.head?_cons, Option.some.injEq,
      Bool.and_true, beq_iff_eq]
    exact eq_comm

theorem firstFragment_eq_star (path : List Char) (hlen : ¬ path.length > 1)
    (h : HasPrefix (firstFragment path) ['*'] = true) : firstFragment path = ['*'] := by
  rw [firstFragment_eq_takeWhile] at h ⊢
  match path, hlen with
  | [], _ => simp [HasPrefix] at h
  | [a], _ =>
    by_cases ha : a = '/'
    · subst ha
      simp [HasPrefix] at h
    · simp only [List.takeWhile_cons, ne_eq, ha, not_false_eq_true, decide_True, if_true,
        List.takeWhile_nil, HasPrefix_singleton, List.head?_cons, Option.some.injEq] at h ⊢
      rw [h]
  | _ :: _ :: _, hlen => simp at hlen

theorem firstFragment_head (s : List Char) (c : Char) (hc : c ≠ '/') :
    (firstFragment s).head? = some c ↔ s.head? = some c := by
  rw [firstFragment_eq_takeWhile]
  cases s with
  | nil => simp
  | cons a as =>
    by_cases ha : a = '/'
    · subst ha
      simp [hc, Ne.symm hc]
    · simp [ha]

end Basics


/-! ## `Add` does not depend on the recursion bound -/

section Fuel
variable {M H : Type} [DecidableEq M]

theorem addWildcardChild_congr (add1 add2 : treeNode M H → Route M H → treeNode M H × Outcome)
    (this : treeNode M H) (route : Route M H) (frag : List Char)
    (h : ∀ c, add1 c ⟨route.AllowedMethod, [], route.Handler⟩ =
      add2 c ⟨route.AllowedMethod, [], route.Handler⟩) :
    addWildcardChild add1 this route frag = addWildcardChild add2 this route frag := by
  cases this with
  | mk f s v w hs =>
    cases w <;> simp only [addWildcardChild, h]

theorem addVariableChild_congr (add1 add2 : treeNode M H → Route M H → treeNode M H × Outcome)
    (this : treeNode M H) (route : Route M H) (frag : List Char)
    (h : ∀ c, add1 c ⟨route.AllowedMethod, route.Path.drop frag.length, route.Handler⟩ =
      add2 c ⟨route.AllowedMethod, route.Path.drop frag.length, route.Handler⟩) :
    addVariableChild add1 this route frag = addVariableChild add2 this route frag := by
  cases this with
  | mk f s v w hs =>
    cases v <;> simp only [addVariableChild, h]

theorem addStaticLoop_congr (add1 add2 : treeNode M H → Route M H → treeNode M H × Outcome)
    (route : Route M H) (frag : List Char) (s : List (treeNode M H))
    (h : ∀ c, add1 c route = add2 c route) :
    addStaticLoop add1 route frag s = addStaticLoop add2 route frag s := by
  induction s with
  | nil => rfl
  | cons c cs ih => simp only [addStaticLoop, h, ih]

theorem addStaticChild_congr (add1 add2 : treeNode M H → Route M H → treeNode M H × Outcome)
    (this : treeNode M H) (route : Route M H) (frag : List Char)
    (h : ∀ c, add1 c ⟨route.AllowedMethod, route.Path.drop frag.length, route.Handler⟩ =
      add2 c ⟨route.AllowedMethod, route.Path.drop frag.length, route.Handler⟩) :
    addStaticChild add1 this route frag = addStaticChild add2 this route frag := by
  cases this with
  | mk f s v w hs =>
    simp only [addStaticChild, addStaticLoop_congr add1 add2 _ frag s h, h]

/-- The body of `Add` calls `Add` only on routes with a strictly shorter path. -/
theorem AddStep_congr (U : RuneTables)
    (add1 add2 : treeNode M H → Route M H → treeNode M H × Outcome)
    (this : treeNode M H) (route : Route M H)
    (h : ∀ c r, r.Path.length < route.Path.length → add1 c r = add2 c r) :
    AddStep U add1 this route = AddStep U add2 this route := by
  unfold AddStep
  by_cases h0 : route.Path.length = 0
  · simp only [h0, if_true]
  · simp only [h0, if_false]
    have hpos : 0 < route.Path.length := Nat.pos_of_ne_zero h0
    have hdrop : ∀ n, ((route.Path.drop 1).drop n).length < route.Path.length := by
      intro n
      simp only [List.length_drop]
      omega
    rw [addWildcardChild_congr add1 add2 this _ _ (fun c => h c _ hpos),
      addVariableChild_congr add1 add2 this _ _ (fun c => h c _ (hdrop _)),
      addStaticChild_congr add1 add2 this _ _ (fun c => h c _ (hdrop _))]

theorem AddFuel_congr (U : RuneTables) (n1 : Nat) :
    ∀ (n2 : Nat) (this : treeNode M H) (route : Route M H),
      route.Path.length < n1 → route.Path.length < n2 →
      AddFuel U n1 this route = AddFuel U n2 this route := by
  induction n1 with
  | zero => intro n2 this route h1; omega
  | succ n1 ih =>
    intro n2 this route h1 h2
    cases n2 with
    | zero => omega
    | succ n2 =>
      simp only [AddFuel]
      apply AddStep_congr
      intro c r hr
      exact ih n2 c r (by omega) (by omega)

/-- Any recursion bound above the length of the path gives the result of `Add`. -/
theorem AddFuel_eq_Add (U : RuneTables) (n : Nat) (this : treeNode M H) (route : Route M H)
    (hn : route.Path.length < n) : AddFuel U n this route = Add U this route :=
  AddFuel_congr U n _ this route hn (Nat.lt_succ_self _)

/-- The recursive equation of the source: `Add` is its body, with `Add` itself for the
calls on child nodes. -/
theorem Add_eq (U : RuneTables) (this : treeNode M H) (route : Route M H) :
    Add U this route = AddStep U (Add U) this route := by
  show AddFuel U (route.Path.length + 1) this route = _
  simp only [AddFuel]
  apply AddStep_congr
  intro c r hr
  exact AddFuel_eq_Add U _ c r hr

end Fuel


/-! ## What `Add` keeps -/

section Preservation
variable {M H : Type} [DecidableEq M]

/-- The loop of `addStaticChild` in closed form: it hands the route to the first child
with the fragment and leaves the others alone. -/
theorem addStaticLoop_some (add : treeNode M H → Route M H → treeNode M H × Outcome)
    (route : Route M H) (frag : List Char) (s : List (treeNode M H))
    (res : List (treeNode M H) × Outcome)
    (h : addStaticLoop add route frag s = some res) :
    ∃ pre c post, s = pre ++ c :: post ∧ (∀ x ∈ pre, x.pathFragment ≠ frag) ∧
      c.pathFragment = frag ∧ res = (pre ++ (add c route).1 :: post, (add c route).2) := by
  induction s generalizing res with
  | nil => simp [addStaticLoop] at h
  | cons a as ih =>
    simp only [addStaticLoop] at h
    by_cases ha : a.pathFragment = frag
    · simp only [ha, if_true, Option.some.injEq] at h
      exact ⟨[], a, as, rfl, by simp, ha, h.symm⟩
    · simp only [ha, if_false] at h
      cases hl : addStaticLoop add route frag as with
      | none => simp [hl] at h
      | some r =>
        simp only [hl, Option.some.injEq] at h
        obtain ⟨pre, c, post, hs, hpre, hc, hr⟩ := ih r hl
        refine ⟨a :: pre, c, post, by simp [hs], ?_, hc, ?_⟩
        · intro x hx
          rcases List.mem_cons.mp hx with rfl | hx
          · exact ha
          · exact hpre x hx
        · rw [← h, hr]
          rfl

theorem addStaticLoop_none (add : treeNode M H → Route M H → treeNode M H × Outcome)
    (route : Route M H) (frag : List Char) (s : List (treeNode M H))
    (h : addStaticLoop add route frag s = none) : ∀ x ∈ s, x.pathFragment ≠ frag := by
  induction s with
  | nil => simp
  | cons a as ih =>
    simp only [addStaticLoop] at h
    by_cases ha : a.pathFragment = frag
    · simp [ha] at h
    · simp only [ha, if_false] at h
      cases hl : addStaticLoop add route frag as with
      | none =>
        intro x hx
        rcases List.mem_cons.mp hx with rfl | hx
        · exact ha
        · exact ih hl x hx
      | some r => simp [hl] at h

theorem addStaticLoop_of_split (add : treeNode M H → Route M H → treeNode M H × Outcome)
    (route : Route M H) (frag : List Char) (pre post : List (treeNode M H)) (c : treeNode M H)
    (hpre : ∀ x ∈ pre, x.pathFragment ≠ frag) (hc : c.pathFragment = frag) :
    addStaticLoop add route frag (pre ++ c :: post) =
      some (pre ++ (add c route).1 :: post, (add c route).2) := by
  induction pre with
  | nil => simp [addStaticLoop, hc]
  | cons a as ih =>
    have ha : a.pathFragment ≠ frag := hpre a (List.mem_cons_self _ _)
    have has : ∀ x ∈ as, x.pathFragment ≠ frag := fun x hx => hpre x (List.mem_cons_of_mem _ hx)
    rw [List.cons_append]
    simp only [addStaticLoop, ha, if_false]
    rw [ih has]
    rfl

theorem addStaticLoop_of_none (add : treeNode M H → Route M H → treeNode M H × Outcome)
    (route : Route M H) (frag : List Char) (s : List (treeNode M H))
    (hs : ∀ x ∈ s, x.pathFragment ≠ frag) : addStaticLoop add route frag s = none := by
  induction s with
  | nil => rfl
  | cons a as ih =>
    have ha : a.pathFragment ≠ frag := hs a (List.mem_cons_self _ _)
    have has : ∀ x ∈ as, x.pathFragment ≠ frag := fun x hx => hs x (List.mem_cons_of_mem _ hx)
    simp only [addStaticLoop, ha, if_false, ih has]

/-- The body of `Add` never touches the fragment of the node it is called on. -/
theorem AddStep_pathFragment (U : RuneTables)
    (add : treeNode M H → Route M H → treeNode M H × Outcome)
    (this : treeNode M H) (route : Route M H) :
    (AddStep U add this route).1.pathFragment = this.pathFragment := by
  cases this with
  | mk f s v w hs =>
    unfold AddStep
    split
    · split
      · rfl
      · cases hs <;> rfl
    · split
      · rfl
      · simp only []
        split
        · rfl
        · split
          · rfl
          · split
            · simp only [addWildcardChild]
              split
              · rfl
              · cases w <;> rfl
            · split
              · simp only [addVariableChild]
                cases v <;> rfl
              · simp only [addStaticChild]
                split
                · rfl
                · split <;> rfl

theorem AddFuel_pathFragment (U : RuneTables) (n : Nat) (this : treeNode M H)
    (route : Route M H) : (AddFuel U n this route).1.pathFragment = this.pathFragment := by
  cases n with
  | zero => rfl
  | succ n => exact AddStep_pathFragment U _ this route

theorem Add_pathFragment (U : RuneTables) (this : treeNode M H) (route : Route M H) :
    (Add U this route).1.pathFragment = this.pathFragment :=
  AddFuel_pathFragment U _ this route


theorem Shaped_newChild (frag : List Char) : Shaped (newChild frag : treeNode M H) := by
  unfold newChild
  refine Shaped.mk _ _ _ _ _ ?_ ?_ ?_ ?_ ?_ ?_ <;> simp

theorem Shaped_emptyRoot : Shaped (emptyRoot : treeNode M H) := by
  unfold emptyRoot
  refine Shaped.mk _ _ _ _ _ ?_ ?_ ?_ ?_ ?_ ?_ <;> simp

/-- The body of `Add` keeps every child in the slot of its class, when the calls on the
children do. -/
theorem AddStep_shaped (U : RuneTables)
    (add : treeNode M H → Route M H → treeNode M H × Outcome)
    (hfrag : ∀ c r, (add c r).1.pathFragment = c.pathFragment)
    (hadd : ∀ c r, Shaped c → Shaped (add c r).1)
    (this : treeNode M H) (route : Route M H) (hthis : Shaped this) :
    Shaped (AddStep U add this route).1 := by
  cases hthis with
  | mk f s v w hs hstatic hvar hwild hstaticSub hvarSub hwildSub =>
    have hthis : Shaped (treeNode.mk f s v w hs) :=
      Shaped.mk f s v w hs hstatic hvar hwild hstaticSub hvarSub hwildSub
    unfold AddStep
    split
    · split
      · exact hthis
      · cases hs with
        | none => exact hthis
        | some l => exact Shaped.mk _ _ _ _ _ hstatic hvar hwild hstaticSub hvarSub hwildSub
    · split
      · exact hthis
      · simp only []
        split
        · exact hthis
        · split
          · exact hthis
          · split
            · rename_i hstar
              simp only [addWildcardChild]
              split
              · exact hthis
              · rename_i hlen
                have hstar := firstFragment_eq_star _ hlen hstar
                cases w with
                | none =>
                  refine Shaped.mk _ _ _ _ _ hstatic hvar ?_ hstaticSub hvarSub ?_
                  · intro c hc
                    simp only [Option.some.injEq] at hc
                    rw [← hc, hfrag]
                    exact hstar
                  · intro c hc
                    simp only [Option.some.injEq] at hc
                    rw [← hc]
                    exact hadd _ _ (Shaped_newChild _)
                | some wc =>
                  refine Shaped.mk _ _ _ _ _ hstatic hvar ?_ hstaticSub hvarSub ?_
                  · intro c hc
                    simp only [Option.some.injEq] at hc
                    rw [← hc, hfrag]
                    exact hwild wc rfl
                  · intro c hc
                    simp only [Option.some.injEq] at hc
                    rw [← hc]
                    exact hadd _ _ (hwildSub wc rfl)
            · split
              · rename_i hstar hcolon
                simp only [addVariableChild]
                cases v with
                | none =>
                  refine Shaped.mk _ _ _ _ _ hstatic ?_ hwild hstaticSub ?_ hwildSub
                  · intro c hc
                    simp only [Option.some.injEq] at hc
                    rw [← hc, hfrag]
                    exact hcolon
                  · intro c hc
                    simp only [Option.some.injEq] at hc
                    rw [← hc]
                    exact hadd _ _ (Shaped_newChild _)
                | some vc =>
                  refine Shaped.mk _ _ _ _ _ hstatic ?_ hwild hstaticSub ?_ hwildSub
                  · intro c hc
                    simp only [Option.some.injEq] at hc
                    rw [← hc, hfrag]
                    exact hvar vc rfl
                  · intro c hc
                    simp only [Option.some.injEq] at hc
                    rw [← hc]
                    exact hadd _ _ (hvarSub vc rfl)
              · rename_i hstar hcolon
                simp only [Bool.not_eq_true] at hstar hcolon
                simp only [addStaticChild]
                split
                · rename_i res hres
                  obtain ⟨pre, c, post, hs, hpre, hc, hr⟩ := addStaticLoop_some _ _ _ _ _ hres
                  subst hs
                  rw [hr]
                  refine Shaped.mk _ _ _ _ _ ?_ hvar hwild ?_ hvarSub hwildSub
                  · intro x hx
                    simp only [List.mem_append, List.mem_cons] at hx
                    rcases hx with hx | rfl | hx
                    · exact hstatic x (by simp [hx])
                    · rw [hfrag]
                      exact hstatic c (by simp)
                    · exact hstatic x (by simp [hx])
                  · intro x hx
                    simp only [List.mem_append, List.mem_cons] at hx
                    rcases hx with hx | rfl | hx
                    · exact hstaticSub x (by simp [hx])
                    · exact hadd _ _ (hstaticSub c (by simp))
                    · exact hstaticSub x (by simp [hx])
                · split
                  · exact hthis
                  · refine Shaped.mk _ _ _ _ _ ?_ hvar hwild ?_ hvarSub hwildSub
                    · intro x hx
                      simp only [List.mem_append, List.mem_singleton] at hx
                      rcases hx with hx | rfl
                      · exact hstatic x hx
                      · rw [hfrag]
                        exact ⟨hstar, hcolon⟩
                    · intro x hx
                      simp only [List.mem_append, List.mem_singleton] at hx
                      rcases hx with hx | rfl
                      · exact hstaticSub x hx
                      · exact hadd _ _ (Shaped_newChild _)

theorem AddFuel_shaped (U : RuneTables) (n : Nat) :
    ∀ (this : treeNode M H) (route : Route M H), Shaped this →
      Shaped (AddFuel U n this route).1 := by
  induction n with
  | zero => intro this route h; exact h
  | succ n ih =>
    intro this route h
    exact AddStep_shaped U _ (AddFuel_pathFragment U n) ih this route h

theorem Add_shaped (U : RuneTables) (this : treeNode M H) (route : Route M H)
    (h : Shaped this) : Shaped (Add U this route).1 :=
  AddFuel_shaped U _ this route h

/-- Every trie built by `Add` from the empty root keeps its children in the slots of
their classes. -/
theorem Reachable.shaped (U : RuneTables) (t : treeNode M H) (h : Reachable U t) :
    Shaped t := by
  induction h with
  | empty => exact Shaped_emptyRoot
  | add t route _ ih => exact Add_shaped U t route ih

end Preservation


/-! ## Facts about `Resolve` -/

section ResolveFacts
variable {M H : Type} [DecidableEq M]

theorem Resolve_nil (m : M) (t : treeNode M H) :
    Resolve m t [] = (mapGet t.handlers m, true) := by
  cases t with
  | mk f s v w hs =>
    rw [Resolve]
    simp [treeNode.handlers]

/-- A request that starts with the text of a variable (or wildcard) fragment has a first
segment that starts with the same marker character. -/
theorem HasPrefix_marker (ip frag : List Char) (c : Char) (hc : c ≠ '/')
    (hfrag : HasPrefix frag [c] = true) (hseg : HasPrefix (firstFragment ip) [c] = false) :
    HasPrefix ip frag = false := by
  by_contra hne
  simp only [Bool.not_eq_false] at hne
  rw [HasPrefix_iff] at hne
  rw [HasPrefix_singleton] at hfrag
  have h1 : ip.head? = some c := by
    cases frag with
    | nil => simp at hfrag
    | cons a as =>
      simp only [List.head?_cons, Option.some.injEq] at hfrag
      subst hfrag
      obtain ⟨t, ht⟩ := hne
      rw [← ht]
      rfl
  have h2 := (firstFragment_head ip c hc).mpr h1
  rw [← HasPrefix_singleton] at h2
  rw [h2] at hseg
  exact Bool.noConfusion hseg

theorem resolveStatic_vs_refStatic (m : M) (s : List (treeNode M H)) (ip pf : List Char)
    (ih : ∀ c ∈ s, ∀ p, Resolve m c p = ResolveRef m c p) :
    (resolveStatic m s ip pf = none ∧ refStatic m s ip pf = none) ∨
    (∃ c ∈ s, c.pathFragment = pf ∧
      ((resolveStatic m s ip pf = none ∧ refStatic m s ip pf = some (none, false)) ∨
       (∃ res, resolveStatic m s ip pf = some res ∧ refStatic m s ip pf = some res))) := by
  induction s with
  | nil =>
    left
    simp [resolveStatic, refStatic]
  | cons a as ihs =>
    by_cases ha : pf = a.pathFragment
    · right
      refine ⟨a, List.mem_cons_self _ _, ha.symm, ?_⟩
      have e := ih a (List.mem_cons_self _ _) (ip.drop a.pathFragment.length)
      simp only [resolveStatic, refStatic, ha, ne_eq, not_true_eq_false, if_false, if_true, e]
      by_cases hsome : (ResolveRef m a (List.drop a.pathFragment.length ip)).1.isSome = true
      · right
        exact ⟨ResolveRef m a (List.drop a.pathFragment.length ip), by simp [hsome],
          by simp [hsome]⟩
      · left
        simp [hsome]
    · have ih2 := ihs (fun c hc => ih c (List.mem_cons_of_mem _ hc))
      simp only [resolveStatic, refStatic, ha, ne_eq, not_false_eq_true, if_true, if_false]
      rcases ih2 with h | ⟨c, hc, hrest⟩
      · left
        exact h
      · right
        exact ⟨c, List.mem_cons_of_mem _ hc, hrest⟩

/-- On a trie whose children sit in the slots of their classes, `Resolve` and the
reference resolver of the specification agree. -/
theorem Resolve_eq_ResolveRef_of_shaped (m : M) :
    ∀ t : treeNode M H, Shaped t → ∀ p, Resolve m t p = ResolveRef m t p := by
  intro t
  induction t using treeNode.induct with
  | h f s v w hs ihs ihv ihw =>
    intro hshape p
    cases hshape with
    | mk _ _ _ _ _ hstatic hvar hwild hstaticSub hvarSub hwildSub =>
      rw [Resolve, ResolveRef]
      by_cases hp : p.length = 0
      · simp only [hp, if_true]
      · simp only [hp, if_false]
        generalize (if p.head? = some '/' then List.drop 1 p else p) = ip
        have hV : resolveVariable m v ip = refVariable m v ip := by
          cases v with
          | none => simp [resolveVariable, refVariable]
          | some vc =>
            simp only [resolveVariable, refVariable, ihv vc rfl (hvarSub vc rfl)]
        have hW : resolveWildcard m w ip = refWildcard m w ip := by
          cases w with
          | none => simp [resolveWildcard, refWildcard]
          | some wc =>
            simp only [resolveWildcard, refWildcard, ihw wc rfl (hwildSub wc rfl)]
        rcases resolveStatic_vs_refStatic m s ip (firstFragment ip)
            (fun c hc q => ihs c hc (hstaticSub c hc) q) with
          ⟨h1, h2⟩ | ⟨c, hc, hfrag, ⟨h1, h2⟩ | ⟨res, h1, h2⟩⟩
        · simp only [h1, h2, hV, hW]
        · have hstar := (hstatic c hc).1
          have hcolon := (hstatic c hc).2
          rw [hfrag] at hstar hcolon
          have hV0 : resolveVariable m v ip = none := by
            cases v with
            | none => simp [resolveVariable]
            | some vc =>
              have := HasPrefix_marker ip vc.pathFragment ':' (by decide) (hvar vc rfl) hcolon
              simp [resolveVariable, this]
          have hW0 : resolveWildcard m w ip = none := by
            cases w with
            | none => simp [resolveWildcard]
            | some wc =>
              have := HasPrefix_marker ip wc.pathFragment '*' (by decide)
                (by rw [hwild wc rfl]; rfl) hstar
              simp [resolveWildcard, this]
          simp only [h1, h2, hV0, hW0]
        · simp only [h1, h2]


/-- `Resolve` sees the children of a node only through the three matching steps. -/
theorem Resolve_congr (m : M) (f f2 : List Char) (s s2 : List (treeNode M H))
    (v v2 w w2 : Option (treeNode M H)) (hs : Option (List (M × Option H)))
    (hS : ∀ ip pf, resolveStatic m s2 ip pf = resolveStatic m s ip pf)
    (hV : ∀ ip, resolveVariable m v2 ip = resolveVariable m v ip)
    (hW : ∀ ip, resolveWildcard m w2 ip = resolveWildcard m w ip) (q : List Char) :
    Resolve m (.mk f2 s2 v2 w2 hs) q = Resolve m (.mk f s v w hs) q := by
  rw [Resolve, Resolve]
  simp only [hS, hV, hW]

theorem resolveStatic_replace (m : M) (pre post : List (treeNode M H)) (c c2 : treeNode M H)
    (hfrag : c2.pathFragment = c.pathFragment) (hres : ∀ q, Resolve m c2 q = Resolve m c q)
    (ip pf : List Char) :
    resolveStatic m (pre ++ c2 :: post) ip pf = resolveStatic m (pre ++ c :: post) ip pf := by
  induction pre with
  | nil => simp only [List.nil_append, resolveStatic, hfrag, hres]
  | cons a as ih =>
    rw [List.cons_append, List.cons_append]
    simp only [resolveStatic, ih]

theorem resolveVariable_replace (m : M) (c c2 : treeNode M H)
    (hfrag : c2.pathFragment = c.pathFragment) (hres : ∀ q, Resolve m c2 q = Resolve m c q)
    (ip : List Char) : resolveVariable m (some c2) ip = resolveVariable m (some c) ip := by
  simp only [resolveVariable, hfrag, hres]

theorem resolveWildcard_replace (m : M) (c c2 : treeNode M H)
    (hfrag : c2.pathFragment = c.pathFragment) (hres : ∀ q, Resolve m c2 q = Resolve m c q)
    (ip : List Char) : resolveWildcard m (some c2) ip = resolveWildcard m (some c) ip := by
  simp only [resolveWildcard, hfrag, hres]

theorem mapGet_empty (m : M) : mapGet (some ([] : List (M × Option H))) m = none := rfl

/-- A node without children and without handlers resolves nothing. -/
theorem Resolve_newChild (m : M) (frag q : List Char) :
    (Resolve m (newChild frag : treeNode M H) q).1 = none := by
  unfold newChild
  rw [Resolve]
  split
  · rfl
  · simp [resolveStatic, resolveVariable, resolveWildcard]

theorem resolveVariable_none_of_newChild (m : M) (c : treeNode M H) (frag : List Char)
    (hres : ∀ q, Resolve m c q = Resolve m (newChild frag) q) (ip : List Char) :
    resolveVariable m (some c) ip = resolveVariable m none ip := by
  simp only [resolveVariable, hres, Resolve_newChild]
  simp

theorem resolveStatic_of_split (m : M) (pre post : List (treeNode M H)) (c : treeNode M H)
    (ip pf : List Char) (hpre : ∀ x ∈ pre, x.pathFragment ≠ pf) (hc : c.pathFragment = pf) :
    resolveStatic m (pre ++ c :: post) ip pf =
      if (Resolve m c (ip.drop pf.length)).1.isSome then
        some (Resolve m c (ip.drop pf.length)) else none := by
  induction pre with
  | nil => simp [resolveStatic, hc]
  | cons a as ih =>
    have ha : pf ≠ a.pathFragment := fun e => hpre a (List.mem_cons_self _ _) e.symm
    have has : ∀ x ∈ as, x.pathFragment ≠ pf := fun x hx => hpre x (List.mem_cons_of_mem _ hx)
    rw [List.cons_append]
    simp only [resolveStatic, ha, ne_eq, not_false_eq_true, if_true, ih has]

theorem resolveStatic_of_none (m : M) (s : List (treeNode M H)) (ip pf : List Char)
    (hs : ∀ x ∈ s, x.pathFragment ≠ pf) : resolveStatic m s ip pf = none := by
  induction s with
  | nil => rfl
  | cons a as ih =>
    have ha : pf ≠ a.pathFragment := fun e => hs a (List.mem_cons_self _ _) e.symm
    have has : ∀ x ∈ as, x.pathFragment ≠ pf := fun x hx => hs x (List.mem_cons_of_mem _ hx)
    simp only [resolveStatic, ha, ne_eq, not_false_eq_true, if_true, ih has]

/-- The two resolvers are different functions: on a trie that `Add` cannot build, with a
static child and a variable child both named `:a`, `Resolve` falls through to the
variable child after the static child has yielded `nil`, the reference resolver does not. -/
theorem Resolve_ne_ResolveRef_unshaped :
    Resolve "GET"
      (treeNode.mk [] [treeNode.mk [':', 'a'] [] none none (some [])]
        (some (treeNode.mk [':', 'a'] [] none none (some [("GET", some 1)]))) none none :
        treeNode String Nat) ['/', ':', 'a'] = (some 1, true) ∧
    ResolveRef "GET"
      (treeNode.mk [] [treeNode.mk [':', 'a'] [] none none (some [])]
        (some (treeNode.mk [':', 'a'] [] none none (some [("GET", some 1)]))) none none :
        treeNode String Nat) ['/', ':', 'a'] = (none, false) := by
  decide

end ResolveFacts

/-! ## A failed `Add` -/

section Failed
variable {M H : Type} [DecidableEq M]

/-- The body of `Add`, when it returns an error, leaves every resolution as it was,
provided the calls on the children do. -/
theorem AddStep_err_resolve (U : RuneTables)
    (add : treeNode M H → Route M H → treeNode M H × Outcome)
    (hfrag : ∀ c r, (add c r).1.pathFragment = c.pathFragment)
    (hnew : ∀ frag m h e, (add (newChild frag) ⟨m, [], h⟩).2 ≠ .err e)
    (hadd : ∀ c r e, (add c r).2 = .err e → ∀ m q, Resolve m (add c r).1 q = Resolve m c q)
    (this : treeNode M H) (route : Route M H) (e : RouteError)
    (herr : (AddStep U add this route).2 = .err e) (m : M) (q : List Char) :
    Resolve m (AddStep U add this route).1 q = Resolve m this q := by
  cases this with
  | mk f s v w hs =>
    revert herr
    unfold AddStep
    split
    · split
      · intro _; rfl
      · cases hs with
        | none => intro h; exact Outcome.noConfusion h
        | some l => intro h; exact Outcome.noConfusion h
    · split
      · intro _; rfl
      · simp only []
        split
        · intro _; rfl
        · split
          · intro _; rfl
          · split
            · simp only [addWildcardChild]
              split
              · intro _; rfl
              · cases w with
                | none =>
                  intro h
                  exact absurd h (hnew _ _ _ _)
                | some wc =>
                  intro h
                  exact Resolve_congr m f f s s v v _ _ hs (fun _ _ => rfl) (fun _ => rfl)
                    (resolveWildcard_replace m wc _ (hfrag _ _) (hadd _ _ e h m)) q
            · split
              · simp only [addVariableChild]
                cases v with
                | none =>
                  intro h
                  exact Resolve_congr m f f s s _ _ w w hs (fun _ _ => rfl)
                    (resolveVariable_none_of_newChild m _ _ (hadd _ _ e h m)) (fun _ => rfl) q
                | some vc =>
                  intro h
                  exact Resolve_congr m f f s s _ _ w w hs (fun _ _ => rfl)
                    (resolveVariable_replace m vc _ (hfrag _ _) (hadd _ _ e h m))
                    (fun _ => rfl) q
              · simp only [addStaticChild]
                split
                · rename_i res hres
                  obtain ⟨pre, c, post, hs2, hpre, hc, hr⟩ := addStaticLoop_some _ _ _ _ _ hres
                  subst hs2
                  rw [hr]
                  intro h
                  exact Resolve_congr m f f _ _ v v w w hs
                    (resolveStatic_replace m pre post c _ (hfrag _ _) (hadd _ _ e h m))
                    (fun _ => rfl) (fun _ => rfl) q
                · split
                  · intro _; rfl
                  · intro h; exact Outcome.noConfusion h

theorem AddStep_newChild_nil (U : RuneTables)
    (add : treeNode M H → Route M H → treeNode M H × Outcome) (frag : List Char) (m : M)
    (h : Option H) :
    AddStep U add (newChild frag) ⟨m, [], h⟩ =
      (.mk frag [] none none (some (mapSet [] m h)), .ok) := by
  simp [AddStep, newChild, treeNode.handlers, mapGet]

theorem AddFuel_newChild_nil_ne_err (U : RuneTables) (n : Nat) (frag : List Char) (m : M)
    (h : Option H) (e : RouteError) :
    (AddFuel U n (newChild frag : treeNode M H) ⟨m, [], h⟩).2 ≠ .err e := by
  cases n with
  | zero => intro h; exact Outcome.noConfusion h
  | succ n =>
    simp only [AddFuel, AddStep_newChild_nil]
    intro h; exact Outcome.noConfusion h

theorem AddFuel_err_resolve (U : RuneTables) (n : Nat) :
    ∀ (this : treeNode M H) (route : Route M H) (e : RouteError),
      (AddFuel U n this route).2 = .err e →
      ∀ m q, Resolve m (AddFuel U n this route).1 q = Resolve m this q := by
  induction n with
  | zero => intro this route e h; exact Outcome.noConfusion h
  | succ n ih =>
    intro this route e h m q
    exact AddStep_err_resolve U _ (AddFuel_pathFragment U n)
      (AddFuel_newChild_nil_ne_err U n) ih this route e h m q

end Failed


/-! ## Registering twice -/

section Twice
variable {M H : Type} [DecidableEq M]

theorem mapGet_mapSet_self (l : List (M × Option H)) (m : M) (h : Option H) :
    mapGet (some (mapSet l m h)) m = h := by
  simp [mapGet, mapSet]

theorem AddStep_nil (U : RuneTables)
    (add : treeNode M H → Route M H → treeNode M H × Outcome)
    (f : List Char) (s : List (treeNode M H)) (v w : Option (treeNode M H))
    (hs : Option (List (M × Option H))) (m : M) (h : Option H) :
    AddStep U add (.mk f s v w hs) ⟨m, [], h⟩ =
      if (mapGet hs m).isSome then (.mk f s v w hs, .err .ErrMethodAlreadyExists)
      else match hs with
        | none => (.mk f s v w none, .panic)
        | some l => (.mk f s v w (some (mapSet l m h)), .ok) := by
  cases hs <;> simp [AddStep, treeNode.handlers]

theorem AddStep_not_slash (U : RuneTables)
    (add : treeNode M H → Route M H → treeNode M H × Outcome)
    (this : treeNode M H) (m : M) (h : Option H) (c : Char) (path : List Char)
    (hc : c ≠ '/') :
    AddStep U add this ⟨m, c :: path, h⟩ = (this, .err .ErrMalformedRoute) := by
  simp [AddStep, hc]

theorem AddStep_slash (U : RuneTables)
    (add : treeNode M H → Route M H → treeNode M H × Outcome)
    (this : treeNode M H) (m : M) (h : Option H) (path : List Char) :
    AddStep U add this ⟨m, '/' :: path, h⟩ =
      if IndexSlash path = 0 then (this, .err .ErrMalformedRoute)
      else if (!validCharacter U (firstFragment path)) = true then
        (this, .err .ErrInvalidCharacter)
      else if HasPrefix (firstFragment path) ['*'] = true then
        addWildcardChild add this ⟨m, path, h⟩ (firstFragment path)
      else if HasPrefix (firstFragment path) [':'] = true then
        addVariableChild add this ⟨m, path, h⟩ (firstFragment path)
      else addStaticChild add this ⟨m, path, h⟩ (firstFragment path) := by
  simp only [AddStep, List.length_cons, Nat.add_one_ne_zero, if_false, List.head?_cons, ne_eq,
    not_true_eq_false, List.drop_succ_cons, List.drop_zero]

/-- The body of `Add`: after a successful registration, the same method and path with
another handler is refused and the trie stays as it is, provided the calls on the
children behave so. -/
theorem AddStep_twice (U : RuneTables)
    (add : treeNode M H → Route M H → treeNode M H × Outcome)
    (hfrag : ∀ c r, (add c r).1.pathFragment = c.pathFragment)
    (hadd : ∀ c m p h1 h2, (add c ⟨m, p, some h1⟩).2 = .ok →
      add (add c ⟨m, p, some h1⟩).1 ⟨m, p, some h2⟩ =
        ((add c ⟨m, p, some h1⟩).1, .err .ErrMethodAlreadyExists))
    (this : treeNode M H) (m : M) (p : List Char) (h1 h2 : H)
    (hok : (AddStep U add this ⟨m, p, some h1⟩).2 = .ok) :
    AddStep U add (AddStep U add this ⟨m, p, some h1⟩).1 ⟨m, p, some h2⟩ =
      ((AddStep U add this ⟨m, p, some h1⟩).1, .err .ErrMethodAlreadyExists) := by
  cases this with
  | mk f s v w hs =>
    revert hok
    cases p with
    | nil =>
      rw [AddStep_nil]
      by_cases hget : (mapGet hs m).isSome = true
      · simp only [hget, if_true]
        intro h; exact Outcome.noConfusion h
      · cases hs with
        | none =>
          simp only [hget, if_false, Bool.false_eq_true]
          intro h; exact Outcome.noConfusion h
        | some l =>
          simp only [hget, if_false, Bool.false_eq_true]
          intro _
          rw [AddStep_nil]
          simp only [mapGet_mapSet_self, Option.isSome_some, if_true]
    | cons a path =>
      by_cases ha : a = '/'
      · subst ha
        rw [AddStep_slash]
        by_cases hidx : IndexSlash path = 0
        · simp only [hidx, if_true]
          intro h; exact Outcome.noConfusion h
        · by_cases hvalid : (!validCharacter U (firstFragment path)) = true
          · simp only [hidx, hvalid, if_true, if_false, Bool.false_eq_true]
            intro h; exact Outcome.noConfusion h
          · by_cases hstar : HasPrefix (firstFragment path) ['*'] = true
            · simp only [hidx, hvalid, hstar, if_true, if_false, Bool.false_eq_true]
              by_cases hlen : path.length > 1
              · simp only [addWildcardChild, hlen, if_true]
                intro h; exact Outcome.noConfusion h
              · cases w with
                | none =>
                  simp only [addWildcardChild, hlen, if_false]
                  intro hok
                  rw [AddStep_slash]
                  simp only [hidx, hvalid, hstar, if_true, if_false, Bool.false_eq_true, addWildcardChild, hlen]
                  rw [hadd _ _ _ _ h2 hok]
                | some wc =>
                  simp only [addWildcardChild, hlen, if_false]
                  intro hok
                  rw [AddStep_slash]
                  simp only [hidx, hvalid, hstar, if_true, if_false, Bool.false_eq_true, addWildcardChild, hlen]
                  rw [hadd _ _ _ _ h2 hok]
            · by_cases hcolon : HasPrefix (firstFragment path) [':'] = true
              · simp only [hidx, hvalid, hstar, hcolon, if_true, if_false, Bool.false_eq_true]
                cases v with
                | none =>
                  simp only [addVariableChild]
                  intro hok
                  rw [AddStep_slash]
                  simp only [hidx, hvalid, hstar, hcolon, if_true, if_false, Bool.false_eq_true, addVariableChild]
                  rw [hadd _ _ _ _ h2 hok]
                | some vc =>
                  simp only [addVariableChild]
                  intro hok
                  rw [AddStep_slash]
                  simp only [hidx, hvalid, hstar, hcolon, if_true, if_false, Bool.false_eq_true, addVariableChild]
                  rw [hadd _ _ _ _ h2 hok]
              · simp only [hidx, hvalid, hstar, hcolon, if_false, Bool.false_eq_true]
                simp only [addStaticChild]
                cases hloop : addStaticLoop add
                    ⟨m, path.drop (firstFragment path).length, some h1⟩
                    (firstFragment path) s with
                | some res =>
                  obtain ⟨pre, c, post, hs2, hpre, hc, hr⟩ := addStaticLoop_some _ _ _ _ _ hloop
                  subst hs2
                  rw [hr]
                  simp only []
                  intro hok
                  rw [AddStep_slash]
                  simp only [hidx, hvalid, hstar, hcolon, if_false, Bool.false_eq_true, addStaticChild]
                  rw [addStaticLoop_of_split add _ _ pre post _ hpre
                    ((hfrag _ _).trans hc)]
                  simp only []
                  rw [hadd _ _ _ _ h2 hok]
                | none =>
                  have hnone := addStaticLoop_none _ _ _ _ hloop
                  simp only []
                  by_cases hres : (add (newChild (firstFragment path))
                      ⟨m, path.drop (firstFragment path).length, some h1⟩).2 = .ok
                  · simp only [hres, ne_eq, not_true_eq_false, if_false]
                    intro _
                    have hsplit := addStaticLoop_of_split add
                      ⟨m, path.drop (firstFragment path).length, some h2⟩
                      (firstFragment path) s []
                      (add (newChild (firstFragment path))
                        ⟨m, path.drop (firstFragment path).length, some h1⟩).1
                      hnone ((hfrag _ _).trans rfl)
                    rw [AddStep_slash]
                    simp only [hidx, hvalid, hstar, hcolon, if_false, Bool.false_eq_true, addStaticChild]
                    rw [hsplit]
                    simp only []
                    rw [hadd _ _ _ _ h2 hres]
                  · simp only [hres, ne_eq, not_false_eq_true, if_true]
                    intro hok
                    exact False.elim hok
      · rw [AddStep_not_slash U add _ m _ a path ha]
        intro h; exact Outcome.noConfusion h

theorem AddFuel_twice (U : RuneTables) (n : Nat) :
    ∀ (c : treeNode M H) (m : M) (p : List Char) (h1 h2 : H),
      (AddFuel U n c ⟨m, p, some h1⟩).2 = .ok →
      AddFuel U n (AddFuel U n c ⟨m, p, some h1⟩).1 ⟨m, p, some h2⟩ =
        ((AddFuel U n c ⟨m, p, some h1⟩).1, .err .ErrMethodAlreadyExists) := by
  induction n with
  | zero => intro c m p h1 h2 h; exact Outcome.noConfusion h
  | succ n ih =>
    intro c m p h1 h2 h
    exact AddStep_twice U _ (AddFuel_pathFragment U n) ih c m p h1 h2 h

end Twice


/-! ## Registering, then resolving -/

section RoundTrip
variable {M H : Type} [DecidableEq M]

theorem Resolve_slash (m : M) (f : List Char) (s : List (treeNode M H))
    (v w : Option (treeNode M H)) (hs : Option (List (M × Option H))) (path : List Char) :
    Resolve m (.mk f s v w hs) ('/' :: path) =
      match resolveStatic m s path (firstFragment path) with
      | some res => res
      | none =>
        match resolveVariable m v path with
        | some res => res
        | none =>
          match resolveWildcard m w path with
          | some res => res
          | none => (none, false) := by
  rw [Resolve]
  simp only [List.length_cons, Nat.add_one_ne_zero, if_false, List.head?_cons, if_true,
    List.drop_succ_cons, List.drop_zero]

theorem varsAgree_nil (t : treeNode M H) : varsAgree t [] = true := by
  cases t with
  | mk f s v w hs =>
    rw [varsAgree]
    simp

theorem varsAgree_slash (f : List Char) (s : List (treeNode M H))
    (v w : Option (treeNode M H)) (hs : Option (List (M × Option H))) (a : Char)
    (path : List Char) :
    varsAgree (.mk f s v w hs) (a :: path) =
      if HasPrefix (firstFragment path) ['*'] = true then true
      else if HasPrefix (firstFragment path) [':'] = true then
        varsAgreeVariable v path (firstFragment path)
      else varsAgreeStatic s path (firstFragment path) := by
  rw [varsAgree]
  simp only [List.length_cons, Nat.add_one_ne_zero, if_false, List.drop_succ_cons,
    List.drop_zero]

theorem varsAgree_newChild (frag p : List Char) :
    varsAgree (newChild frag : treeNode M H) p = true := by
  unfold newChild
  cases p with
  | nil => exact varsAgree_nil _
  | cons a path =>
    rw [varsAgree_slash]
    simp [varsAgreeVariable, varsAgreeStatic]

theorem varsAgreeStatic_of_split (pre post : List (treeNode M H)) (c : treeNode M H)
    (path frag : List Char) (hpre : ∀ x ∈ pre, x.pathFragment ≠ frag)
    (hc : c.pathFragment = frag) :
    varsAgreeStatic (pre ++ c :: post) path frag = varsAgree c (path.drop frag.length) := by
  induction pre with
  | nil => simp [varsAgreeStatic, hc]
  | cons a as ih =>
    have ha : a.pathFragment ≠ frag := hpre a (List.mem_cons_self _ _)
    have has : ∀ x ∈ as, x.pathFragment ≠ frag := fun x hx => hpre x (List.mem_cons_of_mem _ hx)
    rw [List.cons_append]
    simp only [varsAgreeStatic, ha, if_false, ih has]

theorem star_not_colon (frag : List Char) (h : HasPrefix frag ['*'] = true) :
    HasPrefix frag [':'] = false := by
  rw [HasPrefix_singleton] at h
  cases hc : HasPrefix frag [':'] with
  | false => rfl
  | true =>
    rw [HasPrefix_singleton, h] at hc
    simp at hc

/-- The body of `Add`: a route that was registered resolves to its handler, provided
the calls on the children behave so. -/
theorem AddStep_roundtrip (U : RuneTables)
    (add : treeNode M H → Route M H → treeNode M H × Outcome) (m : M) (h : H)
    (hfrag : ∀ c r, (add c r).1.pathFragment = c.pathFragment)
    (hadd : ∀ c p, Shaped c → (add c ⟨m, p, some h⟩).2 = .ok → varsAgree c p = true →
      Resolve m (add c ⟨m, p, some h⟩).1 p = (some h, true))
    (this : treeNode M H) (p : List Char) (hshape : Shaped this)
    (hok : (AddStep U add this ⟨m, p, some h⟩).2 = .ok)
    (hagree : varsAgree this p = true) :
    Resolve m (AddStep U add this ⟨m, p, some h⟩).1 p = (some h, true) := by
  cases hshape with
  | mk f s v w hs hstatic hvar hwild hstaticSub hvarSub hwildSub =>
    revert hok hagree
    cases p with
    | nil =>
      rw [AddStep_nil]
      by_cases hget : (mapGet hs m).isSome = true
      · simp only [hget, if_true]
        intro h; exact Outcome.noConfusion h
      · cases hs with
        | none =>
          simp only [hget, if_false, Bool.false_eq_true]
          intro h; exact Outcome.noConfusion h
        | some l =>
          simp only [hget, if_false, Bool.false_eq_true]
          intro _ _
          rw [Resolve_nil]
          simp only [treeNode.handlers, mapGet_mapSet_self]
    | cons a path =>
      by_cases ha : a = '/'
      · subst ha
        rw [AddStep_slash, varsAgree_slash]
        by_cases hidx : IndexSlash path = 0
        · simp only [hidx, if_true]
          intro h; exact Outcome.noConfusion h
        · by_cases hvalid : (!validCharacter U (firstFragment path)) = true
          · simp only [hidx, hvalid, if_true, if_false]
            intro h; exact Outcome.noConfusion h
          · have hpre : HasPrefix path (firstFragment path) = true :=
              (HasPrefix_iff _ _).mpr (firstFragment_isPrefix path)
            by_cases hstar : HasPrefix (firstFragment path) ['*'] = true
            · simp only [hidx, hvalid, hstar, if_true, if_false, Bool.false_eq_true]
              have hcolon := star_not_colon _ hstar
              have hS : resolveStatic m s path (firstFragment path) = none := by
                apply resolveStatic_of_none
                intro x hx e
                have := (hstatic x hx).1
                rw [e, hstar] at this
                exact Bool.noConfusion this
              have hV : resolveVariable m v path = none := by
                cases v with
                | none => rfl
                | some vc =>
                  have := HasPrefix_marker path vc.pathFragment ':' (by decide)
                    (hvar vc rfl) hcolon
                  simp [resolveVariable, this]
              by_cases hlen : path.length > 1
              · simp only [addWildcardChild, hlen, if_true]
                intro h; exact Outcome.noConfusion h
              · have hfs := firstFragment_eq_star path hlen hstar
                rw [hfs] at hpre
                cases w with
                | none =>
                  simp only [addWildcardChild, hlen, if_false]
                  intro hok _
                  rw [Resolve_slash, hS, hV]
                  have hf1 : (add (newChild (firstFragment path))
                      ⟨m, [], some h⟩).1.pathFragment = ['*'] := by
                    rw [hfrag]
                    exact hfs
                  have hr := hadd _ [] (Shaped_newChild _) hok (varsAgree_nil _)
                  simp only [resolveWildcard, hf1, hpre, if_true]
                  exact hr
                | some wc =>
                  simp only [addWildcardChild, hlen, if_false]
                  intro hok _
                  rw [Resolve_slash, hS, hV]
                  have hf1 := hfrag wc ⟨m, [], some h⟩
                  have hr := hadd _ [] (hwildSub wc rfl) hok (varsAgree_nil _)
                  simp only [resolveWildcard, hf1, hwild wc rfl, hpre, if_true]
                  exact hr
            · by_cases hcolon : HasPrefix (firstFragment path) [':'] = true
              · simp only [hidx, hvalid, hstar, hcolon, if_true, if_false, Bool.false_eq_true]
                have hS : resolveStatic m s path (firstFragment path) = none := by
                  apply resolveStatic_of_none
                  intro x hx e
                  have := (hstatic x hx).2
                  rw [e, hcolon] at this
                  exact Bool.noConfusion this
                cases v with
                | none =>
                  simp only [addVariableChild]
                  intro hok _
                  rw [Resolve_slash, hS]
                  have hf1 : (add (newChild (firstFragment path))
                      ⟨m, path.drop (firstFragment path).length, some h⟩).1.pathFragment =
                      firstFragment path := by
                    rw [hfrag]
                    rfl
                  have hr := hadd _ _ (Shaped_newChild _) hok (varsAgree_newChild _ _)
                  simp only [resolveVariable, hf1, hpre, if_true]
                  simp only [hr, Option.isSome_some, if_true]
                | some vc =>
                  simp only [addVariableChild, varsAgreeVariable, Bool.and_eq_true,
                    decide_eq_true_eq]
                  intro hok hag
                  rw [Resolve_slash, hS]
                  have hf1 := hfrag vc ⟨m, path.drop (firstFragment path).length, some h⟩
                  have hr := hadd _ _ (hvarSub vc rfl) hok hag.2
                  simp only [resolveVariable, hf1, hag.1, hpre, if_true]
                  simp only [hr, Option.isSome_some, if_true]
              · simp only [hidx, hvalid, hstar, hcolon, if_false, Bool.false_eq_true]
                simp only [addStaticChild]
                cases hloop : addStaticLoop add
                    ⟨m, path.drop (firstFragment path).length, some h⟩
                    (firstFragment path) s with
                | some res =>
                  obtain ⟨pre, c, post, hs2, hpre2, hc, hr⟩ :=
                    addStaticLoop_some _ _ _ _ _ hloop
                  subst hs2
                  rw [hr]
                  simp only []
                  rw [varsAgreeStatic_of_split pre post c _ _ hpre2 hc]
                  intro hok hag
                  rw [Resolve_slash, resolveStatic_of_split m pre post _ _ _ hpre2
                    ((hfrag _ _).trans hc)]
                  have hres := hadd _ _ (hstaticSub c (by simp)) hok hag
                  simp only [hres, Option.isSome_some, if_true]
                | none =>
                  have hnone := addStaticLoop_none _ _ _ _ hloop
                  simp only []
                  by_cases hres : (add (newChild (firstFragment path))
                      ⟨m, path.drop (firstFragment path).length, some h⟩).2 = .ok
                  · simp only [hres, ne_eq, not_true_eq_false, if_false]
                    intro _ _
                    have hf1 : (add (newChild (firstFragment path))
                        ⟨m, path.drop (firstFragment path).length, some h⟩).1.pathFragment =
                        firstFragment path := by
                      rw [hfrag]
                      rfl
                    rw [Resolve_slash, resolveStatic_of_split m s [] _ _ _ hnone hf1]
                    have hr := hadd _ _ (Shaped_newChild _) hres (varsAgree_newChild _ _)
                    simp only [hr, Option.isSome_some, if_true]
                  · simp only [hres, ne_eq, not_false_eq_true, if_true]
                    intro hok
                    exact False.elim hok
      · rw [AddStep_not_slash U add _ m _ a path ha]
        intro h; exact Outcome.noConfusion h

theorem AddFuel_roundtrip (U : RuneTables) (m : M) (h : H) (n : Nat) :
    ∀ (c : treeNode M H) (p : List Char), Shaped c →
      (AddFuel U n c ⟨m, p, some h⟩).2 = .ok → varsAgree c p = true →
      Resolve m (AddFuel U n c ⟨m, p, some h⟩).1 p = (some h, true) := by
  induction n with
  | zero => intro c p _ h; exact Outcome.noConfusion h
  | succ n ih =>
    intro c p hc hok hag
    exact AddStep_roundtrip U _ m h (AddFuel_pathFragment U n) ih c p hc hok hag

end RoundTrip


/-! ## `Add` and `Resolve` on paths given segment by segment -/

section Segments
variable {M H : Type} [DecidableEq M]

theorem validFrom_no_slash (U : RuneTables) (hU : U.slashIsPunct) (f : List Char) :
    ∀ i, validFrom U i f = true → '/' ∉ f := by
  induction f with
  | nil => intro i _; simp
  | cons a as ih =>
    intro i h
    by_cases ha : a = '/'
    · subst ha
      simp [validFrom, hU.1, hU.2, isSpecialCharacter] at h
    · have hrest : validFrom U (i + 1) as = true := by
        simp only [validFrom] at h
        split at h
        · exact h
        · split at h
          · exact h
          · split at h
            · exact h
            · split at h
              · exact h
              · exact Bool.noConfusion h
      simp only [List.mem_cons, not_or]
      exact ⟨fun e => ha e.symm, ih _ hrest⟩

/-- A fragment that passes `validCharacter` contains no slash. -/
theorem validCharacter_no_slash (U : RuneTables) (hU : U.slashIsPunct) (f : List Char)
    (h : validCharacter U f = true) : '/' ∉ f :=
  validFrom_no_slash U hU f 0 h

theorem IndexSlash_append_ne_zero (f rest : List Char) (hf : f ≠ []) (hslash : '/' ∉ f) :
    IndexSlash (f ++ rest) ≠ 0 := by
  rw [Ne, IndexSlash_eq_zero_iff]
  cases f with
  | nil => exact absurd rfl hf
  | cons a as =>
    simp only [List.mem_cons, not_or] at hslash
    simp only [List.cons_append, List.head?_cons, Option.some.injEq]
    exact fun e => hslash.1 e.symm

theorem colon_not_star (frag : List Char) (h : HasPrefix frag [':'] = true) :
    HasPrefix frag ['*'] = false := by
  rw [HasPrefix_singleton] at h
  cases hc : HasPrefix frag ['*'] with
  | false => rfl
  | true =>
    rw [HasPrefix_singleton, h] at hc
    simp at hc

theorem HasPrefix_ne_nil (frag : List Char) (c : Char) (h : HasPrefix frag [c] = true) :
    frag ≠ [] := by
  intro e
  subst e
  simp [HasPrefix] at h

theorem Add_newChild_nil (U : RuneTables) (frag : List Char) (m : M) (h : Option H) :
    Add U (newChild frag) ⟨m, [], h⟩ = (.mk frag [] none none (some [(m, h)]), .ok) := by
  rw [Add_eq, AddStep_newChild_nil]
  rfl

/-- One step of `Add` on a static segment that no static child carries yet. -/
theorem Add_static_new (U : RuneTables) (hU : U.slashIsPunct) (f : List Char)
    (st : List (treeNode M H)) (v w : Option (treeNode M H))
    (hs : Option (List (M × Option H))) (m : M) (h : Option H) (s rest : List Char)
    (hne : s ≠ []) (hvalid : validCharacter U s = true)
    (hstar : HasPrefix s ['*'] = false) (hcolon : HasPrefix s [':'] = false)
    (hrest : rest = [] ∨ rest.head? = some '/')
    (hno : ∀ x ∈ st, x.pathFragment ≠ s) :
    Add U (.mk f st v w hs) ⟨m, '/' :: (s ++ rest), h⟩ =
      if (Add U (newChild s) ⟨m, rest, h⟩).2 ≠ .ok then
        (.mk f st v w hs, (Add U (newChild s) ⟨m, rest, h⟩).2)
      else (.mk f (st ++ [(Add U (newChild s) ⟨m, rest, h⟩).1]) v w hs, .ok) := by
  have hslash := validCharacter_no_slash U hU s hvalid
  rw [Add_eq, AddStep_slash, firstFragment_append s rest hslash hrest]
  simp only [IndexSlash_append_ne_zero s rest hne hslash, hvalid, hstar, hcolon, if_false,
    Bool.not_true, Bool.false_eq_true, addStaticChild, List.drop_left,
    addStaticLoop_of_none (Add U) _ s st hno]

/-- One step of `Add` on a variable segment at a node without variable child. -/
theorem Add_variable_new (U : RuneTables) (hU : U.slashIsPunct) (f : List Char)
    (st : List (treeNode M H)) (w : Option (treeNode M H))
    (hs : Option (List (M × Option H))) (m : M) (h : Option H) (s rest : List Char)
    (hvalid : validCharacter U s = true) (hcolon : HasPrefix s [':'] = true)
    (hrest : rest = [] ∨ rest.head? = some '/') :
    Add U (.mk f st none w hs) ⟨m, '/' :: (s ++ rest), h⟩ =
      (.mk f st (some (Add U (newChild s) ⟨m, rest, h⟩).1) w hs,
        (Add U (newChild s) ⟨m, rest, h⟩).2) := by
  have hslash := validCharacter_no_slash U hU s hvalid
  have hne := HasPrefix_ne_nil s ':' hcolon
  rw [Add_eq, AddStep_slash, firstFragment_append s rest hslash hrest]
  simp only [IndexSlash_append_ne_zero s rest hne hslash, hvalid, colon_not_star s hcolon,
    hcolon, if_false, if_true, Bool.not_true, Bool.false_eq_true, addVariableChild,
    List.drop_left]

/-- One step of `Add` on a wildcard segment: only a remaining path of one character
passes. -/
theorem Add_wildcard_new (U : RuneTables) (hU : U.slashIsPunct) (f : List Char)
    (st : List (treeNode M H)) (v : Option (treeNode M H))
    (hs : Option (List (M × Option H))) (m : M) (h : Option H) (s rest : List Char)
    (hvalid : validCharacter U s = true) (hstar : HasPrefix s ['*'] = true)
    (hrest : rest = [] ∨ rest.head? = some '/') :
    Add U (.mk f st v none hs) ⟨m, '/' :: (s ++ rest), h⟩ =
      if (s ++ rest).length > 1 then (.mk f st v none hs, .err .ErrInvalidWildCard)
      else (.mk f st v (some (.mk s [] none none (some [(m, h)]))) hs, .ok) := by
  have hslash := validCharacter_no_slash U hU s hvalid
  have hne := HasPrefix_ne_nil s '*' hstar
  rw [Add_eq, AddStep_slash, firstFragment_append s rest hslash hrest]
  simp only [IndexSlash_append_ne_zero s rest hne hslash, hvalid, hstar, if_false, if_true,
    Bool.not_true, Bool.false_eq_true, addWildcardChild, Add_newChild_nil]

/-- A segment that fails `validCharacter` stops `Add` with `ErrInvalidCharacter`. -/
theorem Add_invalid (U : RuneTables) (this : treeNode M H) (m : M) (h : Option H)
    (path : List Char) (hidx : IndexSlash path ≠ 0)
    (hinvalid : validCharacter U (firstFragment path) = false) :
    Add U this ⟨m, '/' :: path, h⟩ = (this, .err .ErrInvalidCharacter) := by
  rw [Add_eq, AddStep_slash]
  simp only [hidx, hinvalid, if_false, Bool.not_false, if_true]

/-- A node without children resolves no path that is not empty. -/
theorem Resolve_leaf (m : M) (f : List Char) (hs : Option (List (M × Option H)))
    (q : List Char) (hq : q ≠ []) :
    Resolve m (.mk f [] none none hs : treeNode M H) q = (none, false) := by
  rw [Resolve]
  have : q.length ≠ 0 := by
    intro e
    exact hq (List.length_eq_zero.mp e)
  simp [this, resolveStatic, resolveVariable, resolveWildcard]

theorem validCharacter_star (U : RuneTables) : validCharacter U ['*'] = true := by
  simp only [validCharacter, validFrom]
  split
  · rfl
  · split
    · rfl
    · split
      · rfl
      · rfl

theorem star_length (w : List Char) (hw : HasPrefix w ['*'] = true) :
    w.length > 1 ↔ w ≠ ['*'] := by
  rw [HasPrefix_singleton] at hw
  match w, hw with
  | [], hw => simp at hw
  | [a], hw =>
    simp only [List.head?_cons, Option.some.injEq] at hw
    simp [hw]
  | a :: b :: rest, _ => simp

/-- A wildcard segment followed by anything makes `Add` fail. -/
theorem Add_wildcard_long (U : RuneTables) (this : treeNode M H) (m : M) (h : Option H)
    (path : List Char) (hstar : HasPrefix path ['*'] = true) (hlen : path.length > 1) :
    (Add U this ⟨m, '/' :: path, h⟩).2 ≠ .ok := by
  have hfs : HasPrefix (firstFragment path) ['*'] = true := by
    rw [HasPrefix_singleton] at hstar ⊢
    exact (firstFragment_head path '*' (by decide)).mpr hstar
  cases this with
  | mk f s v w hs =>
    rw [Add_eq, AddStep_slash]
    split
    · intro h; exact Outcome.noConfusion h
    · split
      · intro h; exact Outcome.noConfusion h
      · simp only [hfs, if_true, addWildcardChild, hlen]
        intro h; exact Outcome.noConfusion h

/-- When `Add` fails with `e` on every node for the rest of the path, it fails with `e`
on a path that has one more static or variable segment in front. -/
theorem Add_descend_err (U : RuneTables) (hU : U.slashIsPunct) (this : treeNode M H)
    (m : M) (h : Option H) (f rest : List Char) (e : RouteError)
    (hne : f ≠ []) (hvalid : validCharacter U f = true) (hstar : HasPrefix f ['*'] = false)
    (hrest : rest = [] ∨ rest.head? = some '/')
    (hall : ∀ c : treeNode M H, (Add U c ⟨m, rest, h⟩).2 = .err e) :
    (Add U this ⟨m, '/' :: (f ++ rest), h⟩).2 = .err e := by
  have hslash := validCharacter_no_slash U hU f hvalid
  cases this with
  | mk f0 s v w hs =>
    rw [Add_eq, AddStep_slash, firstFragment_append f rest hslash hrest]
    simp only [IndexSlash_append_ne_zero f rest hne hslash, hvalid, hstar, if_false,
      Bool.not_true, Bool.false_eq_true, List.drop_left]
    split
    · cases v with
      | none => simp only [addVariableChild, List.drop_left, hall]
      | some vc => simp only [addVariableChild, List.drop_left, hall]
    · simp only [addStaticChild, List.drop_left]
      split
      · rename_i res hres
        obtain ⟨pre, c, post, _, _, _, hr⟩ := addStaticLoop_some _ _ _ _ _ hres
        rw [hr]
        exact hall c
      · simp only [hall]
        rfl

theorem slashed_append_head (segs : List (List Char)) (tail : List Char) :
    (slashed segs ++ '/' :: tail).head? = some '/' := by
  cases segs <;> rfl

theorem validFrom_append_invalid (U : RuneTables) (c : Char)
    (hl : U.IsLetter c = false) (hd : U.IsDigit c = false)
    (hsp : isSpecialCharacter c = false) (b : List Char) :
    ∀ i, (b ≠ [] ∨ 0 < i) → validFrom U i (b ++ [c]) = false := by
  induction b with
  | nil =>
    intro i hi
    have hi0 : 0 < i := by
      rcases hi with h | h
      · exact absurd rfl h
      · exact h
    have : (i == 0) = false := by
      simp only [beq_eq_false_iff_ne, ne_eq]
      omega
    simp [validFrom, hl, hd, hsp, this]
  | cons a as ih =>
    intro i _
    have hrec := ih (i + 1) (Or.inr (Nat.succ_pos i))
    simp only [List.cons_append, validFrom]
    split
    · exact hrec
    · split
      · exact hrec
      · split
        · exact hrec
        · split
          · exact hrec
          · rfl

end Segments


/-! ## The claims -/

section Claims
variable {M H : Type} [DecidableEq M]

/-- C1 (as stated, refuted): after `Add(GET, "/:id", 1)` on the empty root, the call
`Add(POST, "/:name", 2)` returns no error, because it reuses the variable child `:id`;
`Resolve(POST, "/:name")` on the resulting trie returns `(nil, false)`. -/
theorem C1_counterexample :
    (Add asciiTables
      (Add asciiTables (emptyRoot : treeNode String Nat) ⟨"GET", "/:id".toList, some 1⟩).1
      ⟨"POST", "/:name".toList, some 2⟩).2 = Outcome.ok ∧
    Resolve "POST"
      (Add asciiTables
        (Add asciiTables (emptyRoot : treeNode String Nat) ⟨"GET", "/:id".toList, some 1⟩).1
        ⟨"POST", "/:name".toList, some 2⟩).1 "/:name".toList = (none, false) := by
  decide

/-- C1 (amended): on every trie built from the empty root by `Add` calls, if
`Add(m, p, H)` with a non-nil `H` returns no error, and every variable segment of `p`
that `Add` routes into an already existing variable child is textually equal to that
child's fragment, then `Resolve(m, p)` on the resulting trie returns `(H, true)`. -/
theorem C1_add_then_resolve (U : RuneTables) (t : treeNode M H) (ht : Reachable U t)
    (m : M) (p : List Char) (h : H)
    (hok : (Add U t ⟨m, p, some h⟩).2 = .ok) (hagree : varsAgree t p = true) :
    Resolve m (Add U t ⟨m, p, some h⟩).1 p = (some h, true) :=
  AddFuel_roundtrip U m h _ t p (Reachable.shaped U t ht) hok hagree

/-- C1 (witness): `/a/:id` registered for GET, then for POST. -/
theorem C1_add_then_resolve_witness :
    Reachable asciiTables
      (Add asciiTables (emptyRoot : treeNode String Nat) ⟨"GET", "/a/:id".toList, some 1⟩).1 ∧
    (Add asciiTables
      (Add asciiTables (emptyRoot : treeNode String Nat) ⟨"GET", "/a/:id".toList, some 1⟩).1
      ⟨"POST", "/a/:id".toList, some 2⟩).2 = Outcome.ok ∧
    varsAgree
      (Add asciiTables (emptyRoot : treeNode String Nat) ⟨"GET", "/a/:id".toList, some 1⟩).1
      "/a/:id".toList = true ∧
    Resolve "POST"
      (Add asciiTables
        (Add asciiTables (emptyRoot : treeNode String Nat) ⟨"GET", "/a/:id".toList, some 1⟩).1
        ⟨"POST", "/a/:id".toList, some 2⟩).1 "/a/:id".toList = (some 2, true) :=
  ⟨Reachable.add _ _ Reachable.empty, by decide, by decide,
    C1_add_then_resolve asciiTables _ (Reachable.add _ _ Reachable.empty) "POST"
      "/a/:id".toList 2 (by decide) (by decide)⟩

/-- C2 (the code at the example of the docstring): with only `GET /` registered,
`Resolve(POST, "/")` returns `(nil, false)`, where the docstring of `routeResolver`
promises a `nil` handler with the flag `true`. -/
theorem C2_docstring_example :
    (Add asciiTables (emptyRoot : treeNode String Nat) ⟨"GET", "/".toList, some 1⟩).2 =
      Outcome.ok ∧
    Resolve "GET"
      (Add asciiTables (emptyRoot : treeNode String Nat) ⟨"GET", "/".toList, some 1⟩).1
      "/".toList = (some 1, true) ∧
    Resolve "POST"
      (Add asciiTables (emptyRoot : treeNode String Nat) ⟨"GET", "/".toList, some 1⟩).1
      "/".toList = (none, false) := by
  decide

/-- C3: on every trie built from the empty root by `Add` calls, for every method and
request path, `Resolve` returns exactly what the reference resolver returns, which
answers `(nil, false)` as soon as the first static child with the segment as fragment
has yielded a `nil` handler. -/
theorem C3_no_backtracking (U : RuneTables) (t : treeNode M H) (ht : Reachable U t)
    (m : M) (p : List Char) : Resolve m t p = ResolveRef m t p :=
  Resolve_eq_ResolveRef_of_shaped m t (Reachable.shaped U t ht) p

/-- C3 (witness): `/a/b` and `/a/c` registered, `(GET, "/a/b/z")` resolved. -/
theorem C3_no_backtracking_witness :
    Reachable asciiTables
      (Add asciiTables
        (Add asciiTables (emptyRoot : treeNode String Nat) ⟨"GET", "/a/b".toList, some 1⟩).1
        ⟨"GET", "/a/c".toList, some 2⟩).1 ∧
    Resolve "GET"
      (Add asciiTables
        (Add asciiTables (emptyRoot : treeNode String Nat) ⟨"GET", "/a/b".toList, some 1⟩).1
        ⟨"GET", "/a/c".toList, some 2⟩).1 "/a/b/z".toList =
    ResolveRef "GET"
      (Add asciiTables
        (Add asciiTables (emptyRoot : treeNode String Nat) ⟨"GET", "/a/b".toList, some 1⟩).1
        ⟨"GET", "/a/c".toList, some 2⟩).1 "/a/b/z".toList ∧
    ResolveRef "GET"
      (Add asciiTables
        (Add asciiTables (emptyRoot : treeNode String Nat) ⟨"GET", "/a/b".toList, some 1⟩).1
        ⟨"GET", "/a/c".toList, some 2⟩).1 "/a/b/z".toList = (none, false) :=
  ⟨Reachable.add _ _ (Reachable.add _ _ Reachable.empty),
    C3_no_backtracking asciiTables _ (Reachable.add _ _ (Reachable.add _ _ Reachable.empty))
      "GET" "/a/b/z".toList,
    by decide⟩


/-- The node for a static fragment `s` whose only child is the variable node `v` that
carries `h` for `m`, as `Add` builds it for `/s/v`, resolves exactly the literal text. -/
theorem Resolve_variable_literal (m : M) (h : H) (s v x : List Char)
    (hs : Option (List (M × Option H))) :
    Resolve m (.mk s [] (some (.mk v [] none none (some [(m, some h)]))) none hs)
      ('/' :: x) = if x = v then (some h, true) else (none, false) := by
  rw [Resolve_slash]
  simp only [resolveStatic, resolveVariable, resolveWildcard, treeNode.pathFragment]
  by_cases hx : x = v
  · subst hx
    simp only [HasPrefix_self, if_true, List.drop_length, Resolve_nil, treeNode.handlers]
    simp [mapGet]
  · by_cases hpre : HasPrefix x v = true
    · have hp := (HasPrefix_iff _ _).mp hpre
      obtain ⟨r, hr⟩ := hp
      have hrne : r ≠ [] := by
        intro e
        apply hx
        rw [← hr, e, List.append_nil]
      have hdrop : List.drop v.length x = r := by
        rw [← hr, List.drop_left]
      simp only [hpre, if_true, hdrop, Resolve_leaf m v _ r hrne, hx, if_false]
      rfl
    · simp only [hpre, hx, if_false, Bool.false_eq_true]

/-- C4: after the single call `Add(m, "/" ++ s ++ "/" ++ v, H)` on the empty root, with
`s` a non-empty valid static fragment and `v` a valid variable fragment,
`Resolve(m, "/" ++ s ++ "/" ++ x)` returns `(H, true)` if `x = v` and `(nil, false)`
if `x ≠ v`. -/
theorem C4_variable_literal (U : RuneTables) (hU : U.slashIsPunct) (s v : List Char)
    (m : M) (h : H) (hs : s ≠ []) (hsv : validCharacter U s = true)
    (hs1 : HasPrefix s ['*'] = false) (hs2 : HasPrefix s [':'] = false)
    (hv : validCharacter U v = true) (hv1 : HasPrefix v [':'] = true) (x : List Char) :
    Resolve m (Add U (emptyRoot : treeNode M H) ⟨m, '/' :: (s ++ '/' :: v), some h⟩).1
      ('/' :: (s ++ '/' :: x)) = if x = v then (some h, true) else (none, false) := by
  have hslash := validCharacter_no_slash U hU s hsv
  have hin : Add U (newChild s : treeNode M H) ⟨m, '/' :: v, some h⟩ =
      (.mk s [] (some (.mk v [] none none (some [(m, some h)]))) none (some []), .ok) := by
    have := Add_variable_new U hU s ([] : List (treeNode M H)) none (some []) m (some h)
      v [] hv hv1 (Or.inl rfl)
    simp only [List.append_nil] at this
    unfold newChild
    rw [this, Add_newChild_nil]
  have hadd : Add U (emptyRoot : treeNode M H) ⟨m, '/' :: (s ++ '/' :: v), some h⟩ =
      (.mk [] [.mk s [] (some (.mk v [] none none (some [(m, some h)]))) none (some [])]
        none none none, .ok) := by
    unfold emptyRoot
    rw [Add_static_new U hU [] [] none none none m (some h) s ('/' :: v) hs hsv hs1 hs2
      (Or.inr rfl) (by simp), hin]
    simp
  rw [hadd]
  simp only []
  rw [Resolve_slash, firstFragment_append s ('/' :: x) hslash (Or.inr rfl)]
  simp only [resolveStatic, treeNode.pathFragment, ne_eq, not_true_eq_false, if_false,
    List.drop_left, Resolve_variable_literal]
  by_cases hx : x = v
  · simp [hx]
  · simp [hx, resolveVariable, resolveWildcard]

/-- C4 (witness): `/users/:id` registered, `/users/42` resolved. -/
theorem C4_variable_literal_witness :
    asciiTables.slashIsPunct ∧ "users".toList ≠ [] ∧
    validCharacter asciiTables "users".toList = true ∧
    HasPrefix "users".toList ['*'] = false ∧ HasPrefix "users".toList [':'] = false ∧
    validCharacter asciiTables ":id".toList = true ∧ HasPrefix ":id".toList [':'] = true ∧
    Resolve "GET"
      (Add asciiTables (emptyRoot : treeNode String Nat)
        ⟨"GET", '/' :: ("users".toList ++ '/' :: ":id".toList), some 7⟩).1
      ('/' :: ("users".toList ++ '/' :: "42".toList)) =
      (if "42".toList = ":id".toList then (some 7, true) else (none, false)) :=
  ⟨⟨rfl, rfl⟩, by decide, by decide, by decide, by decide, by decide, by decide,
    C4_variable_literal asciiTables ⟨rfl, rfl⟩ "users".toList ":id".toList "GET" 7
      (by decide) (by decide) (by decide) (by decide) (by decide) (by decide) "42".toList⟩


/-- What `Add` builds for `/s/*` on the empty root. -/
theorem Add_static_wildcard (U : RuneTables) (hU : U.slashIsPunct) (s w : List Char)
    (m : M) (h : H) (hs : s ≠ []) (hsv : validCharacter U s = true)
    (hs1 : HasPrefix s ['*'] = false) (hs2 : HasPrefix s [':'] = false)
    (hwv : validCharacter U w = true) (hw : HasPrefix w ['*'] = true) :
    Add U (emptyRoot : treeNode M H) ⟨m, '/' :: (s ++ '/' :: w), some h⟩ =
      if w = ['*'] then
        (.mk [] [.mk s [] none (some (.mk ['*'] [] none none (some [(m, some h)]))) (some [])]
          none none none, .ok)
      else (emptyRoot, .err .ErrInvalidWildCard) := by
  have hin := Add_wildcard_new U hU s ([] : List (treeNode M H)) none (some []) m (some h)
    w [] hwv hw (Or.inl rfl)
  simp only [List.append_nil] at hin
  unfold emptyRoot
  rw [Add_static_new U hU [] [] none none none m (some h) s ('/' :: w) hs hsv hs1 hs2
    (Or.inr rfl) (by simp)]
  unfold newChild
  rw [hin]
  by_cases hw1 : w = ['*']
  · subst hw1
    simp
  · have hlen := (star_length w hw).mpr hw1
    simp [hw1, hlen]

/-- C5 (the code at the example of the specification): `/files/*` is registered without
error, and `Resolve(GET, "/files/anything/at/all")` returns `(nil, false)`, where the
claim, and the comment `wildcard matches everything` in the wildcard block of `Resolve`,
promise the registered handler. The handler is reached only by a request whose remainder
starts with the literal text `*`. -/
theorem C5_wildcard_example :
    (Add asciiTables (emptyRoot : treeNode String Nat)
      ⟨"GET", "/files/*".toList, some 7⟩).2 = Outcome.ok ∧
    Resolve "GET"
      (Add asciiTables (emptyRoot : treeNode String Nat)
        ⟨"GET", "/files/*".toList, some 7⟩).1
      "/files/anything/at/all".toList = (none, false) ∧
    Resolve "GET"
      (Add asciiTables (emptyRoot : treeNode String Nat)
        ⟨"GET", "/files/*".toList, some 7⟩).1
      "/files/*anything/at/all".toList = (some 7, true) := by
  decide

/-- The extent of the wildcard defect: the `strings.HasPrefix` test in front of the
wildcard child compares the request with the text of the fragment. When
`Add(m, "/" ++ s ++ "/" ++ w, H)` on the empty root returns no error, with `s` a non-empty
valid static fragment and `w` beginning with `*`, `Resolve(m, "/" ++ s ++ "/" ++ rest)`
finds the handler for a `rest` that begins with the text of `w` and returns `(nil, false)`
for every other `rest`. -/
theorem Resolve_wildcard_guard (U : RuneTables) (hU : U.slashIsPunct) (s w : List Char)
    (m : M) (h : H) (hs : s ≠ []) (hsv : validCharacter U s = true)
    (hs1 : HasPrefix s ['*'] = false) (hs2 : HasPrefix s [':'] = false)
    (hw : HasPrefix w ['*'] = true)
    (hok : (Add U (emptyRoot : treeNode M H) ⟨m, '/' :: (s ++ '/' :: w), some h⟩).2 = .ok)
    (rest : List Char) :
    Resolve m (Add U (emptyRoot : treeNode M H) ⟨m, '/' :: (s ++ '/' :: w), some h⟩).1
      ('/' :: (s ++ '/' :: rest)) =
      if HasPrefix rest w = true then (some h, true) else (none, false) := by
  have hslash := validCharacter_no_slash U hU s hsv
  have hw1 : w = ['*'] := by
    by_contra hne
    have hlen := (star_length w hw).mpr hne
    have hbad := Add_wildcard_long U (newChild s : treeNode M H) m (some h) w hw hlen
    revert hok
    unfold emptyRoot
    rw [Add_static_new U hU [] [] none none none m (some h) s ('/' :: w) hs hsv hs1 hs2
      (Or.inr rfl) (by simp)]
    simp only [hbad, ne_eq, not_false_eq_true, if_true]
    exact id
  subst hw1
  rw [Add_static_wildcard U hU s ['*'] m h hs hsv hs1 hs2 (validCharacter_star U) hw]
  simp only [if_true]
  rw [Resolve_slash, firstFragment_append s ('/' :: rest) hslash (Or.inr rfl)]
  simp only [resolveStatic, treeNode.pathFragment, ne_eq, not_true_eq_false, if_false,
    List.drop_left, Resolve_slash, resolveVariable, resolveWildcard, Resolve_nil,
    treeNode.handlers]
  by_cases hr : HasPrefix rest ['*'] = true
  · simp [hr, mapGet]
  · simp [hr]

/-- The wildcard guard at `/files/*`: the request `/files/*anything/at/all` is served. -/
theorem Resolve_wildcard_guard_example :
    asciiTables.slashIsPunct ∧ "files".toList ≠ [] ∧
    validCharacter asciiTables "files".toList = true ∧
    HasPrefix "files".toList ['*'] = false ∧ HasPrefix "files".toList [':'] = false ∧
    HasPrefix "*".toList ['*'] = true ∧
    (Add asciiTables (emptyRoot : treeNode String Nat)
      ⟨"GET", '/' :: ("files".toList ++ '/' :: "*".toList), some 7⟩).2 = Outcome.ok ∧
    Resolve "GET"
      (Add asciiTables (emptyRoot : treeNode String Nat)
        ⟨"GET", '/' :: ("files".toList ++ '/' :: "*".toList), some 7⟩).1
      ('/' :: ("files".toList ++ '/' :: "*anything/at/all".toList)) =
      (if HasPrefix "*anything/at/all".toList "*".toList = true then (some 7, true)
        else (none, false)) :=
  ⟨⟨rfl, rfl⟩, by decide, by decide, by decide, by decide, by decide, by decide,
    Resolve_wildcard_guard asciiTables ⟨rfl, rfl⟩ "files".toList "*".toList "GET" 7
      (by decide) (by decide) (by decide) (by decide) (by decide) (by decide)
      "*anything/at/all".toList⟩

/-- C6 (as stated, refuted): registering `/files/*rest` on the empty root returns
`ErrInvalidWildCard`. -/
theorem C6_counterexample :
    (Add asciiTables (emptyRoot : treeNode String Nat)
      ⟨"GET", "/files/*rest".toList, some 7⟩).2 = Outcome.err RouteError.ErrInvalidWildCard := by
  decide

/-- C6 (amended): for a non-empty valid static fragment `s` and a valid wildcard fragment
`w`, `Add(m, "/" ++ s ++ "/" ++ w, H)` on the empty root returns no error and creates a
wildcard child with fragment `*` below `s` when `w` is the bare `*`; when `w` is `*`
followed by one or more characters it returns `ErrInvalidWildCard` and leaves the
root empty. -/
theorem C6_bare_wildcard_only (U : RuneTables) (hU : U.slashIsPunct) (s w : List Char)
    (m : M) (h : H) (hs : s ≠ []) (hsv : validCharacter U s = true)
    (hs1 : HasPrefix s ['*'] = false) (hs2 : HasPrefix s [':'] = false)
    (hwv : validCharacter U w = true) (hw : HasPrefix w ['*'] = true) :
    (w = ['*'] →
      Add U (emptyRoot : treeNode M H) ⟨m, '/' :: (s ++ '/' :: w), some h⟩ =
        (.mk [] [.mk s [] none (some (.mk ['*'] [] none none (some [(m, some h)])))
          (some [])] none none none, .ok)) ∧
    (w ≠ ['*'] →
      Add U (emptyRoot : treeNode M H) ⟨m, '/' :: (s ++ '/' :: w), some h⟩ =
        (emptyRoot, .err .ErrInvalidWildCard)) := by
  rw [Add_static_wildcard U hU s w m h hs hsv hs1 hs2 hwv hw]
  constructor
  · intro e
    simp only [e, if_true]
  · intro e
    simp only [e, if_false]

/-- C6 (witness): `/files/*rest` on the empty root. -/
theorem C6_bare_wildcard_only_witness :
    asciiTables.slashIsPunct ∧ "files".toList ≠ [] ∧
    validCharacter asciiTables "files".toList = true ∧
    HasPrefix "files".toList ['*'] = false ∧ HasPrefix "files".toList [':'] = false ∧
    validCharacter asciiTables "*rest".toList = true ∧
    HasPrefix "*rest".toList ['*'] = true ∧ "*rest".toList ≠ ['*'] ∧
    Add asciiTables (emptyRoot : treeNode String Nat)
      ⟨"GET", '/' :: ("files".toList ++ '/' :: "*rest".toList), some 7⟩ =
      (emptyRoot, Outcome.err RouteError.ErrInvalidWildCard) :=
  ⟨⟨rfl, rfl⟩, by decide, by decide, by decide, by decide, by decide, by decide, by decide,
    (C6_bare_wildcard_only asciiTables ⟨rfl, rfl⟩ "files".toList "*rest".toList "GET" 7
      (by decide) (by decide) (by decide) (by decide) (by decide) (by decide)).2
      (by decide)⟩

/-- C7: on every trie, for every path `P ++ "/" ++ w ++ "/" ++ more`, where `P` is a
possibly empty concatenation of slash-prefixed non-empty valid static or variable
fragments, `w` a valid wildcard fragment and `more` any string, `Add` returns
`ErrInvalidWildCard`. -/
theorem C7_wildcard_not_last (U : RuneTables) (hU : U.slashIsPunct)
    (segs : List (List Char)) (w more : List Char) (m : M) (h : Option H)
    (hsegs : ∀ f ∈ segs, f ≠ [] ∧ validCharacter U f = true ∧ HasPrefix f ['*'] = false)
    (hwv : validCharacter U w = true) (hw : HasPrefix w ['*'] = true)
    (t : treeNode M H) :
    (Add U t ⟨m, slashed segs ++ '/' :: (w ++ '/' :: more), h⟩).2 =
      .err .ErrInvalidWildCard := by
  induction segs generalizing t with
  | nil =>
    have hslash := validCharacter_no_slash U hU w hwv
    have hne := HasPrefix_ne_nil w '*' hw
    have hlen : (w ++ '/' :: more).length > 1 := by
      cases w with
      | nil => exact absurd rfl hne
      | cons a as => simp
    cases t with
    | mk f0 s v wc hs =>
      simp only [slashed, List.nil_append]
      rw [Add_eq, AddStep_slash, firstFragment_append w ('/' :: more) hslash (Or.inr rfl)]
      simp only [IndexSlash_append_ne_zero w _ hne hslash, hwv, hw, if_false, if_true,
        Bool.not_true, Bool.false_eq_true, addWildcardChild, hlen]
  | cons f fs ih =>
    have hf := hsegs f (List.mem_cons_self _ _)
    have hfs : ∀ g ∈ fs, g ≠ [] ∧ validCharacter U g = true ∧ HasPrefix g ['*'] = false :=
      fun g hg => hsegs g (List.mem_cons_of_mem _ hg)
    simp only [slashed, List.cons_append, List.append_assoc]
    exact Add_descend_err U hU t m h f _ _ hf.1 hf.2.1 hf.2.2
      (Or.inr (slashed_append_head fs _)) (fun c => ih hfs c)

/-- C7 (witness): `/files/*rest/more` on the empty root. -/
theorem C7_wildcard_not_last_witness :
    asciiTables.slashIsPunct ∧
    (∀ f ∈ ["files".toList], f ≠ [] ∧ validCharacter asciiTables f = true ∧
      HasPrefix f ['*'] = false) ∧
    validCharacter asciiTables "*rest".toList = true ∧
    HasPrefix "*rest".toList ['*'] = true ∧
    (Add asciiTables (emptyRoot : treeNode String Nat)
      ⟨"GET", slashed ["files".toList] ++ '/' :: ("*rest".toList ++ '/' :: "more".toList),
        some 7⟩).2 = Outcome.err RouteError.ErrInvalidWildCard :=
  ⟨⟨rfl, rfl⟩, by decide, by decide, by decide,
    C7_wildcard_not_last asciiTables ⟨rfl, rfl⟩ ["files".toList] "*rest".toList
      "more".toList "GET" (some 7) (by decide) (by decide) (by decide) emptyRoot⟩


/-- C8: on every trie, in particular every trie built by `Add` calls, if `Add(m, p, H1)`
with a non-nil `H1` returns no error, then a following `Add(m, p, H2)` with a non-nil
`H2` returns `ErrMethodAlreadyExists` and leaves the trie exactly as it was after the
first call, so every `Resolve` result is the same before and after the second call. -/
theorem C8_duplicate_registration (U : RuneTables) (t : treeNode M H) (m : M)
    (p : List Char) (h1 h2 : H) (hok : (Add U t ⟨m, p, some h1⟩).2 = .ok) :
    Add U (Add U t ⟨m, p, some h1⟩).1 ⟨m, p, some h2⟩ =
      ((Add U t ⟨m, p, some h1⟩).1, .err .ErrMethodAlreadyExists) ∧
    ∀ (m2 : M) (q : List Char),
      Resolve m2 (Add U (Add U t ⟨m, p, some h1⟩).1 ⟨m, p, some h2⟩).1 q =
        Resolve m2 (Add U t ⟨m, p, some h1⟩).1 q := by
  have key : Add U (Add U t ⟨m, p, some h1⟩).1 ⟨m, p, some h2⟩ =
      ((Add U t ⟨m, p, some h1⟩).1, .err .ErrMethodAlreadyExists) :=
    AddFuel_twice U (p.length + 1) t m p h1 h2 hok
  refine ⟨key, ?_⟩
  intro m2 q
  rw [key]

/-- C8 (witness): `POST /a/:id` registered twice on a trie that holds `GET /a/b`. -/
theorem C8_duplicate_registration_witness :
    (Add asciiTables
      (Add asciiTables (emptyRoot : treeNode String Nat) ⟨"GET", "/a/b".toList, some 1⟩).1
      ⟨"POST", "/a/:id".toList, some 2⟩).2 = Outcome.ok ∧
    Add asciiTables
      (Add asciiTables
        (Add asciiTables (emptyRoot : treeNode String Nat) ⟨"GET", "/a/b".toList, some 1⟩).1
        ⟨"POST", "/a/:id".toList, some 2⟩).1
      ⟨"POST", "/a/:id".toList, some 3⟩ =
      ((Add asciiTables
        (Add asciiTables (emptyRoot : treeNode String Nat) ⟨"GET", "/a/b".toList, some 1⟩).1
        ⟨"POST", "/a/:id".toList, some 2⟩).1,
        Outcome.err RouteError.ErrMethodAlreadyExists) :=
  ⟨by decide,
    (C8_duplicate_registration asciiTables
      (Add asciiTables (emptyRoot : treeNode String Nat) ⟨"GET", "/a/b".toList, some 1⟩).1
      "POST" "/a/:id".toList 2 3 (by decide)).1⟩

/-- C9: on every trie, in particular every trie built by `Add` calls, if `Add(r)` returns
an error, then for every method `m` and request path `q`, `Resolve(m, q)` on the trie
after the failed call equals `Resolve(m, q)` on the trie before it. -/
theorem C9_failed_add_registers_nothing (U : RuneTables) (t : treeNode M H)
    (route : Route M H) (e : RouteError) (herr : (Add U t route).2 = .err e)
    (m : M) (q : List Char) :
    Resolve m (Add U t route).1 q = Resolve m t q :=
  AddFuel_err_resolve U _ t route e herr m q

/-- C9 (witness): `Add(GET, "/:v/b#")` fails after it has created the variable child
`:v`; `Resolve(GET, "/:v")` is unchanged. -/
theorem C9_failed_add_registers_nothing_witness :
    (Add asciiTables
      (Add asciiTables (emptyRoot : treeNode String Nat) ⟨"GET", "/a".toList, some 1⟩).1
      ⟨"GET", "/:v/b#".toList, some 2⟩).2 = Outcome.err RouteError.ErrInvalidCharacter ∧
    Resolve "GET"
      (Add asciiTables
        (Add asciiTables (emptyRoot : treeNode String Nat) ⟨"GET", "/a".toList, some 1⟩).1
        ⟨"GET", "/:v/b#".toList, some 2⟩).1 "/:v".toList =
    Resolve "GET"
      (Add asciiTables (emptyRoot : treeNode String Nat) ⟨"GET", "/a".toList, some 1⟩).1
      "/:v".toList :=
  ⟨by decide,
    C9_failed_add_registers_nothing asciiTables
      (Add asciiTables (emptyRoot : treeNode String Nat) ⟨"GET", "/a".toList, some 1⟩).1
      ⟨"GET", "/:v/b#".toList, some 2⟩ RouteError.ErrInvalidCharacter (by decide)
      "GET" "/:v".toList⟩

/-- C10 (as stated, refuted): after the failed `Add(GET, "/a/b#", 7)` on the empty root,
the root has no static child at all. -/
theorem C10_counterexample :
    (Add asciiTables (emptyRoot : treeNode String Nat)
      ⟨"GET", "/a/b#".toList, some 7⟩).2 = Outcome.err RouteError.ErrInvalidCharacter ∧
    (Add asciiTables (emptyRoot : treeNode String Nat)
      ⟨"GET", "/a/b#".toList, some 7⟩).1.staticChildren.map treeNode.pathFragment = [] := by
  decide

/-- C10 (amended): a child created for a variable segment stays after a failure further
down, a static child created by the failing call does not. For non-empty valid
fragments `a` (static), `v` (variable), `b`, and a character `c` that is neither a
letter, a digit, one of `. - _` nor a slash: the failed `Add(m, "/" ++ a ++ "/" ++ b ++ c, H)`
on the empty root leaves the root empty, and the failed
`Add(m, "/" ++ v ++ "/" ++ b ++ c, H)` on the empty root leaves a root whose variable
child is a node with fragment `v` and no handler. -/
theorem C10_rollback_static_only (U : RuneTables) (hU : U.slashIsPunct)
    (a v b : List Char) (c : Char) (m : M) (h : Option H)
    (ha : a ≠ []) (hav : validCharacter U a = true)
    (ha1 : HasPrefix a ['*'] = false) (ha2 : HasPrefix a [':'] = false)
    (hvv : validCharacter U v = true) (hv1 : HasPrefix v [':'] = true)
    (hb : b ≠ []) (hbv : validCharacter U b = true)
    (hc1 : U.IsLetter c = false) (hc2 : U.IsDigit c = false)
    (hc3 : isSpecialCharacter c = false) (hc4 : c ≠ '/') :
    Add U (emptyRoot : treeNode M H) ⟨m, '/' :: (a ++ '/' :: (b ++ [c])), h⟩ =
      (emptyRoot, .err .ErrInvalidCharacter) ∧
    Add U (emptyRoot : treeNode M H) ⟨m, '/' :: (v ++ '/' :: (b ++ [c])), h⟩ =
      (.mk [] [] (some (newChild v)) none none, .err .ErrInvalidCharacter) := by
  have hslb := validCharacter_no_slash U hU b hbv
  have hslbc : '/' ∉ b ++ [c] := by
    simp only [List.mem_append, List.mem_singleton, not_or]
    exact ⟨hslb, fun e => hc4 e.symm⟩
  have hfrag : firstFragment (b ++ [c]) = b ++ [c] := by
    have := firstFragment_append (b ++ [c]) [] hslbc (Or.inl rfl)
    rwa [List.append_nil] at this
  have hinv : validCharacter U (firstFragment (b ++ [c])) = false := by
    rw [hfrag]
    exact validFrom_append_invalid U c hc1 hc2 hc3 b 0 (Or.inl hb)
  have hidx := IndexSlash_append_ne_zero b [c] hb hslb
  have hin : ∀ t : treeNode M H,
      Add U t ⟨m, '/' :: (b ++ [c]), h⟩ = (t, .err .ErrInvalidCharacter) :=
    fun t => Add_invalid U t m h _ hidx hinv
  constructor
  · unfold emptyRoot
    rw [Add_static_new U hU [] [] none none none m h a ('/' :: (b ++ [c])) ha hav ha1 ha2
      (Or.inr rfl) (by simp), hin]
    simp
  · unfold emptyRoot
    rw [Add_variable_new U hU [] [] none none m h v ('/' :: (b ++ [c])) hvv hv1
      (Or.inr rfl), hin]

/-- C10 (witness): `/a/b#` and `/:v/b#` on the empty root. -/
theorem C10_rollback_static_only_witness :
    asciiTables.slashIsPunct ∧ "a".toList ≠ [] ∧
    validCharacter asciiTables "a".toList = true ∧
    HasPrefix "a".toList ['*'] = false ∧ HasPrefix "a".toList [':'] = false ∧
    validCharacter asciiTables ":v".toList = true ∧ HasPrefix ":v".toList [':'] = true ∧
    "b".toList ≠ [] ∧ validCharacter asciiTables "b".toList = true ∧
    asciiTables.IsLetter '#' = false ∧ asciiTables.IsDigit '#' = false ∧
    isSpecialCharacter '#' = false ∧ '#' ≠ '/' ∧
    Add asciiTables (emptyRoot : treeNode String Nat)
      ⟨"GET", '/' :: ("a".toList ++ '/' :: ("b".toList ++ ['#'])), some 7⟩ =
      (emptyRoot, Outcome.err RouteError.ErrInvalidCharacter) ∧
    Add asciiTables (emptyRoot : treeNode String Nat)
      ⟨"GET", '/' :: (":v".toList ++ '/' :: ("b".toList ++ ['#'])), some 7⟩ =
      (treeNode.mk [] [] (some (newChild ":v".toList)) none none,
        Outcome.err RouteError.ErrInvalidCharacter) :=
  ⟨⟨rfl, rfl⟩, by decide, by decide, by decide, by decide, by decide, by decide, by decide,
    by decide, by decide, by decide, by decide, by decide,
    C10_rollback_static_only asciiTables ⟨rfl, rfl⟩ "a".toList ":v".toList "b".toList '#'
      "GET" (some 7) (by decide) (by decide) (by decide) (by decide) (by decide) (by decide)
      (by decide) (by decide) (by decide) (by decide) (by decide) (by decide)⟩

end Claims

/-! ## `validCharacter` and the character rule -/

section Validation
variable {M H : Type} [DecidableEq M]

theorem validFrom_cons (U : RuneTables) (k : Nat) (a : Char) (as : List Char) :
    validFrom U k (a :: as) = true ↔ allowedAt U k a ∧ validFrom U (k + 1) as = true := by
  unfold allowedAt
  simp only [validFrom]
  by_cases h1 : U.IsLetter a = true
  · simp [h1]
  · by_cases h2 : U.IsDigit a = true
    · simp [h2]
    · by_cases h3 : isSpecialCharacter a = true
      · have h3b : a = '.' ∨ a = '-' ∨ a = '_' := by
          simpa [isSpecialCharacter, or_assoc] using h3
        simp only [h1, h2, h3, if_true, if_false, Bool.false_eq_true, false_or]
        constructor
        · intro h
          refine ⟨?_, h⟩
          rcases h3b with e | e | e
          · exact Or.inl e
          · exact Or.inr (Or.inl e)
          · exact Or.inr (Or.inr (Or.inl e))
        · exact fun h => h.2
      · have h3b : ¬ (a = '.' ∨ a = '-' ∨ a = '_') := by
          simpa [isSpecialCharacter, or_assoc] using h3
        have h3c : a ≠ '.' ∧ a ≠ '-' ∧ a ≠ '_' := by
          refine ⟨fun e => h3b (Or.inl e), fun e => h3b (Or.inr (Or.inl e)),
            fun e => h3b (Or.inr (Or.inr e))⟩
        by_cases h4 : (k == 0 && (a == '*' || a == ':')) = true
        · have h4b : k = 0 ∧ (a = ':' ∨ a = '*') := by
            simp only [Bool.and_eq_true, beq_iff_eq, Bool.or_eq_true] at h4
            exact ⟨h4.1, h4.2.symm⟩
          simp only [h1, h2, h3, h4, if_true, if_false, Bool.false_eq_true, false_or]
          constructor
          · intro h
            exact ⟨Or.inr (Or.inr (Or.inr h4b)), h⟩
          · exact fun h => h.2
        · have h4b : ¬ (k = 0 ∧ (a = ':' ∨ a = '*')) := by
            intro hh
            apply h4
            simp only [Bool.and_eq_true, beq_iff_eq, Bool.or_eq_true]
            exact ⟨hh.1, hh.2.symm⟩
          simp only [h1, h2, h3, h4, if_false, Bool.false_eq_true, false_or, false_iff,
            not_and]
          intro hh
          rcases hh with e | e | e | e
          · exact absurd e h3c.1
          · exact absurd e h3c.2.1
          · exact absurd e h3c.2.2
          · exact absurd e h4b

/-- The loop of `validCharacter` accepts a string exactly when every character obeys the
rule of the specification at its position. -/
theorem validFrom_iff (U : RuneTables) (f : List Char) :
    ∀ k, validFrom U k f = true ↔ ∀ i r, f[i]? = some r → allowedAt U (k + i) r := by
  induction f with
  | nil =>
    intro k
    simp [validFrom]
  | cons a as ih =>
    intro k
    rw [validFrom_cons, ih]
    constructor
    · rintro ⟨h0, hrest⟩ i r hi
      cases i with
      | zero =>
        simp only [List.getElem?_cons_zero, Option.some.injEq] at hi
        rw [← hi]
        exact h0
      | succ i =>
        simp only [List.getElem?_cons_succ] at hi
        have := hrest i r hi
        rwa [Nat.add_assoc, Nat.add_comm 1 i] at this
    · intro hall
      refine ⟨hall 0 a (by simp), ?_⟩
      intro i r hi
      have := hall (i + 1) r (by simpa using hi)
      rwa [Nat.add_assoc, Nat.add_comm 1 i]

theorem validCharacter_iff (U : RuneTables) (f : List Char) :
    validCharacter U f = true ↔ ∀ i r, f[i]? = some r → allowedAt U i r := by
  unfold validCharacter
  rw [validFrom_iff]
  simp only [Nat.zero_add]

end Validation

/-! ## Invariants of the tries built by `Add` -/

section Invariants
variable {M H : Type} [DecidableEq M]

theorem Everywhere.here_of {P : treeNode M H → Prop} {t : treeNode M H}
    (h : Everywhere P t) : P t := by
  cases h with
  | mk f s v w hs here _ _ _ => exact here

theorem Everywhere_of_isChild {P : treeNode M H → Prop} {c n : treeNode M H}
    (h : Everywhere P n) (hc : IsChild c n) : Everywhere P c := by
  cases h with
  | mk f s v w hs here hstatic hvar hwild =>
    cases hc with
    | ofStatic hmem => exact hstatic c hmem
    | ofVariable hv => exact hvar c hv
    | ofWildcard hw => exact hwild c hw

/-- A property that holds everywhere in a trie holds at each of its nodes. -/
theorem Everywhere_of_isNode {P : treeNode M H → Prop} {n t : treeNode M H}
    (h : Everywhere P t) (hn : IsNode n t) : Everywhere P n := by
  induction hn with
  | root => exact h
  | child c n _ _ hc ih => exact Everywhere_of_isChild (ih h) hc

theorem Shaped_of_isChild {c n : treeNode M H} (h : Shaped n) (hc : IsChild c n) :
    Shaped c := by
  cases h with
  | mk f s v w hs _ _ _ hstaticSub hvarSub hwildSub =>
    cases hc with
    | ofStatic hmem => exact hstaticSub c hmem
    | ofVariable hv => exact hvarSub c hv
    | ofWildcard hw => exact hwildSub c hw

theorem Shaped_of_isNode {n t : treeNode M H} (h : Shaped t) (hn : IsNode n t) :
    Shaped n := by
  induction hn with
  | root => exact h
  | child c n _ _ hc ih => exact Shaped_of_isChild (ih h) hc

theorem IsLeaf_newChild (frag : List Char) : IsLeaf (newChild frag : treeNode M H) :=
  ⟨rfl, rfl, rfl⟩

theorem Everywhere_tidy_newChild (U : RuneTables) (frag : List Char) :
    Everywhere (Tidy U) (newChild frag : treeNode M H) := by
  unfold newChild
  refine Everywhere.mk _ _ _ _ _ ?_ ?_ ?_ ?_
  · simp [Tidy, treeNode.staticChildren, treeNode.variableChild, treeNode.wildcardChild]
  · simp
  · simp
  · simp

theorem Everywhere_tidy_emptyRoot (U : RuneTables) :
    Everywhere (Tidy U) (emptyRoot : treeNode M H) := by
  unfold emptyRoot
  refine Everywhere.mk _ _ _ _ _ ?_ ?_ ?_ ?_
  · simp [Tidy, treeNode.staticChildren, treeNode.variableChild, treeNode.wildcardChild]
  · simp
  · simp
  · simp

/-- The terminal case of `Add` leaves the children of the node alone. -/
theorem AddStep_nil_isLeaf (U : RuneTables)
    (add : treeNode M H → Route M H → treeNode M H × Outcome)
    (c : treeNode M H) (m : M) (h : Option H) (hc : IsLeaf c) :
    IsLeaf (AddStep U add c ⟨m, [], h⟩).1 := by
  cases c with
  | mk f s v w hs =>
    rw [AddStep_nil]
    split
    · exact hc
    · cases hs <;> exact hc

theorem AddFuel_nil_isLeaf (U : RuneTables) (n : Nat) (c : treeNode M H) (m : M)
    (h : Option H) (hc : IsLeaf c) : IsLeaf (AddFuel U n c ⟨m, [], h⟩).1 := by
  cases n with
  | zero => exact hc
  | succ n => exact AddStep_nil_isLeaf U _ c m h hc

/-- The body of `Add` keeps a trie tidy, when the calls on the children do. -/
theorem AddStep_tidy (U : RuneTables)
    (add : treeNode M H → Route M H → treeNode M H × Outcome)
    (hfrag : ∀ c r, (add c r).1.pathFragment = c.pathFragment)
    (hleaf : ∀ c m h, IsLeaf c → IsLeaf (add c ⟨m, [], h⟩).1)
    (hadd : ∀ c r, Everywhere (Tidy U) c → Everywhere (Tidy U) (add c r).1)
    (this : treeNode M H) (route : Route M H) (hthis : Everywhere (Tidy U) this) :
    Everywhere (Tidy U) (AddStep U add this route).1 := by
  cases hthis with
  | mk f s v w hs here hstatic hvar hwild =>
    have hthis : Everywhere (Tidy U) (treeNode.mk f s v w hs) :=
      Everywhere.mk f s v w hs here hstatic hvar hwild
    obtain ⟨hS, hV, hW, hN⟩ := here
    simp only [treeNode.staticChildren, treeNode.variableChild, treeNode.wildcardChild]
      at hS hV hW hN
    obtain ⟨m, p, h⟩ := route
    cases p with
    | nil =>
      rw [AddStep_nil]
      split
      · exact hthis
      · cases hs with
        | none => exact hthis
        | some l => exact Everywhere.mk _ _ _ _ _ ⟨hS, hV, hW, hN⟩ hstatic hvar hwild
    | cons a path =>
      by_cases ha : a = '/'
      · subst ha
        rw [AddStep_slash]
        split
        · exact hthis
        · split
          · exact hthis
          · rename_i hvalid
            simp only [Bool.not_eq_true, Bool.not_eq_false_eq_eq_true] at hvalid
            split
            · simp only [addWildcardChild]
              split
              · exact hthis
              · cases w with
                | none =>
                  refine Everywhere.mk _ _ _ _ _ ⟨hS, hV, ?_, hN⟩ hstatic hvar ?_
                  · intro c hc
                    simp only [treeNode.wildcardChild, Option.some.injEq] at hc
                    rw [← hc, hfrag]
                    exact ⟨hvalid, hleaf _ _ _ (IsLeaf_newChild _)⟩
                  · intro c hc
                    simp only [Option.some.injEq] at hc
                    rw [← hc]
                    exact hadd _ _ (Everywhere_tidy_newChild U _)
                | some wc =>
                  refine Everywhere.mk _ _ _ _ _ ⟨hS, hV, ?_, hN⟩ hstatic hvar ?_
                  · intro c hc
                    simp only [treeNode.wildcardChild, Option.some.injEq] at hc
                    rw [← hc, hfrag]
                    exact ⟨(hW wc rfl).1, hleaf _ _ _ (hW wc rfl).2⟩
                  · intro c hc
                    simp only [Option.some.injEq] at hc
                    rw [← hc]
                    exact hadd _ _ (hwild wc rfl)
            · split
              · simp only [addVariableChild]
                cases v with
                | none =>
                  refine Everywhere.mk _ _ _ _ _ ⟨hS, ?_, hW, hN⟩ hstatic ?_ hwild
                  · intro c hc
                    simp only [treeNode.variableChild, Option.some.injEq] at hc
                    rw [← hc, hfrag]
                    exact hvalid
                  · intro c hc
                    simp only [Option.some.injEq] at hc
                    rw [← hc]
                    exact hadd _ _ (Everywhere_tidy_newChild U _)
                | some vc =>
                  refine Everywhere.mk _ _ _ _ _ ⟨hS, ?_, hW, hN⟩ hstatic ?_ hwild
                  · intro c hc
                    simp only [treeNode.variableChild, Option.some.injEq] at hc
                    rw [← hc, hfrag]
                    exact hV vc rfl
                  · intro c hc
                    simp only [Option.some.injEq] at hc
                    rw [← hc]
                    exact hadd _ _ (hvar vc rfl)
              · simp only [addStaticChild]
                split
                · rename_i res hres
                  obtain ⟨pre, c, post, hs2, hpre, hc, hr⟩ := addStaticLoop_some _ _ _ _ _ hres
                  subst hs2
                  rw [hr]
                  refine Everywhere.mk _ _ _ _ _ ⟨?_, hV, hW, ?_⟩ ?_ hvar hwild
                  · intro x hx
                    simp only [treeNode.staticChildren, List.mem_append, List.mem_cons] at hx
                    rcases hx with hx | rfl | hx
                    · exact hS x (by simp [hx])
                    · rw [hfrag]
                      exact hS c (by simp)
                    · exact hS x (by simp [hx])
                  · simp only [treeNode.staticChildren, List.map_append, List.map_cons, hfrag]
                    simpa only [List.map_append, List.map_cons] using hN
                  · intro x hx
                    simp only [List.mem_append, List.mem_cons] at hx
                    rcases hx with hx | rfl | hx
                    · exact hstatic x (by simp [hx])
                    · exact hadd _ _ (hstatic c (by simp))
                    · exact hstatic x (by simp [hx])
                · rename_i hloop
                  have hnone := addStaticLoop_none _ _ _ _ hloop
                  split
                  · exact hthis
                  · refine Everywhere.mk _ _ _ _ _ ⟨?_, hV, hW, ?_⟩ ?_ hvar hwild
                    · intro x hx
                      simp only [treeNode.staticChildren, List.mem_append,
                        List.mem_singleton] at hx
                      rcases hx with hx | rfl
                      · exact hS x hx
                      · rw [hfrag]
                        exact hvalid
                    · simp only [treeNode.staticChildren, List.map_append, List.map_cons,
                        List.map_nil, hfrag]
                      rw [List.nodup_append]
                      refine ⟨hN, List.nodup_singleton _, ?_⟩
                      intro a ha1 ha2
                      simp only [List.mem_singleton] at ha2
                      obtain ⟨x, hx, hxa⟩ := List.mem_map.mp ha1
                      exact hnone x hx (hxa.trans ha2)
                    · intro x hx
                      simp only [List.mem_append, List.mem_singleton] at hx
                      rcases hx with hx | rfl
                      · exact hstatic x hx
                      · exact hadd _ _ (Everywhere_tidy_newChild U _)
      · rw [AddStep_not_slash U add _ m h a path ha]
        exact hthis

theorem AddFuel_tidy (U : RuneTables) (n : Nat) :
    ∀ (this : treeNode M H) (route : Route M H), Everywhere (Tidy U) this →
      Everywhere (Tidy U) (AddFuel U n this route).1 := by
  induction n with
  | zero => intro this route h; exact h
  | succ n ih =>
    intro this route h
    exact AddStep_tidy U _ (AddFuel_pathFragment U n) (AddFuel_nil_isLeaf U n) ih
      this route h

/-- Every trie built by `Add` from the empty root is tidy at each node. -/
theorem Reachable.tidy (U : RuneTables) (t : treeNode M H) (h : Reachable U t) :
    Everywhere (Tidy U) t := by
  induction h with
  | empty => exact Everywhere_tidy_emptyRoot U
  | add t route _ ih => exact AddFuel_tidy U _ t route ih

end Invariants

/-! ## `Add` only appends -/

section Append
variable {M H : Type} [DecidableEq M]

theorem extendsList_refl (s : List (treeNode M H)) (h : ∀ c ∈ s, Extends c c) :
    extendsList s s := by
  induction s with
  | nil => simp [extendsList]
  | cons a as ih =>
    simp only [extendsList]
    exact ⟨h a (List.mem_cons_self _ _), ih (fun c hc => h c (List.mem_cons_of_mem _ hc))⟩

theorem Extends_refl : ∀ t : treeNode M H, Extends t t := by
  intro t
  induction t using treeNode.induct with
  | h f s v w hs ihs ihv ihw =>
    rw [Extends]
    refine ⟨rfl, extendsList_refl s ihs, ?_, ?_, fun _ _ h => h⟩
    · cases v with
      | none => simp [treeNode.variableChild, extendsOption]
      | some vc => simpa [treeNode.variableChild, extendsOption] using ihv vc rfl
    · cases w with
      | none => simp [treeNode.wildcardChild, extendsOption]
      | some wc => simpa [treeNode.wildcardChild, extendsOption] using ihw wc rfl

theorem extendsList_replace (pre post : List (treeNode M H)) (c c2 : treeNode M H)
    (h : Extends c c2) : extendsList (pre ++ c :: post) (pre ++ c2 :: post) := by
  induction pre with
  | nil =>
    simp only [List.nil_append, extendsList]
    exact ⟨h, extendsList_refl post (fun x _ => Extends_refl x)⟩
  | cons a as ih =>
    rw [List.cons_append, List.cons_append]
    simp only [extendsList]
    exact ⟨Extends_refl a, ih⟩

theorem extendsList_append (s extra : List (treeNode M H)) : extendsList s (s ++ extra) := by
  induction s with
  | nil => simp [extendsList]
  | cons a as ih =>
    rw [List.cons_append]
    simp only [extendsList]
    exact ⟨Extends_refl a, ih⟩

theorem mapGet_mapSet_ne (l : List (M × Option H)) (m m0 : M) (h0 : Option H)
    (hne : m ≠ m0) : mapGet (some (mapSet l m0 h0)) m = mapGet (some l) m := by
  have hfind : (mapSet l m0 h0).find? (fun e => decide (e.1 = m)) =
      l.find? (fun e => decide (e.1 = m)) := by
    unfold mapSet
    rw [List.find?_cons_of_neg _ (by simpa using fun e => hne e.symm)]
    induction l with
    | nil => rfl
    | cons a as ih =>
      simp only [List.filter_cons]
      split
      · by_cases ham : a.1 = m
        · rw [List.find?_cons_of_pos _ (by simpa using ham),
            List.find?_cons_of_pos _ (by simpa using ham)]
        · rw [List.find?_cons_of_neg _ (by simpa using ham),
            List.find?_cons_of_neg _ (by simpa using ham), ih]
      · rename_i ha
        have ha2 : a.1 = m0 := by simpa using ha
        have ham : a.1 ≠ m := fun e => hne (e.symm.trans ha2)
        rw [ih, List.find?_cons_of_neg _ (by simpa using ham)]
  simp only [mapGet, hfind]

/-- Building blocks of `Extends` at a node whose children changed. -/
theorem Extends_mk (f : List Char) (s s2 : List (treeNode M H))
    (v v2 w w2 : Option (treeNode M H)) (hs hs2 : Option (List (M × Option H)))
    (hS : extendsList s s2) (hV : extendsOption v v2) (hW : extendsOption w w2)
    (hH : ∀ m h, mapGet hs m = some h → mapGet hs2 m = some h) :
    Extends (.mk f s v w hs) (.mk f s2 v2 w2 hs2) := by
  rw [Extends]
  exact ⟨rfl, hS, hV, hW, hH⟩

theorem extendsOption_refl (v : Option (treeNode M H)) : extendsOption v v := by
  cases v with
  | none => simp [extendsOption]
  | some c => simpa [extendsOption] using Extends_refl c

theorem extendsOption_some (v : Option (treeNode M H)) (c2 : treeNode M H)
    (h : ∀ c, v = some c → Extends c c2) : extendsOption v (some c2) := by
  cases v with
  | none => simp [extendsOption]
  | some c => simpa [extendsOption] using h c rfl

/-- The body of `Add` only appends, when the calls on the children do. -/
theorem AddStep_extends (U : RuneTables)
    (add : treeNode M H → Route M H → treeNode M H × Outcome)
    (hadd : ∀ c r, Extends c (add c r).1)
    (this : treeNode M H) (route : Route M H) :
    Extends this (AddStep U add this route).1 := by
  cases this with
  | mk f s v w hs =>
    have hSr := extendsList_refl s (fun x _ => Extends_refl x)
    have hVr := extendsOption_refl v
    have hWr := extendsOption_refl w
    obtain ⟨m, p, h⟩ := route
    cases p with
    | nil =>
      rw [AddStep_nil]
      split
      · exact Extends_refl _
      · rename_i hget
        cases hs with
        | none => exact Extends_refl _
        | some l =>
          refine Extends_mk f s s v v w w _ _ hSr hVr hWr ?_
          intro m2 h2 hm2
          by_cases hm : m2 = m
          · subst hm
            rw [hm2] at hget
            simp at hget
          · rw [mapGet_mapSet_ne l m2 m h hm]
            exact hm2
    | cons a path =>
      by_cases ha : a = '/'
      · subst ha
        rw [AddStep_slash]
        split
        · exact Extends_refl _
        · split
          · exact Extends_refl _
          · split
            · simp only [addWildcardChild]
              split
              · exact Extends_refl _
              · cases w with
                | none =>
                  exact Extends_mk f s s v v _ _ hs hs hSr hVr (by simp [extendsOption])
                    (fun _ _ h => h)
                | some wc =>
                  exact Extends_mk f s s v v _ _ hs hs hSr hVr
                    (by simpa [extendsOption] using hadd wc _) (fun _ _ h => h)
            · split
              · simp only [addVariableChild]
                cases v with
                | none =>
                  exact Extends_mk f s s _ _ w w hs hs hSr (by simp [extendsOption]) hWr
                    (fun _ _ h => h)
                | some vc =>
                  exact Extends_mk f s s _ _ w w hs hs hSr
                    (by simpa [extendsOption] using hadd vc _) hWr (fun _ _ h => h)
              · simp only [addStaticChild]
                split
                · rename_i res hres
                  obtain ⟨pre, c, post, hs2, _, _, hr⟩ := addStaticLoop_some _ _ _ _ _ hres
                  subst hs2
                  rw [hr]
                  exact Extends_mk f _ _ v v w w hs hs
                    (extendsList_replace pre post c _ (hadd c _)) hVr hWr (fun _ _ h => h)
                · split
                  · exact Extends_refl _
                  · exact Extends_mk f _ _ v v w w hs hs (extendsList_append s _) hVr hWr
                      (fun _ _ h => h)
      · rw [AddStep_not_slash U add _ m h a path ha]
        exact Extends_refl _

theorem AddFuel_extends (U : RuneTables) (n : Nat) :
    ∀ (this : treeNode M H) (route : Route M H), Extends this (AddFuel U n this route).1 := by
  induction n with
  | zero => intro this route; exact Extends_refl this
  | succ n ih => intro this route; exact AddStep_extends U _ ih this route

end Append

/-! ## A registration keeps the resolutions that found a handler -/

section Monotone
variable {M H : Type} [DecidableEq M]

theorem Resolve_ne_nil (m : M) (f : List Char) (s : List (treeNode M H))
    (v w : Option (treeNode M H)) (hs : Option (List (M × Option H))) (q : List Char)
    (hq : q ≠ []) :
    Resolve m (.mk f s v w hs) q =
      match resolveStatic m s (if q.head? = some '/' then q.drop 1 else q)
        (firstFragment (if q.head? = some '/' then q.drop 1 else q)) with
      | some res => res
      | none =>
        match resolveVariable m v (if q.head? = some '/' then q.drop 1 else q) with
        | some res => res
        | none =>
          match resolveWildcard m w (if q.head? = some '/' then q.drop 1 else q) with
          | some res => res
          | none => (none, false) := by
  rw [Resolve]
  have : q.length ≠ 0 := fun e => hq (List.length_eq_zero.mp e)
  simp only [this, if_false]

theorem resolveVariable_some (m : M) (vc : treeNode M H) (ip : List Char)
    (res : Option H × Bool) (h : resolveVariable m (some vc) ip = some res) :
    HasPrefix ip vc.pathFragment = true ∧
      res = Resolve m vc (ip.drop vc.pathFragment.length) ∧ res.1.isSome = true := by
  simp only [resolveVariable] at h
  split at h
  · rename_i hpre
    split at h
    · rename_i hsome
      simp only [Option.some.injEq] at h
      exact ⟨hpre, h.symm, h ▸ hsome⟩
    · exact Option.noConfusion h
  · exact Option.noConfusion h

theorem resolveWildcard_some (m : M) (wc : treeNode M H) (ip : List Char)
    (res : Option H × Bool) (h : resolveWildcard m (some wc) ip = some res) :
    HasPrefix ip wc.pathFragment = true ∧ res = Resolve m wc [] := by
  simp only [resolveWildcard] at h
  split at h
  · rename_i hpre
    simp only [Option.some.injEq] at h
    exact ⟨hpre, h.symm⟩
  · exact Option.noConfusion h

/-- A request that starts with the text of a fragment that starts with the marker `c` has
a first segment that starts with `c`. -/
theorem marker_of_HasPrefix (ip frag : List Char) (c : Char) (hc : c ≠ '/')
    (hfrag : HasPrefix frag [c] = true) (hpre : HasPrefix ip frag = true) :
    HasPrefix (firstFragment ip) [c] = true := by
  cases hseg : HasPrefix (firstFragment ip) [c] with
  | true => rfl
  | false =>
    have := HasPrefix_marker ip frag c hc hfrag hseg
    rw [this] at hpre
    exact Bool.noConfusion hpre

theorem Resolve_mono_wildcard (m : M) (f : List Char) (s : List (treeNode M H))
    (v w w2 : Option (treeNode M H)) (hs : Option (List (M × Option H)))
    (hW : ∀ ip res, resolveWildcard m w ip = some res → res.1.isSome = true →
      resolveWildcard m w2 ip = some res)
    (q : List Char) (hsome : (Resolve m (.mk f s v w hs) q).1.isSome = true) :
    Resolve m (.mk f s v w2 hs) q = Resolve m (.mk f s v w hs) q := by
  by_cases hq : q = []
  · subst hq
    rw [Resolve_nil, Resolve_nil]
    rfl
  · rw [Resolve_ne_nil m f s v w hs q hq] at hsome ⊢
    rw [Resolve_ne_nil m f s v w2 hs q hq]
    revert hsome
    generalize (if q.head? = some '/' then List.drop 1 q else q) = ip
    cases resolveStatic m s ip (firstFragment ip) with
    | some res => intro _; rfl
    | none =>
      cases resolveVariable m v ip with
      | some res => intro _; rfl
      | none =>
        cases h3 : resolveWildcard m w ip with
        | some res =>
          intro hsome
          simp only [hW ip res h3 hsome]
        | none => intro h; simp at h

theorem Resolve_mono_variable (m : M) (f : List Char) (s : List (treeNode M H))
    (v v2 w : Option (treeNode M H)) (hs : Option (List (M × Option H)))
    (hV : ∀ ip res, resolveVariable m v ip = some res → resolveVariable m v2 ip = some res)
    (hV0 : ∀ ip res, resolveVariable m v ip = none → resolveWildcard m w ip = some res →
      resolveVariable m v2 ip = none)
    (q : List Char) (hsome : (Resolve m (.mk f s v w hs) q).1.isSome = true) :
    Resolve m (.mk f s v2 w hs) q = Resolve m (.mk f s v w hs) q := by
  by_cases hq : q = []
  · subst hq
    rw [Resolve_nil, Resolve_nil]
    rfl
  · rw [Resolve_ne_nil m f s v w hs q hq] at hsome ⊢
    rw [Resolve_ne_nil m f s v2 w hs q hq]
    revert hsome
    generalize (if q.head? = some '/' then List.drop 1 q else q) = ip
    cases resolveStatic m s ip (firstFragment ip) with
    | some res => intro _; rfl
    | none =>
      cases h2 : resolveVariable m v ip with
      | some res =>
        intro _
        simp only [hV ip res h2]
      | none =>
        cases h3 : resolveWildcard m w ip with
        | some res =>
          intro _
          simp only [hV0 ip res h2 h3]
        | none => intro h; simp at h

theorem Resolve_mono_static (m : M) (f : List Char) (s s2 : List (treeNode M H))
    (v w : Option (treeNode M H)) (hs : Option (List (M × Option H)))
    (hS : ∀ ip res, resolveStatic m s ip (firstFragment ip) = some res →
      resolveStatic m s2 ip (firstFragment ip) = some res)
    (hS0 : ∀ ip, resolveStatic m s ip (firstFragment ip) = none →
      ((∃ res, resolveVariable m v ip = some res) ∨
        (∃ res, resolveWildcard m w ip = some res)) →
      resolveStatic m s2 ip (firstFragment ip) = none)
    (q : List Char) (hsome : (Resolve m (.mk f s v w hs) q).1.isSome = true) :
    Resolve m (.mk f s2 v w hs) q = Resolve m (.mk f s v w hs) q := by
  by_cases hq : q = []
  · subst hq
    rw [Resolve_nil, Resolve_nil]
    rfl
  · rw [Resolve_ne_nil m f s v w hs q hq] at hsome ⊢
    rw [Resolve_ne_nil m f s2 v w hs q hq]
    revert hsome
    generalize (if q.head? = some '/' then List.drop 1 q else q) = ip
    cases h1 : resolveStatic m s ip (firstFragment ip) with
    | some res =>
      intro _
      simp only [hS ip res h1]
    | none =>
      cases h2 : resolveVariable m v ip with
      | some res =>
        intro _
        simp only [hS0 ip h1 (Or.inl ⟨res, h2⟩)]
      | none =>
        cases h3 : resolveWildcard m w ip with
        | some res =>
          intro _
          simp only [hS0 ip h1 (Or.inr ⟨res, h3⟩)]
        | none => intro h; simp at h

theorem Resolve_handlers_irrelevant (m : M) (f : List Char) (s : List (treeNode M H))
    (v w : Option (treeNode M H)) (hs hs2 : Option (List (M × Option H))) (q : List Char)
    (hq : q ≠ []) : Resolve m (.mk f s v w hs2) q = Resolve m (.mk f s v w hs) q := by
  rw [Resolve_ne_nil m f s v w hs q hq, Resolve_ne_nil m f s v w hs2 q hq]

theorem resolveStatic_replace_skip (m : M) (pre post : List (treeNode M H))
    (c c2 : treeNode M H) (ip pf : List Char) (hc : c.pathFragment ≠ pf)
    (hc2 : c2.pathFragment ≠ pf) :
    resolveStatic m (pre ++ c2 :: post) ip pf = resolveStatic m (pre ++ c :: post) ip pf := by
  induction pre with
  | nil =>
    simp only [List.nil_append, resolveStatic, ne_eq, Ne.symm hc, Ne.symm hc2,
      not_false_eq_true, if_true]
  | cons a as ih =>
    rw [List.cons_append, List.cons_append]
    simp only [resolveStatic, ih]

theorem resolveStatic_append_skip (m : M) (s : List (treeNode M H)) (c : treeNode M H)
    (ip pf : List Char) (hc : c.pathFragment ≠ pf) :
    resolveStatic m (s ++ [c]) ip pf = resolveStatic m s ip pf := by
  induction s with
  | nil =>
    simp only [List.nil_append, resolveStatic, ne_eq, Ne.symm hc, not_false_eq_true, if_true]
  | cons a as ih =>
    rw [List.cons_append]
    simp only [resolveStatic, ih]


/-- The body of `Add` leaves every resolution that found a handler as it was, on a trie
whose children sit in the slots of their classes, when the calls on the children do. -/
theorem AddStep_mono (U : RuneTables)
    (add : treeNode M H → Route M H → treeNode M H × Outcome)
    (hfrag : ∀ c r, (add c r).1.pathFragment = c.pathFragment)
    (hadd : ∀ c r, Shaped c → ∀ m q, (Resolve m c q).1.isSome = true →
      Resolve m (add c r).1 q = Resolve m c q)
    (this : treeNode M H) (route : Route M H) (hshape : Shaped this) (m : M)
    (q : List Char) (hsome : (Resolve m this q).1.isSome = true) :
    Resolve m (AddStep U add this route).1 q = Resolve m this q := by
  cases hshape with
  | mk f s v w hs hstatic hvar hwild hstaticSub hvarSub hwildSub =>
    obtain ⟨m0, p0, h0⟩ := route
    cases p0 with
    | nil =>
      rw [AddStep_nil]
      split
      · rfl
      · rename_i hget
        cases hs with
        | none => rfl
        | some l =>
          by_cases hq : q = []
          · subst hq
            rw [Resolve_nil] at hsome
            rw [Resolve_nil, Resolve_nil]
            simp only [treeNode.handlers] at hsome ⊢
            by_cases hm : m = m0
            · subst hm
              exact absurd hsome hget
            · rw [mapGet_mapSet_ne l m m0 h0 hm]
          · exact Resolve_handlers_irrelevant m f s v w _ _ q hq
    | cons a path =>
      by_cases ha : a = '/'
      · subst ha
        rw [AddStep_slash]
        split
        · rfl
        · split
          · rfl
          · split
            · simp only [addWildcardChild]
              split
              · rfl
              · cases w with
                | none =>
                  refine Resolve_mono_wildcard m f s v none _ hs ?_ q hsome
                  intro ip res h
                  simp [resolveWildcard] at h
                | some wc =>
                  refine Resolve_mono_wildcard m f s v (some wc) _ hs ?_ q hsome
                  intro ip res h hres
                  obtain ⟨hpre, hr⟩ := resolveWildcard_some m wc ip res h
                  subst hr
                  simp only [resolveWildcard, hfrag, hpre, if_true,
                    hadd wc _ (hwildSub wc rfl) m [] hres]
            · rename_i hnotstar
              split
              · rename_i hcolon
                simp only [addVariableChild]
                have hV0 : ∀ (c2 : treeNode M H), c2.pathFragment = firstFragment path ∨
                    (∃ vc, v = some vc ∧ c2.pathFragment = vc.pathFragment) →
                    ∀ ip res, resolveWildcard m w ip = some res →
                      resolveVariable m (some c2) ip = none := by
                  intro c2 hc2 ip res hw
                  have hc2colon : HasPrefix c2.pathFragment [':'] = true := by
                    rcases hc2 with e | ⟨vc, hv, e⟩
                    · rw [e]; exact hcolon
                    · rw [e]; exact hvar vc hv
                  cases w with
                  | none => simp [resolveWildcard] at hw
                  | some wc =>
                    obtain ⟨hpre, _⟩ := resolveWildcard_some m wc ip res hw
                    have hstar : HasPrefix (firstFragment ip) ['*'] = true :=
                      marker_of_HasPrefix ip wc.pathFragment '*' (by decide)
                        (by rw [hwild wc rfl]; rfl) hpre
                    have := HasPrefix_marker ip c2.pathFragment ':' (by decide) hc2colon
                      (star_not_colon _ hstar)
                    simp [resolveVariable, this]
                cases v with
                | none =>
                  refine Resolve_mono_variable m f s none _ w hs ?_ ?_ q hsome
                  · intro ip res h
                    simp [resolveVariable] at h
                  · intro ip res _ hw
                    exact hV0 _ (Or.inl (by rw [hfrag]; rfl)) ip res hw
                | some vc =>
                  refine Resolve_mono_variable m f s (some vc) _ w hs ?_ ?_ q hsome
                  · intro ip res h
                    obtain ⟨hpre, hr, hres⟩ := resolveVariable_some m vc ip res h
                    subst hr
                    simp only [resolveVariable, hfrag, hpre, if_true,
                      hadd vc _ (hvarSub vc rfl) m _ hres, hres]
                  · intro ip res _ hw
                    exact hV0 _ (Or.inr ⟨vc, rfl, hfrag _ _⟩) ip res hw
              · rename_i hnotcolon
                simp only [Bool.not_eq_true] at hnotstar hnotcolon
                simp only [addStaticChild]
                have hexcl : ∀ ip, ((∃ res, resolveVariable m v ip = some res) ∨
                    (∃ res, resolveWildcard m w ip = some res)) →
                    firstFragment ip ≠ firstFragment path := by
                  intro ip h e
                  rcases h with ⟨res, h⟩ | ⟨res, h⟩
                  · cases v with
                    | none => simp [resolveVariable] at h
                    | some vc =>
                      obtain ⟨hpre, _, _⟩ := resolveVariable_some m vc ip res h
                      have := marker_of_HasPrefix ip vc.pathFragment ':' (by decide)
                        (hvar vc rfl) hpre
                      rw [e, hnotcolon] at this
                      exact Bool.noConfusion this
                  · cases w with
                    | none => simp [resolveWildcard] at h
                    | some wc =>
                      obtain ⟨hpre, _⟩ := resolveWildcard_some m wc ip res h
                      have := marker_of_HasPrefix ip wc.pathFragment '*' (by decide)
                        (by rw [hwild wc rfl]; rfl) hpre
                      rw [e, hnotstar] at this
                      exact Bool.noConfusion this
                split
                · rename_i res hres
                  obtain ⟨pre, c, post, hs2, hpre, hc, hr⟩ := addStaticLoop_some _ _ _ _ _ hres
                  subst hs2
                  rw [hr]
                  have hc2 := (hfrag c ⟨m0, List.drop (firstFragment path).length path, h0⟩).trans hc
                  refine Resolve_mono_static m f (pre ++ c :: post) _ v w hs ?_ ?_ q hsome
                  · intro ip res h
                    by_cases hseg : firstFragment ip = firstFragment path
                    · rw [hseg] at h ⊢
                      rw [resolveStatic_of_split m pre post c ip _ hpre hc] at h
                      rw [resolveStatic_of_split m pre post _ ip _ hpre hc2]
                      split at h
                      · rename_i hres2
                        rw [hadd c _ (hstaticSub c (by simp)) m _ hres2]
                        simp only [hres2, if_true]
                        exact h
                      · exact Option.noConfusion h
                    · rw [resolveStatic_replace_skip m pre post c _ ip _
                        (fun e => hseg (e.symm.trans hc))
                        (fun e => hseg (e.symm.trans hc2))]
                      exact h
                  · intro ip h hvw
                    have hseg := hexcl ip hvw
                    rw [resolveStatic_replace_skip m pre post c _ ip _
                      (fun e => hseg (e.symm.trans hc)) (fun e => hseg (e.symm.trans hc2))]
                    exact h
                · rename_i hloop
                  have hnone := addStaticLoop_none _ _ _ _ hloop
                  split
                  · rfl
                  · have hc2 : (add (newChild (firstFragment path))
                        ⟨m0, List.drop (firstFragment path).length path, h0⟩).1.pathFragment =
                        firstFragment path := (hfrag _ _).trans rfl
                    refine Resolve_mono_static m f s _ v w hs ?_ ?_ q hsome
                    · intro ip res h
                      by_cases hseg : firstFragment ip = firstFragment path
                      · rw [hseg, resolveStatic_of_none m s ip _ hnone] at h
                        exact Option.noConfusion h
                      · rw [resolveStatic_append_skip m s _ ip _
                          (fun e => hseg (e.symm.trans hc2))]
                        exact h
                    · intro ip h hvw
                      have hseg := hexcl ip hvw
                      rw [resolveStatic_append_skip m s _ ip _
                        (fun e => hseg (e.symm.trans hc2))]
                      exact h
      · rw [AddStep_not_slash U add _ m0 h0 a path ha]

theorem AddFuel_mono (U : RuneTables) (n : Nat) :
    ∀ (this : treeNode M H) (route : Route M H), Shaped this →
      ∀ m q, (Resolve m this q).1.isSome = true →
      Resolve m (AddFuel U n this route).1 q = Resolve m this q := by
  induction n with
  | zero => intro this route _ m q _; rfl
  | succ n ih =>
    intro this route hshape m q hsome
    exact AddStep_mono U _ (AddFuel_pathFragment U n) ih this route hshape m q hsome

end Monotone

/-! ## Static routes resolve exactly -/

section Exact
variable {M H : Type} [DecidableEq M]

theorem staticPath_slash (q : List Char) (h : staticPath ('/' :: q) = true) :
    HasPrefix q [':'] = false ∧ HasPrefix q ['*'] = false ∧ staticPath q = true := by
  simp only [staticPath, beq_self_eq_true, Bool.true_and, Bool.and_eq_true,
    Bool.not_eq_true', Bool.or_eq_false_iff] at h
  exact ⟨h.1.1, h.1.2, h.2⟩

theorem staticPath_tail (a : Char) (q : List Char) (h : staticPath (a :: q) = true) :
    staticPath q = true := by
  simp only [staticPath, Bool.and_eq_true] at h
  exact h.2

theorem staticPath_drop (n : Nat) : ∀ q : List Char, staticPath q = true →
    staticPath (q.drop n) = true := by
  induction n with
  | zero => intro q h; exact h
  | succ n ih =>
    intro q h
    cases q with
    | nil => exact h
    | cons a as => exact ih as (staticPath_tail a as h)

theorem HasPrefix_firstFragment (q : List Char) (c : Char) (hc : c ≠ '/') :
    HasPrefix (firstFragment q) [c] = HasPrefix q [c] := by
  have h := firstFragment_head q c hc
  rw [← HasPrefix_singleton, ← HasPrefix_singleton] at h
  cases h1 : HasPrefix (firstFragment q) [c] <;> cases h2 : HasPrefix q [c] <;>
    simp_all

theorem firstFragment_append_drop (q : List Char) :
    firstFragment q ++ q.drop (firstFragment q).length = q := by
  have h := List.prefix_iff_eq_take.mp (firstFragment_isPrefix q)
  have key := List.take_append_drop (firstFragment q).length q
  rw [← h] at key
  exact key

theorem firstFragment_drop_head (q : List Char) :
    q.drop (firstFragment q).length = [] ∨
      (q.drop (firstFragment q).length).head? = some '/' := by
  rw [firstFragment_eq_takeWhile]
  induction q with
  | nil => left; rfl
  | cons a as ih =>
    by_cases ha : a = '/'
    · right
      subst ha
      simp
    · simpa [List.takeWhile_cons, ha] using ih

theorem path_eq_iff (q q0 : List Char) (h : firstFragment q = firstFragment q0) :
    q.drop (firstFragment q0).length = q0.drop (firstFragment q0).length ↔ q = q0 := by
  constructor
  · intro e
    have h1 := firstFragment_append_drop q
    have h2 := firstFragment_append_drop q0
    rw [h, e] at h1
    exact h1.symm.trans h2
  · intro e
    rw [e]


/-- The body of `Add`, on a path without variable or wildcard segment: a successful
registration changes the answer of `Resolve` for its own method and path, and for nothing
else, when the calls on the children behave so. -/
theorem AddStep_exact (U : RuneTables)
    (add : treeNode M H → Route M H → treeNode M H × Outcome)
    (hfrag : ∀ c r, (add c r).1.pathFragment = c.pathFragment)
    (hadd : ∀ c m0 p0 h0, staticPath p0 = true → (add c ⟨m0, p0, some h0⟩).2 = .ok →
      ∀ m p, (p = [] ∨ p.head? = some '/') →
      Resolve m (add c ⟨m0, p0, some h0⟩).1 p =
        if m = m0 ∧ p = p0 then (some h0, true) else Resolve m c p)
    (this : treeNode M H) (m0 : M) (p0 : List Char) (h0 : H)
    (hstatic : staticPath p0 = true)
    (hok : (AddStep U add this ⟨m0, p0, some h0⟩).2 = .ok)
    (m : M) (p : List Char) (hp : p = [] ∨ p.head? = some '/') :
    Resolve m (AddStep U add this ⟨m0, p0, some h0⟩).1 p =
      if m = m0 ∧ p = p0 then (some h0, true) else Resolve m this p := by
  cases this with
  | mk f s v w hs =>
    revert hok
    cases p0 with
    | nil =>
      rw [AddStep_nil]
      by_cases hget : (mapGet hs m0).isSome = true
      · simp only [hget, if_true]
        intro h; exact Outcome.noConfusion h
      · cases hs with
        | none =>
          simp only [hget, if_false, Bool.false_eq_true]
          intro h; exact Outcome.noConfusion h
        | some l =>
          simp only [hget, if_false, Bool.false_eq_true]
          intro _
          cases p with
          | nil =>
            rw [Resolve_nil, Resolve_nil]
            simp only [treeNode.handlers, and_true]
            by_cases hm : m = m0
            · subst hm
              simp only [mapGet_mapSet_self, if_true]
            · simp only [hm, if_false, mapGet_mapSet_ne l m m0 (some h0) hm]
          | cons a q =>
            have hne : ¬ (m = m0 ∧ a :: q = []) := fun h => List.cons_ne_nil _ _ h.2
            simp only [hne, if_false]
            exact Resolve_handlers_irrelevant m f s v w _ _ (a :: q) (List.cons_ne_nil _ _)
    | cons a q0 =>
      by_cases ha : a = '/'
      · subst ha
        obtain ⟨hcolon0, hstar0, hstat0⟩ := staticPath_slash q0 hstatic
        have hcolon : HasPrefix (firstFragment q0) [':'] = false := by
          rw [HasPrefix_firstFragment q0 ':' (by decide)]
          exact hcolon0
        have hstar : HasPrefix (firstFragment q0) ['*'] = false := by
          rw [HasPrefix_firstFragment q0 '*' (by decide)]
          exact hstar0
        have hstatr := staticPath_drop (firstFragment q0).length q0 hstat0
        rw [AddStep_slash]
        by_cases hidx : IndexSlash q0 = 0
        · simp only [hidx, if_true]
          intro h; exact Outcome.noConfusion h
        · by_cases hvalid : (!validCharacter U (firstFragment q0)) = true
          · simp only [hidx, hvalid, if_true, if_false]
            intro h; exact Outcome.noConfusion h
          · simp only [hidx, hvalid, hstar, hcolon, if_false, Bool.false_eq_true]
            simp only [addStaticChild]
            cases p with
            | nil =>
              have hne : ¬ (m = m0 ∧ ([] : List Char) = '/' :: q0) :=
                fun h => List.cons_ne_nil _ _ h.2.symm
              simp only [hne, if_false]
              intro _
              split
              · rw [Resolve_nil, Resolve_nil]; rfl
              · split
                · rfl
                · rw [Resolve_nil, Resolve_nil]; rfl
            | cons b q =>
              have hb : b = '/' := by
                rcases hp with h | h
                · exact absurd h (List.cons_ne_nil _ _)
                · simpa using h
              subst hb
              have hr := firstFragment_drop_head q
              cases hloop : addStaticLoop add
                  ⟨m0, q0.drop (firstFragment q0).length, some h0⟩
                  (firstFragment q0) s with
              | some res =>
                obtain ⟨pre, c, post, hs2, hpre2, hc, hres⟩ :=
                  addStaticLoop_some _ _ _ _ _ hloop
                subst hs2
                rw [hres]
                simp only []
                intro hok
                have hc2 := (hfrag c
                  ⟨m0, q0.drop (firstFragment q0).length, some h0⟩).trans hc
                rw [Resolve_slash, Resolve_slash]
                by_cases hseg : firstFragment q = firstFragment q0
                · rw [hseg] at hr ⊢
                  rw [resolveStatic_of_split m pre post _ q _ hpre2 hc2,
                    resolveStatic_of_split m pre post c q _ hpre2 hc,
                    hadd c m0 _ h0 hstatr hok m _ hr]
                  by_cases hcond : m = m0 ∧ q.drop (firstFragment q0).length =
                      q0.drop (firstFragment q0).length
                  · have hq : q = q0 := (path_eq_iff q q0 hseg).mp hcond.2
                    simp only [hcond, hq, and_self, if_true, Option.isSome_some]
                  · have hq : ¬ (m = m0 ∧ '/' :: q = '/' :: q0) := by
                      intro h
                      apply hcond
                      refine ⟨h.1, ?_⟩
                      rw [List.cons.inj h.2 |>.2]
                    simp only [hcond, hq, if_false]
                · have hq : ¬ (m = m0 ∧ '/' :: q = '/' :: q0) := by
                    intro h
                    apply hseg
                    rw [List.cons.inj h.2 |>.2]
                  simp only [hq, if_false]
                  rw [resolveStatic_replace_skip m pre post c _ q _
                    (fun e => hseg (e.symm.trans hc)) (fun e => hseg (e.symm.trans hc2))]
              | none =>
                have hnone := addStaticLoop_none _ _ _ _ hloop
                simp only []
                by_cases hres : (add (newChild (firstFragment q0))
                    ⟨m0, q0.drop (firstFragment q0).length, some h0⟩).2 = .ok
                · simp only [hres, ne_eq, not_true_eq_false, if_false]
                  intro _
                  have hc2 : (add (newChild (firstFragment q0))
                      ⟨m0, q0.drop (firstFragment q0).length, some h0⟩).1.pathFragment =
                      firstFragment q0 := by
                    rw [hfrag]
                    rfl
                  rw [Resolve_slash, Resolve_slash]
                  by_cases hseg : firstFragment q = firstFragment q0
                  · rw [hseg] at hr ⊢
                    rw [resolveStatic_of_split m s [] _ q _ hnone hc2,
                      resolveStatic_of_none m s q _ hnone,
                      hadd _ m0 _ h0 hstatr hres m _ hr]
                    by_cases hcond : m = m0 ∧ q.drop (firstFragment q0).length =
                        q0.drop (firstFragment q0).length
                    · have hq : q = q0 := (path_eq_iff q q0 hseg).mp hcond.2
                      simp only [hcond, hq, and_self, if_true, Option.isSome_some]
                    · have hq : ¬ (m = m0 ∧ '/' :: q = '/' :: q0) := by
                        intro h
                        apply hcond
                        refine ⟨h.1, ?_⟩
                        rw [List.cons.inj h.2 |>.2]
                      simp only [hcond, hq, if_false, Resolve_newChild,
                        Option.isSome_none, Bool.false_eq_true]
                  · have hq : ¬ (m = m0 ∧ '/' :: q = '/' :: q0) := by
                      intro h
                      apply hseg
                      rw [List.cons.inj h.2 |>.2]
                    simp only [hq, if_false]
                    rw [resolveStatic_append_skip m s _ q _
                      (fun e => hseg (e.symm.trans hc2))]
                · simp only [hres, ne_eq, not_false_eq_true, if_true]
                  intro hok
                  exact False.elim hok
      · rw [AddStep_not_slash U add _ m0 _ a q0 ha]
        intro h; exact Outcome.noConfusion h

theorem AddFuel_exact (U : RuneTables) (n : Nat) :
    ∀ (c : treeNode M H) (m0 : M) (p0 : List Char) (h0 : H), staticPath p0 = true →
      (AddFuel U n c ⟨m0, p0, some h0⟩).2 = .ok →
      ∀ m p, (p = [] ∨ p.head? = some '/') →
      Resolve m (AddFuel U n c ⟨m0, p0, some h0⟩).1 p =
        if m = m0 ∧ p = p0 then (some h0, true) else Resolve m c p := by
  induction n with
  | zero => intro c m0 p0 h0 _ h; exact Outcome.noConfusion h
  | succ n ih =>
    intro c m0 p0 h0 hstat hok m p hp
    exact AddStep_exact U _ (AddFuel_pathFragment U n) ih c m0 p0 h0 hstat hok m p hp


/-- The body of `Add`, when it does not return `nil`, leaves every resolution as it was,
provided the calls on the children, which are made on shorter paths, do. -/
theorem AddStep_failed_resolve (U : RuneTables)
    (add : treeNode M H → Route M H → treeNode M H × Outcome)
    (hfrag : ∀ c r, (add c r).1.pathFragment = c.pathFragment)
    (hnew : ∀ frag m h, (add (newChild frag) ⟨m, [], h⟩).2 = .ok)
    (this : treeNode M H) (route : Route M H)
    (hadd : ∀ c r, r.Path.length < route.Path.length → (add c r).2 ≠ .ok →
      ∀ m q, Resolve m (add c r).1 q = Resolve m c q)
    (hfail : (AddStep U add this route).2 ≠ .ok) (m : M) (q : List Char) :
    Resolve m (AddStep U add this route).1 q = Resolve m this q := by
  cases this with
  | mk f s v w hs =>
    obtain ⟨m0, p0, h0⟩ := route
    revert hfail
    cases p0 with
    | nil =>
      rw [AddStep_nil]
      split
      · intro _; rfl
      · cases hs with
        | none => intro _; rfl
        | some l => intro h; exact absurd rfl h
    | cons a path =>
      by_cases ha : a = '/'
      · subst ha
        have hlen0 : ([] : List Char).length < ('/' :: path).length := by simp
        have hlen : ∀ n, (path.drop n).length < ('/' :: path).length := by
          intro n
          simp only [List.length_drop, List.length_cons]
          omega
        rw [AddStep_slash]
        split
        · intro _; rfl
        · split
          · intro _; rfl
          · split
            · simp only [addWildcardChild]
              split
              · intro _; rfl
              · cases w with
                | none =>
                  intro h
                  exact absurd (hnew _ _ _) h
                | some wc =>
                  intro h
                  exact Resolve_congr m f f s s v v _ _ hs (fun _ _ => rfl) (fun _ => rfl)
                    (resolveWildcard_replace m wc _ (hfrag _ _)
                      (hadd wc ⟨m0, [], h0⟩ hlen0 h m)) q
            · split
              · simp only [addVariableChild]
                cases v with
                | none =>
                  intro h
                  exact Resolve_congr m f f s s _ _ w w hs (fun _ _ => rfl)
                    (resolveVariable_none_of_newChild m _ _
                      (hadd _ ⟨m0, path.drop (firstFragment path).length, h0⟩ (hlen _) h m))
                    (fun _ => rfl) q
                | some vc =>
                  intro h
                  exact Resolve_congr m f f s s _ _ w w hs (fun _ _ => rfl)
                    (resolveVariable_replace m vc _ (hfrag _ _)
                      (hadd vc ⟨m0, path.drop (firstFragment path).length, h0⟩ (hlen _) h m))
                    (fun _ => rfl) q
              · simp only [addStaticChild]
                split
                · rename_i res hres
                  obtain ⟨pre, c, post, hs2, hpre, hc, hr⟩ := addStaticLoop_some _ _ _ _ _ hres
                  subst hs2
                  rw [hr]
                  intro h
                  exact Resolve_congr m f f _ _ v v w w hs
                    (resolveStatic_replace m pre post c _ (hfrag _ _)
                      (hadd c ⟨m0, path.drop (firstFragment path).length, h0⟩ (hlen _) h m))
                    (fun _ => rfl) (fun _ => rfl) q
                · split
                  · intro _; rfl
                  · intro h; exact absurd rfl h
      · rw [AddStep_not_slash U add _ m0 h0 a path ha]
        intro _; rfl

/-- A call of `Add` that does not return `nil`, be it an error or a panic, leaves every
resolution as it was. -/
theorem Add_failed_resolve (U : RuneTables) (n : Nat) :
    ∀ (t : treeNode M H) (route : Route M H), route.Path.length ≤ n →
      (Add U t route).2 ≠ .ok → ∀ m q, Resolve m (Add U t route).1 q = Resolve m t q := by
  induction n using Nat.strong_induction_on with
  | _ n ih =>
    intro t route hlen hfail m q
    rw [Add_eq] at hfail ⊢
    refine AddStep_failed_resolve U (Add U) (Add_pathFragment U) ?_ t route ?_ hfail m q
    · intro frag m2 h2
      rw [Add_newChild_nil]
    · intro c r hr hf m2 q2
      exact ih r.Path.length (by omega) c r (Nat.le_refl _) hf m2 q2

theorem Resolve_emptyRoot (m : M) (p : List Char) (hp : p ≠ []) :
    Resolve m (emptyRoot : treeNode M H) p = (none, false) :=
  Resolve_leaf m [] none p hp

theorem AddAll_shaped (U : RuneTables) (rs : List (Route M H)) :
    ∀ t : treeNode M H, Shaped t → Shaped (AddAll U t rs) := by
  induction rs with
  | nil => intro t h; exact h
  | cons r rs ih => intro t h; exact ih _ (Add_shaped U t r h)

theorem AddAll_reachable (U : RuneTables) (rs : List (Route M H)) :
    ∀ t : treeNode M H, Reachable U t → Reachable U (AddAll U t rs) := by
  induction rs with
  | nil => intro t h; exact h
  | cons r rs ih => intro t h; exact ih _ (Reachable.add t r h)

/-- What one call of `Add` with a static path and a non-nil handler does to the answers
of `Resolve`, on a trie whose children sit in the slots of their classes. -/
theorem Add_static_effect (U : RuneTables) (t : treeNode M H) (ht : Shaped t)
    (m0 : M) (p0 : List Char) (h0 : H) (hstat : staticPath p0 = true)
    (m : M) (p : List Char) (hp : p.head? = some '/') :
    (∀ h, Resolve m (Add U t ⟨m0, p0, some h0⟩).1 p = (some h, true) ↔
      (Resolve m t p = (some h, true) ∨
        (m0 = m ∧ p0 = p ∧ some h0 = some h ∧ (Add U t ⟨m0, p0, some h0⟩).2 = .ok))) ∧
    (Resolve m t p = (none, false) →
      ¬ (m0 = m ∧ p0 = p ∧ (Add U t ⟨m0, p0, some h0⟩).2 = .ok) →
      Resolve m (Add U t ⟨m0, p0, some h0⟩).1 p = (none, false)) := by
  by_cases hok : (Add U t ⟨m0, p0, some h0⟩).2 = .ok
  · have hex := AddFuel_exact U _ t m0 p0 h0 hstat hok m p (Or.inr hp)
    have hex2 : Resolve m (Add U t ⟨m0, p0, some h0⟩).1 p =
        if m = m0 ∧ p = p0 then (some h0, true) else Resolve m t p := hex
    constructor
    · intro h
      constructor
      · intro hres
        by_cases hcond : m = m0 ∧ p = p0
        · rw [hex2, if_pos hcond] at hres
          right
          exact ⟨hcond.1.symm, hcond.2.symm, congrArg Prod.fst hres, hok⟩
        · rw [hex2, if_neg hcond] at hres
          exact Or.inl hres
      · intro hor
        rcases hor with hres | ⟨e1, e2, e3, _⟩
        · have hmono : Resolve m (Add U t ⟨m0, p0, some h0⟩).1 p = Resolve m t p :=
            AddFuel_mono U _ t ⟨m0, p0, some h0⟩ ht m p (by rw [hres]; rfl)
          rw [hmono, hres]
        · rw [hex2, if_pos ⟨e1.symm, e2.symm⟩, e3]
    · intro hres hno
      have hcond : ¬ (m = m0 ∧ p = p0) := fun h => hno ⟨h.1.symm, h.2.symm, hok⟩
      rw [hex2, if_neg hcond, hres]
  · have hsame := Add_failed_resolve U _ t ⟨m0, p0, some h0⟩ (Nat.le_refl _) hok m p
    constructor
    · intro h
      rw [hsame]
      constructor
      · exact fun hres => Or.inl hres
      · intro hor
        rcases hor with hres | ⟨_, _, _, h4⟩
        · exact hres
        · exact absurd h4 hok
    · intro hres _
      rw [hsame, hres]

/-- Exactness of static routing, from any trie whose children sit in the slots of their
classes. -/
theorem AddAll_exact (U : RuneTables) (rs : List (Route M H)) :
    ∀ t : treeNode M H, Shaped t →
      (∀ r ∈ rs, staticPath r.Path = true ∧ ∃ h, r.Handler = some h) →
      ∀ (m : M) (p : List Char), p.head? = some '/' →
      (∀ h, Resolve m (AddAll U t rs) p = (some h, true) ↔
        (Resolve m t p = (some h, true) ∨ Registered U t rs m p h)) ∧
      (Resolve m t p = (none, false) → (∀ h, ¬ Registered U t rs m p h) →
        Resolve m (AddAll U t rs) p = (none, false)) := by
  induction rs with
  | nil =>
    intro t _ _ m p _
    simp [AddAll, Registered]
  | cons r rs ih =>
    intro t ht hrs m p hp
    obtain ⟨m0, p0, hd0⟩ := r
    have hr := hrs ⟨m0, p0, hd0⟩ (List.mem_cons_self _ _)
    obtain ⟨hstat, h0, hh0⟩ := hr
    simp only at hstat hh0
    subst hh0
    have hrest : ∀ r ∈ rs, staticPath r.Path = true ∧ ∃ h, r.Handler = some h :=
      fun r hr => hrs r (List.mem_cons_of_mem _ hr)
    obtain ⟨ih1, ih2⟩ := ih (Add U t ⟨m0, p0, some h0⟩).1 (Add_shaped U t _ ht) hrest m p hp
    obtain ⟨e1, e2⟩ := Add_static_effect U t ht m0 p0 h0 hstat m p hp
    constructor
    · intro h
      simp only [AddAll, Registered]
      rw [ih1 h, e1 h]
      exact or_assoc
    · intro hres hno
      simp only [AddAll]
      apply ih2
      · apply e2 hres
        intro hc
        exact hno h0 (Or.inl ⟨hc.1, hc.2.1, rfl, hc.2.2⟩)
      · intro h hreg
        exact hno h (Or.inr hreg)

end Exact

/-! ## The claims on errors, invariants and frames -/

section MoreClaims
variable {M H : Type} [DecidableEq M]

/-- C11: on every trie node, for every route whose path is not empty and does not begin
with a slash, `Add` returns `ErrMalformedRoute` and leaves the trie unchanged. -/
theorem C11_missing_leading_slash (U : RuneTables) (t : treeNode M H) (m : M)
    (h : Option H) (c : Char) (path : List Char) (hc : c ≠ '/') :
    Add U t ⟨m, c :: path, h⟩ = (t, .err .ErrMalformedRoute) := by
  rw [Add_eq, AddStep_not_slash U (Add U) t m h c path hc]

/-- C11 (witness): `a/b` on a trie that holds `GET /a`. -/
theorem C11_missing_leading_slash_witness :
    'a' ≠ '/' ∧
    Add asciiTables
      (Add asciiTables (emptyRoot : treeNode String Nat) ⟨"GET", "/a".toList, some 1⟩).1
      ⟨"GET", 'a' :: "/b".toList, some 2⟩ =
      ((Add asciiTables (emptyRoot : treeNode String Nat) ⟨"GET", "/a".toList, some 1⟩).1,
        Outcome.err RouteError.ErrMalformedRoute) :=
  ⟨by decide,
    C11_missing_leading_slash asciiTables _ "GET" (some 2) 'a' "/b".toList (by decide)⟩

/-- C12: on every trie, for every path `P ++ "//" ++ rest`, where `P` is a possibly empty
concatenation of slash-prefixed non-empty valid static or variable fragments and `rest`
any string, `Add` returns `ErrMalformedRoute`. -/
theorem C12_doubled_slash (U : RuneTables) (hU : U.slashIsPunct)
    (segs : List (List Char)) (rest : List Char) (m : M) (h : Option H)
    (hsegs : ∀ f ∈ segs, f ≠ [] ∧ validCharacter U f = true ∧ HasPrefix f ['*'] = false)
    (t : treeNode M H) :
    (Add U t ⟨m, slashed segs ++ '/' :: '/' :: rest, h⟩).2 = .err .ErrMalformedRoute := by
  induction segs generalizing t with
  | nil =>
    simp only [slashed, List.nil_append]
    rw [Add_eq, AddStep_slash]
    have : IndexSlash ('/' :: rest) = 0 := (IndexSlash_eq_zero_iff _).mpr rfl
    simp only [this, if_true]
  | cons f fs ih =>
    have hf := hsegs f (List.mem_cons_self _ _)
    have hfs : ∀ g ∈ fs, g ≠ [] ∧ validCharacter U g = true ∧ HasPrefix g ['*'] = false :=
      fun g hg => hsegs g (List.mem_cons_of_mem _ hg)
    simp only [slashed, List.cons_append, List.append_assoc]
    exact Add_descend_err U hU t m h f _ _ hf.1 hf.2.1 hf.2.2
      (Or.inr (slashed_append_head fs _)) (fun c => ih hfs c)

/-- C12 (witness): `/path/:to//document` on the empty root. -/
theorem C12_doubled_slash_witness :
    asciiTables.slashIsPunct ∧
    (∀ f ∈ ["path".toList, ":to".toList], f ≠ [] ∧ validCharacter asciiTables f = true ∧
      HasPrefix f ['*'] = false) ∧
    (Add asciiTables (emptyRoot : treeNode String Nat)
      ⟨"GET", slashed ["path".toList, ":to".toList] ++ '/' :: '/' :: "document".toList,
        some 7⟩).2 = Outcome.err RouteError.ErrMalformedRoute :=
  ⟨⟨rfl, rfl⟩, by decide,
    C12_doubled_slash asciiTables ⟨rfl, rfl⟩ ["path".toList, ":to".toList]
      "document".toList "GET" (some 7) (by decide) emptyRoot⟩

/-- C14: on every trie value, for every method and request path, when `Resolve` returns a
non-nil handler the flag it returns is `true`. -/
theorem C14_handler_implies_found (m : M) (t : treeNode M H) (p : List Char)
    (hsome : (Resolve m t p).1.isSome = true) : (Resolve m t p).2 = true := by
  revert p
  induction t using treeNode.induct with
  | h f s v w hs ihs ihv ihw =>
    intro p
    rw [Resolve]
    by_cases hp : p.length = 0
    · simp [hp]
    · simp only [hp, if_false]
      generalize (if p.head? = some '/' then List.drop 1 p else p) = ip
      generalize firstFragment ip = pf
      have hS : ∀ res, resolveStatic m s ip pf = some res → res.2 = true := by
        clear hp
        induction s with
        | nil => intro res h; simp [resolveStatic] at h
        | cons a as iha =>
          intro res h
          simp only [resolveStatic] at h
          split at h
          · exact iha (fun c hc => ihs c (List.mem_cons_of_mem _ hc)) res h
          · split at h
            · rename_i hsome
              simp only [Option.some.injEq] at h
              rw [← h]
              exact ihs a (List.mem_cons_self _ _) _ hsome
            · exact Option.noConfusion h
      have hV : ∀ res, resolveVariable m v ip = some res → res.2 = true := by
        intro res h
        cases v with
        | none => simp [resolveVariable] at h
        | some vc =>
          simp only [resolveVariable] at h
          split at h
          · split at h
            · rename_i hsome
              simp only [Option.some.injEq] at h
              rw [← h]
              exact ihv vc rfl _ hsome
            · exact Option.noConfusion h
          · exact Option.noConfusion h
      have hW : ∀ res, resolveWildcard m w ip = some res → res.2 = true := by
        intro res h
        cases w with
        | none => simp [resolveWildcard] at h
        | some wc =>
          simp only [resolveWildcard] at h
          split at h
          · simp only [Option.some.injEq] at h
            rw [← h, Resolve_nil]
          · exact Option.noConfusion h
      cases h1 : resolveStatic m s ip pf with
      | some res => intro _; exact hS res h1
      | none =>
        cases h2 : resolveVariable m v ip with
        | some res => intro _; exact hV res h2
        | none =>
          cases h3 : resolveWildcard m w ip with
          | some res => intro _; exact hW res h3
          | none => intro h; simp at h

/-- C14 (witness): `GET /a/b` resolved on the trie that holds it. -/
theorem C14_handler_implies_found_witness :
    (Resolve "GET"
      (Add asciiTables (emptyRoot : treeNode String Nat) ⟨"GET", "/a/b".toList, some 1⟩).1
      "/a/b".toList).1.isSome = true ∧
    (Resolve "GET"
      (Add asciiTables (emptyRoot : treeNode String Nat) ⟨"GET", "/a/b".toList, some 1⟩).1
      "/a/b".toList).2 = true :=
  ⟨by decide, C14_handler_implies_found "GET" _ "/a/b".toList (by decide)⟩

/-- C13: on every trie, for every path `P ++ "/" ++ f ++ tail`, where `P` is a possibly
empty concatenation of slash-prefixed non-empty valid static or variable fragments,
`tail` is empty or begins with a slash, and `f` is a slash-free segment with at least one
character that is neither a letter, a digit, one of `. - _`, nor a `:` or `*` in first
position, `Add` returns `ErrInvalidCharacter`; and `validCharacter f` is true exactly
when every character of `f` is a letter, a digit, one of `. - _`, or is the first
character and one of `:` `*`. -/
theorem C13_invalid_character (U : RuneTables) (hU : U.slashIsPunct) :
    (∀ (segs : List (List Char)) (f tail : List Char) (m : M) (h : Option H)
      (t : treeNode M H),
      (∀ g ∈ segs, g ≠ [] ∧ validCharacter U g = true ∧ HasPrefix g ['*'] = false) →
      '/' ∉ f → (tail = [] ∨ tail.head? = some '/') →
      (∃ i r, f[i]? = some r ∧ ¬ allowedAt U i r) →
      (Add U t ⟨m, slashed segs ++ '/' :: (f ++ tail), h⟩).2 = .err .ErrInvalidCharacter) ∧
    (∀ f : List Char,
      validCharacter U f = true ↔ ∀ i r, f[i]? = some r → allowedAt U i r) := by
  refine ⟨?_, validCharacter_iff U⟩
  intro segs f tail m h t hsegs hslash htail hbad
  have hinvalid : validCharacter U f = false := by
    cases hv : validCharacter U f with
    | false => rfl
    | true =>
      obtain ⟨i, r, hi, hr⟩ := hbad
      exact absurd ((validCharacter_iff U f).mp hv i r hi) hr
  have hne : f ≠ [] := by
    obtain ⟨i, r, hi, _⟩ := hbad
    intro e
    subst e
    simp at hi
  induction segs generalizing t with
  | nil =>
    simp only [slashed, List.nil_append]
    have hff := firstFragment_append f tail hslash htail
    rw [Add_invalid U t m h (f ++ tail) (IndexSlash_append_ne_zero f tail hne hslash)
      (by rw [hff]; exact hinvalid)]
  | cons g gs ih =>
    have hg := hsegs g (List.mem_cons_self _ _)
    have hgs : ∀ x ∈ gs, x ≠ [] ∧ validCharacter U x = true ∧ HasPrefix x ['*'] = false :=
      fun x hx => hsegs x (List.mem_cons_of_mem _ hx)
    simp only [slashed, List.cons_append, List.append_assoc]
    exact Add_descend_err U hU t m h g _ _ hg.1 hg.2.1 hg.2.2
      (Or.inr (slashed_append_head gs _)) (fun c => ih c hgs)

/-- C13 (witness): `/a/b#/c` on the empty root. -/
theorem C13_invalid_character_witness :
    asciiTables.slashIsPunct ∧
    (∀ g ∈ ["a".toList], g ≠ [] ∧ validCharacter asciiTables g = true ∧
      HasPrefix g ['*'] = false) ∧
    '/' ∉ "b#".toList ∧ ("/c".toList = [] ∨ "/c".toList.head? = some '/') ∧
    (∃ i r, "b#".toList[i]? = some r ∧ ¬ allowedAt asciiTables i r) ∧
    (Add asciiTables (emptyRoot : treeNode String Nat)
      ⟨"GET", slashed ["a".toList] ++ '/' :: ("b#".toList ++ "/c".toList), some 7⟩).2 =
      Outcome.err RouteError.ErrInvalidCharacter :=
  ⟨⟨rfl, rfl⟩, by decide, by decide, Or.inr rfl,
    ⟨1, '#', rfl, by unfold allowedAt; decide⟩,
    (C13_invalid_character asciiTables ⟨rfl, rfl⟩).1 ["a".toList] "b#".toList "/c".toList
      "GET" (some 7) emptyRoot (by decide) (by decide) (Or.inr rfl)
      ⟨1, '#', rfl, by unfold allowedAt; decide⟩⟩

/-- C17 (as stated, refuted): registering `/` on the empty root gives the root a static
child whose fragment is empty. -/
theorem C17_counterexample :
    Reachable asciiTables
      (Add asciiTables (emptyRoot : treeNode String Nat) ⟨"GET", "/".toList, some 1⟩).1 ∧
    (Add asciiTables (emptyRoot : treeNode String Nat)
      ⟨"GET", "/".toList, some 1⟩).1.staticChildren.map treeNode.pathFragment = [[]] :=
  ⟨Reachable.add _ _ Reachable.empty, by decide⟩

/-- C17 (amended): in every trie built from the empty root by `Add` calls, every node other
than the root has a fragment that passes `validCharacter`; the fragment of a variable
child or of a wildcard child is not empty, that of a static child may be. -/
theorem C17_fragments_valid (U : RuneTables) (t : treeNode M H) (ht : Reachable U t)
    (n c : treeNode M H) (hn : IsNode n t) (hc : IsChild c n) :
    validCharacter U c.pathFragment = true ∧
    ((n.variableChild = some c ∨ n.wildcardChild = some c) → c.pathFragment ≠ []) := by
  have htidy := (Everywhere_of_isNode (Reachable.tidy U t ht) hn).here_of
  have hshape := Shaped_of_isNode (Reachable.shaped U t ht) hn
  obtain ⟨hS, hV, hW, _⟩ := htidy
  constructor
  · cases hc with
    | ofStatic hmem => exact hS c hmem
    | ofVariable hv => exact hV c hv
    | ofWildcard hw => exact (hW c hw).1
  · cases hshape with
    | mk f s v w hs _ hvar hwild _ _ _ =>
      intro h
      rcases h with h | h
      · exact HasPrefix_ne_nil _ ':' (hvar c h)
      · rw [hwild c h]
        exact List.cons_ne_nil _ _

/-- C17 (witness): the variable child `:id` of the root after `GET /:id`. -/
theorem C17_fragments_valid_witness :
    Reachable asciiTables
      (Add asciiTables (emptyRoot : treeNode String Nat) ⟨"GET", "/:id".toList, some 1⟩).1 ∧
    IsNode
      (Add asciiTables (emptyRoot : treeNode String Nat) ⟨"GET", "/:id".toList, some 1⟩).1
      (Add asciiTables (emptyRoot : treeNode String Nat) ⟨"GET", "/:id".toList, some 1⟩).1 ∧
    IsChild (treeNode.mk ":id".toList [] none none (some [("GET", some 1)]))
      (Add asciiTables (emptyRoot : treeNode String Nat) ⟨"GET", "/:id".toList, some 1⟩).1 ∧
    validCharacter asciiTables
      (treeNode.mk ":id".toList [] none none
        (some [("GET", some 1)]) : treeNode String Nat).pathFragment = true :=
  ⟨Reachable.add _ _ Reachable.empty, IsNode.root _, IsChild.ofVariable _ _ rfl,
    (C17_fragments_valid asciiTables
      (Add asciiTables (emptyRoot : treeNode String Nat) ⟨"GET", "/:id".toList, some 1⟩).1
      (Reachable.add _ _ Reachable.empty)
      (Add asciiTables (emptyRoot : treeNode String Nat) ⟨"GET", "/:id".toList, some 1⟩).1
      (treeNode.mk ":id".toList [] none none (some [("GET", some 1)]))
      (IsNode.root _) (IsChild.ofVariable _ _ rfl)).1⟩

/-- C18: in every trie built from the empty root by `Add` calls, every node reached as some
node's wildcard child has no static children, no variable child and no wildcard child. -/
theorem C18_wildcard_is_leaf (U : RuneTables) (t : treeNode M H) (ht : Reachable U t)
    (n c : treeNode M H) (hn : IsNode n t) (hc : n.wildcardChild = some c) :
    c.staticChildren = [] ∧ c.variableChild = none ∧ c.wildcardChild = none :=
  ((Everywhere_of_isNode (Reachable.tidy U t ht) hn).here_of.2.2.1 c hc).2

/-- C18 (witness): the wildcard child of the root after `GET /*` and `POST /*`. -/
theorem C18_wildcard_is_leaf_witness :
    Reachable asciiTables
      (Add asciiTables
        (Add asciiTables (emptyRoot : treeNode String Nat) ⟨"GET", "/*".toList, some 1⟩).1
        ⟨"POST", "/*".toList, some 2⟩).1 ∧
    (Add asciiTables
      (Add asciiTables (emptyRoot : treeNode String Nat) ⟨"GET", "/*".toList, some 1⟩).1
      ⟨"POST", "/*".toList, some 2⟩).1.wildcardChild =
      some (treeNode.mk ['*'] [] none none (some [("POST", some 2), ("GET", some 1)])) ∧
    (treeNode.mk ['*'] [] none none (some [("POST", some 2), ("GET", some 1)]) :
      treeNode String Nat).staticChildren = [] :=
  ⟨Reachable.add _ _ (Reachable.add _ _ Reachable.empty), rfl,
    (C18_wildcard_is_leaf asciiTables
      (Add asciiTables
        (Add asciiTables (emptyRoot : treeNode String Nat) ⟨"GET", "/*".toList, some 1⟩).1
        ⟨"POST", "/*".toList, some 2⟩).1
      (Reachable.add _ _ (Reachable.add _ _ Reachable.empty))
      (Add asciiTables
        (Add asciiTables (emptyRoot : treeNode String Nat) ⟨"GET", "/*".toList, some 1⟩).1
        ⟨"POST", "/*".toList, some 2⟩).1
      (treeNode.mk ['*'] [] none none (some [("POST", some 2), ("GET", some 1)]))
      (IsNode.root _) rfl).1⟩

/-- C19: in every trie built from the empty root by `Add` calls, the fragments of the
static children of any one node are pairwise distinct. -/
theorem C19_sibling_fragments_distinct (U : RuneTables) (t : treeNode M H)
    (ht : Reachable U t) (n : treeNode M H) (hn : IsNode n t) :
    (n.staticChildren.map treeNode.pathFragment).Nodup :=
  (Everywhere_of_isNode (Reachable.tidy U t ht) hn).here_of.2.2.2

/-- C19 (witness): the root after `/a`, `/b` and `/a` again under another method. -/
theorem C19_sibling_fragments_distinct_witness :
    Reachable asciiTables
      (Add asciiTables
        (Add asciiTables
          (Add asciiTables (emptyRoot : treeNode String Nat) ⟨"GET", "/a".toList, some 1⟩).1
          ⟨"GET", "/b".toList, some 2⟩).1
        ⟨"POST", "/a".toList, some 3⟩).1 ∧
    ((Add asciiTables
        (Add asciiTables
          (Add asciiTables (emptyRoot : treeNode String Nat) ⟨"GET", "/a".toList, some 1⟩).1
          ⟨"GET", "/b".toList, some 2⟩).1
        ⟨"POST", "/a".toList, some 3⟩).1.staticChildren.map treeNode.pathFragment).Nodup :=
  ⟨Reachable.add _ _ (Reachable.add _ _ (Reachable.add _ _ Reachable.empty)),
    C19_sibling_fragments_distinct asciiTables _
      (Reachable.add _ _ (Reachable.add _ _ (Reachable.add _ _ Reachable.empty))) _
      (IsNode.root _)⟩

/-- C20: for every trie and every route, after `Add` (successful or not) every node present
before is still present at the same position with the same fragment, the sequence of its
static children before the call is a prefix of the sequence after the call, a variable
or wildcard child present before is still that node's variable or wildcard child, and
every method with a non-nil handler before has the same handler after. -/
theorem C20_insertion_only_appends (U : RuneTables) (t : treeNode M H) (route : Route M H) :
    Extends t (Add U t route).1 :=
  AddFuel_extends U _ t route

/-- C15: for every trie built from the empty root by a sequence of `Add` calls whose paths
have no segment beginning with `:` or `*` and whose handlers are non-nil, and for every
method `m` and request path `p` beginning with a slash, `Resolve(m, p)` returns
`(H, true)` if and only if some `Add` call of the sequence with method `m`, path exactly
`p` and handler `H` returned no error; when there is no such call it returns
`(nil, false)`. -/
theorem C15_static_routing_exact (U : RuneTables) (rs : List (Route M H))
    (hrs : ∀ r ∈ rs, staticPath r.Path = true ∧ ∃ h, r.Handler = some h)
    (m : M) (p : List Char) (hp : p.head? = some '/') :
    (∀ h, Resolve m (AddAll U emptyRoot rs) p = (some h, true) ↔
      Registered U emptyRoot rs m p h) ∧
    ((∀ h, ¬ Registered U emptyRoot rs m p h) →
      Resolve m (AddAll U emptyRoot rs) p = (none, false)) := by
  have hne : p ≠ [] := by
    intro e
    subst e
    simp at hp
  have h0 : Resolve m (emptyRoot : treeNode M H) p = (none, false) :=
    Resolve_emptyRoot m p hne
  obtain ⟨e1, e2⟩ := AddAll_exact U rs emptyRoot Shaped_emptyRoot hrs m p hp
  constructor
  · intro h
    rw [e1 h, h0]
    simp
  · exact e2 h0

/-- C15 (witness): `/a` and `/a/` are registered with different handlers; `/a/` resolves
to the second. -/
theorem C15_static_routing_exact_witness :
    (∀ r ∈ ([⟨"GET", "/a".toList, some 1⟩, ⟨"GET", "/a/".toList, some 2⟩] :
        List (Route String Nat)), staticPath r.Path = true ∧ ∃ h, r.Handler = some h) ∧
    "/a/".toList.head? = some '/' ∧
    (Resolve "GET"
      (AddAll asciiTables (emptyRoot : treeNode String Nat)
        [⟨"GET", "/a".toList, some 1⟩, ⟨"GET", "/a/".toList, some 2⟩])
      "/a/".toList = (some 2, true) ↔
    Registered asciiTables (emptyRoot : treeNode String Nat)
      [⟨"GET", "/a".toList, some 1⟩, ⟨"GET", "/a/".toList, some 2⟩] "GET" "/a/".toList 2) :=
  ⟨by
      intro r hr
      simp only [List.mem_cons, List.mem_singleton, List.not_mem_nil, or_false] at hr
      rcases hr with rfl | rfl
      · exact ⟨by decide, 1, rfl⟩
      · exact ⟨by decide, 2, rfl⟩,
    rfl,
    (C15_static_routing_exact asciiTables
      [⟨"GET", "/a".toList, some 1⟩, ⟨"GET", "/a/".toList, some 2⟩]
      (by
        intro r hr
        simp only [List.mem_cons, List.mem_singleton, List.not_mem_nil, or_false] at hr
        rcases hr with rfl | rfl
        · exact ⟨by decide, 1, rfl⟩
        · exact ⟨by decide, 2, rfl⟩)
      "GET" "/a/".toList rfl).1 2⟩

/-- C16: on every trie built from the empty root by `Add` calls, for every route `r`,
method `m` and request path `q`, if `Resolve(m, q)` returns `(H, true)` with `H` non-nil
before `Add(r)`, it returns the same `(H, true)` after `Add(r)`, whether `Add(r)`
succeeded or failed. -/
theorem C16_registration_keeps_resolutions (U : RuneTables) (t : treeNode M H)
    (ht : Reachable U t) (route : Route M H) (m : M) (q : List Char) (h : H)
    (hres : Resolve m t q = (some h, true)) :
    Resolve m (Add U t route).1 q = (some h, true) := by
  have hmono : Resolve m (Add U t route).1 q = Resolve m t q :=
    AddFuel_mono U _ t route (Reachable.shaped U t ht) m q (by rw [hres]; rfl)
  rw [hmono, hres]

/-- C16 (witness): `GET /a/:id` keeps its handler when `GET /a/:id/b` is registered. -/
theorem C16_registration_keeps_resolutions_witness :
    Reachable asciiTables
      (Add asciiTables (emptyRoot : treeNode String Nat) ⟨"GET", "/a/:id".toList, some 1⟩).1 ∧
    Resolve "GET"
      (Add asciiTables (emptyRoot : treeNode String Nat) ⟨"GET", "/a/:id".toList, some 1⟩).1
      "/a/:id".toList = (some 1, true) ∧
    Resolve "GET"
      (Add asciiTables
        (Add asciiTables (emptyRoot : treeNode String Nat) ⟨"GET", "/a/:id".toList, some 1⟩).1
        ⟨"GET", "/a/:id/b".toList, some 2⟩).1
      "/a/:id".toList = (some 1, true) :=
  ⟨Reachable.add _ _ Reachable.empty, by decide,
    C16_registration_keeps_resolutions asciiTables
      (Add asciiTables (emptyRoot : treeNode String Nat) ⟨"GET", "/a/:id".toList, some 1⟩).1
      (Reachable.add _ _ Reachable.empty) ⟨"GET", "/a/:id/b".toList, some 2⟩ "GET"
      "/a/:id".toList 1 (by decide)⟩

end MoreClaims

end HttpRouter
